import Mathlib

/-! # Word track-changes engine

A shallow embedding of the track-changes and comment scripts of the Word
Document Editor (`docx-utils.js`, `apply-change.js`, `apply-all-changes.js`,
`add-change.js`, `add-comment.js`) and of `processInlineFormatting` of the
Documentor scripts (`docs.js`), together with the properties proved about them.

The XML tree of a part is a list of top-level nodes (the children of the DOM
`Document` node).  A node is identified by its position: the list of child
indices leading to it from the `Document` node.  Deep copies made by
`cloneNode(true)` are equal as values and differ only in position.

The tree holds the elements and the text of a part.  The XML declaration a
part starts with is no node of this tree: whether the serializer writes it
back belongs to the platform.
-/

namespace Docx

/-! ## Data model -/

/-- Word XML namespace (`NS_W` in `docx-utils.js`). -/
def NS_W : String := "http://schemas.openxmlformats.org/wordprocessingml/2006/main"

/-- A DOM node: character data, or an element with its namespace URI, local
name, attributes (qualified name and value) and ordered children. -/
inductive Node where
  | text (value : String)
  | elem (ns : String) (name : String) (attrs : List (String × String)) (children : List Node)
deriving Repr

/-- Position of a node: child indices from the `Document` node downwards. -/
abbrev NodePath := List Nat

/-- The `childNodes` of a node. -/
def Node.childNodes : Node → List Node
  | .text _ => []
  | .elem _ _ _ cs => cs

/-- The `nodeValue` of a node (null for an element). -/
def Node.nodeValue : Node → Option String
  | .text v => some v
  | .elem _ _ _ _ => none

/-- `getAttribute(qname)`: the value of the first attribute with that qualified name. -/
def Node.getAttribute : Node → String → Option String
  | .text _, _ => none
  | .elem _ _ attrs _, q => (attrs.find? fun a => a.1 == q).map fun a => a.2

/-- The XPath name test `w:name` with the prefix `w` bound to `NS_W`. -/
def Node.isW (name : String) : Node → Bool
  | .text _ => false
  | .elem ns nm _ _ => ns == NS_W && nm == name

/-- JavaScript `a || b` on a possibly absent string: `b` when `a` is absent or empty. -/
def orElse (a : Option String) (b : String) : String :=
  match a with
  | some v => if v = "" then b else v
  | none => b

/-! ## JavaScript strings -/

/-- `s.includes(t)`: `t` occurs in `s` as a contiguous substring. -/
def includes (s t : String) : Bool :=
  s.data.tails.any fun u => t.data.isPrefixOf u

/-- `s.startsWith(t)`. -/
def startsWith (s t : String) : Bool :=
  t.data.isPrefixOf s.data

/-- `s.slice(a, b)` for `0 ≤ a ≤ b`. -/
def slice (s : String) (a b : Nat) : String :=
  ⟨(s.data.take b).drop a⟩

/-- `s.replace(pat, rep)` with a string pattern on the characters of `s`: only
the first occurrence is replaced (`rep` holds no `$` pattern). -/
def replaceFirstChars (pat rep : List Char) : List Char → List Char
  | [] => if pat = [] then rep else []
  | c :: cs =>
      if pat.isPrefixOf (c :: cs) then rep ++ (c :: cs).drop pat.length
      else c :: replaceFirstChars pat rep cs

/-- `s.replace(pat, rep)` with a string pattern. -/
def replaceFirst (s pat rep : String) : String :=
  ⟨replaceFirstChars pat.data rep.data s.data⟩

/-! ## Document order and XPath selection -/

mutual
/-- All nodes of the forest `cs`, whose first tree stands at child index `i`,
in document order, each with its position relative to the parent of `cs`. -/
def nodesFrom : Nat → List Node → List (NodePath × Node)
  | _, [] => []
  | i, n :: rest =>
      ([i], n) :: ((nodesBelow n).map fun q => (i :: q.1, q.2)) ++ nodesFrom (i + 1) rest
/-- All proper descendants of a node in document order, with positions relative to it. -/
def nodesBelow : Node → List (NodePath × Node)
  | .text _ => []
  | .elem _ _ _ cs => nodesFrom 0 cs
end

/-- `select('//w:name', doc)`: every element of the document with that name,
in document order, with its position. -/
def select (name : String) (doc : List Node) : List (NodePath × Node) :=
  (nodesFrom 0 doc).filter fun q => q.2.isW name

mutual
/-- `select('.//w:t/text()', elem)` on a child list: `cs` are the children of
an element and `parentIsT` tells whether that element is a `w:t` below the
context node.  The result holds the values of the text nodes whose parent is a
`w:t` element below the context node, in document order. -/
def textNodesOfT : Bool → List Node → List String
  | _, [] => []
  | parentIsT, n :: rest => textNodesOfNode parentIsT n ++ textNodesOfT parentIsT rest
/-- The part of `select('.//w:t/text()', elem)` found at one node `n` and below
it: `n` itself when it is a text node with a `w:t` parent. -/
def textNodesOfNode : Bool → Node → List String
  | parentIsT, .text v => if parentIsT then [v] else []
  | _, .elem ns nm _ cs => textNodesOfT (ns == NS_W && nm == "t") cs
end

/-- Extract text content from a Word XML element (`getTextFromElement`). -/
def getTextFromElement (elem : Node) : String :=
  String.join (textNodesOfT false elem.childNodes)

/-! ## Change records -/

/-- `parseDate`: null for an empty string; the ISO form cut to 19 characters
with `T` replaced by a blank when the string contains `T` and the platform
`Date` accepts it; the string itself otherwise.  `toISOString` is the
platform's `new Date(s).toISOString()`, `none` when it throws. -/
def parseDate (toISOString : String → Option String) (dateStr : String) : Option String :=
  if dateStr = "" then none
  else if includes dateStr "T" then
    match toISOString dateStr with
    | some iso => some (replaceFirst (slice iso 0 19) "T" " ")
    | none => some dateStr
  else some dateStr

/-- A change record as built by `listTrackChanges`. -/
structure ChangeRecord where
  id : Nat
  type : String
  author : String
  date : Option String
  text : String
  status : String
  element : String
deriving DecidableEq, Repr

/-- The record pushed for a `w:ins` element. -/
def insertionRecord (toISOString : String → Option String) (ins : Node) (changeId : Nat) :
    ChangeRecord :=
  { id := changeId
    type := "Insertion"
    author := orElse (ins.getAttribute "w:author") "Unknown"
    date := parseDate toISOString (orElse (ins.getAttribute "w:date") "")
    text := getTextFromElement ins
    status := "Pending"
    element := "ins" }

/-- The record pushed for a `w:del` element. -/
def deletionRecord (toISOString : String → Option String) (del : Node) (changeId : Nat) :
    ChangeRecord :=
  { id := changeId
    type := "Deletion"
    author := orElse (del.getAttribute "w:author") "Unknown"
    date := parseDate toISOString (orElse (del.getAttribute "w:date") "")
    text := getTextFromElement del
    status := "Pending"
    element := "del" }

/-- The record pushed for a `w:rPrChange` element. -/
def runFormattingRecord (toISOString : String → Option String) (fmt : Node) (changeId : Nat) :
    ChangeRecord :=
  { id := changeId
    type := "Formatting (Run)"
    author := orElse (fmt.getAttribute "w:author") "Unknown"
    date := parseDate toISOString (orElse (fmt.getAttribute "w:date") "")
    text := "[Formatting change]"
    status := "Pending"
    element := "rPrChange" }

/-- The record pushed for a `w:pPrChange` element. -/
def paragraphFormattingRecord (toISOString : String → Option String) (fmt : Node)
    (changeId : Nat) : ChangeRecord :=
  { id := changeId
    type := "Formatting (Paragraph)"
    author := orElse (fmt.getAttribute "w:author") "Unknown"
    date := parseDate toISOString (orElse (fmt.getAttribute "w:date") "")
    text := "[Formatting change]"
    status := "Pending"
    element := "pPrChange" }

/-- One `for (const e of elems) { changes.push({ id: changeId++, ... }) }` loop:
the state is the list built so far and the counter `changeId`. -/
def pushChanges (mk : Node → Nat → ChangeRecord) :
    List (NodePath × Node) → List ChangeRecord × Nat → List ChangeRecord × Nat
  | [], st => st
  | e :: rest, (changes, changeId) =>
      pushChanges mk rest (changes ++ [mk e.2 changeId], changeId + 1)

/-- The body of `listTrackChanges` once `word/document.xml` is parsed. -/
def listChanges (toISOString : String → Option String) (doc : List Node) : List ChangeRecord :=
  let st0 : List ChangeRecord × Nat := ([], 1)
  let st1 := pushChanges (insertionRecord toISOString) (select "ins" doc) st0
  let st2 := pushChanges (deletionRecord toISOString) (select "del" doc) st1
  let st3 := pushChanges (runFormattingRecord toISOString) (select "rPrChange" doc) st2
  let st4 := pushChanges (paragraphFormattingRecord toISOString) (select "pPrChange" doc) st3
  st4.1

/-! ## Packages, files and the platform -/

/-- A docx package as read by `readDocx`: part path to text content. -/
abbrev Package := String → Option String

/-- The files on disk that hold a package, by path. -/
abbrev FileSystem := String → Option Package

/-- `zip.file(name, content)`: create or overwrite a part. -/
def Package.setFile (zip : Package) (name content : String) : Package :=
  fun n => if n = name then some content else zip n

/-- `writeDocx(zip, outputPath)` and `copyFileSync`: the file at `path` now holds `zip`. -/
def FileSystem.writeFile (fs : FileSystem) (path : String) (zip : Package) : FileSystem :=
  fun p => if p = path then some zip else fs p

/-- The library functions the scripts call and this repository does not define:
the `@xmldom/xmldom` parser and serializer and the `Date` conversion.
`documentTakesText` tells whether `insertBefore` on the `Document` node lets a
text node in. -/
structure Platform where
  parseFromString : String → List Node
  serializeToString : List Node → String
  toISOString : String → Option String
  documentTakesText : Bool := true

/-- Parse XML string to document (`parseXml`). -/
def parseXml (P : Platform) (xmlString : String) : List Node :=
  P.parseFromString xmlString

/-- Serialize document to XML string (`serializeXml`). -/
def serializeXml (P : Platform) (doc : List Node) : String :=
  "<?xml version=\"1.0\" encoding=\"UTF-8\" standalone=\"yes\"?>" ++ P.serializeToString doc

/-- The errors the scripts throw. -/
inductive Failure where
  | noSuchFile
  | invalidStructure
  | changeNotFound
  | cannotLocate
  | bodyNotFound
  | unsupportedType
  | typeError
  | hierarchyRequest
deriving DecidableEq, Repr

/-- How a script run ends: a returned value, `process.exit(0)` after the user
declined, or a thrown error. -/
inductive Outcome (α : Type) where
  | ok (value : α)
  | cancelled
  | failed (e : Failure)
deriving DecidableEq, Repr

/-- The text of `word/document.xml`, as the scripts obtain it: the read fails
when the file is absent, and a missing or empty part is an invalid structure. -/
def readDocumentXml (fs : FileSystem) (path : String) : Except Failure (Package × String) :=
  match fs path with
  | none => .error .noSuchFile
  | some zip =>
    match zip "word/document.xml" with
    | none => .error .invalidStructure
    | some docXml => if docXml = "" then .error .invalidStructure else .ok (zip, docXml)

/-- List all track changes in a Word document (`listTrackChanges`). -/
def listTrackChanges (P : Platform) (fs : FileSystem) (docxPath : String) :
    Except Failure (List ChangeRecord) :=
  match readDocumentXml fs docxPath with
  | .error e => .error e
  | .ok (_, docXml) => .ok (listChanges P.toISOString (parseXml P docXml))

/-! ## DOM mutation -/

/-- `parent.insertBefore(newChild, ref)` on the child list of `parent`, where
`ref` is the index of the reference child. -/
def insertBefore (newChild : Node) (ref : Nat) (cs : List Node) : List Node :=
  cs.take ref ++ newChild :: cs.drop ref

/-- `parent.removeChild(child)` on the child list of `parent`, where `i` is the
index of the child. -/
def removeChild (i : Nat) (cs : List Node) : List Node :=
  cs.take i ++ cs.drop (i + 1)

/-- `node.cloneNode(true)`: a deep copy, equal to the node as a value. -/
def cloneNode (n : Node) : Node := n

/-- The loop `for (const child of children) parent.insertBefore(child.cloneNode(true), target)`:
`i` is the current index of `target` among the children `cs` of its parent. -/
def insertClones : List Node → Nat → List Node → Nat × List Node
  | [], i, cs => (i, cs)
  | child :: rest, i, cs => insertClones rest (i + 1) (insertBefore (cloneNode child) i cs)

/-- Whether `insertBefore` on the `Document` node throws `HierarchyRequestError`
for the new child: a document that has its element takes no second one, and a
text node is taken or refused as the library has it. -/
def Platform.documentRefuses (P : Platform) : Node → Bool
  | .elem _ _ _ _ => true
  | .text _ => !P.documentTakesText

/-- Whether the loop `for (const child of children) parent.insertBefore(child.cloneNode(true), target)`
throws for the target at position `p`: its parent is the `Document` node, which
holds the target as its element and refuses one of the children. -/
def insertBeforeThrows (P : Platform) (p : NodePath) (children : List Node) : Bool :=
  p.length == 1 && children.any P.documentRefuses

/-- Accept insertion: replace `w:ins` with its children (keep the content).
`i` is the index of the wrapper among the children `cs` of its parent.  The
scripts use the result where `insertBeforeThrows` is false; where it is true
the loop has thrown. -/
def acceptInsertion (i : Nat) (cs : List Node) : List Node :=
  match cs[i]? with
  | none => cs
  | some targetElement =>
    let st := insertClones targetElement.childNodes i cs
    removeChild st.1 st.2

/-- Replace the children of the element at index `i` of `cs` by `f` of them. -/
def mapChildrenAt (f : List Node → List Node) : Nat → List Node → List Node
  | _, [] => []
  | 0, .elem ns nm attrs ch :: rest => .elem ns nm attrs (f ch) :: rest
  | 0, .text v :: rest => .text v :: rest
  | i + 1, n :: rest => n :: mapChildrenAt f i rest

/-- Run the edit `g` on the child list of the parent of the node at position
`p`, passing the index of that node (`const parent = target.parentNode; ...`). -/
def atParentOf (g : Nat → List Node → List Node) : NodePath → List Node → List Node
  | [] => fun doc => doc
  | [i] => fun doc => g i doc
  | i :: q => fun doc => mapChildrenAt (atParentOf g q) i doc

/-- The node at a position. -/
def nodeAt : NodePath → List Node → Option Node
  | [], _ => none
  | [i], cs => cs[i]?
  | i :: q, cs =>
    match cs[i]? with
    | some n => nodeAt q n.childNodes
    | none => none

/-! ## apply-change.js -/

/-- The number `changeId` handed to `applyChange`: the CLI passes the result of
`parseInt`, an integer or `NaN`. -/
inductive JsNumber where
  | num (n : Int)
  | nan
deriving DecidableEq, Repr

/-- `c.id === changeId`. -/
def idEq (id : Nat) : JsNumber → Bool
  | .num n => decide ((id : Int) = n)
  | .nan => false

/-- The loop that counts, up to the record with the requested id, the records
of the same element kind (`targetIndex`). -/
def targetIndexLoop (changeId : JsNumber) (element : String) :
    List ChangeRecord → Nat → Nat
  | [], targetIndex => targetIndex
  | c :: rest, targetIndex =>
      if idEq c.id changeId then targetIndex
      else targetIndexLoop changeId element rest
        (if c.element = element then targetIndex + 1 else targetIndex)

/-- The element `applyChange` picks: `changeElements[targetIndex]`, with its position. -/
def targetElement (changes : List ChangeRecord) (change : ChangeRecord) (changeId : JsNumber)
    (docDoc : List Node) : Option (NodePath × Node) :=
  let changeElements := select change.element docDoc
  let targetIndex := targetIndexLoop changeId change.element changes 0
  changeElements[targetIndex]?

/-- The accept transform of `applyChange` for the record `change` on the element at `p`. -/
def acceptAt (change : ChangeRecord) (p : NodePath) (docDoc : List Node) : List Node :=
  if change.type = "Insertion" then atParentOf acceptInsertion p docDoc
  else if change.type = "Deletion" then atParentOf removeChild p docDoc
  else if startsWith change.type "Formatting" then atParentOf removeChild p docDoc
  else docDoc

/-- What `applyChange` returns. -/
structure ApplyResult where
  changeId : JsNumber
  type : String
deriving DecidableEq, Repr

/-- `outputPath || docxPath`. -/
def pathOr (outputPath : Option String) (docxPath : String) : String :=
  orElse outputPath docxPath

/-- `if (outputPath && outputPath !== docxPath) copyFileSync(docxPath, outputPath)`. -/
def copyIfDifferent (fs : FileSystem) (docxPath : String) (outputPath : Option String) :
    FileSystem :=
  match outputPath with
  | none => fs
  | some o =>
    if o = "" ∨ o = docxPath then fs
    else match fs docxPath with
      | some zip => fs.writeFile o zip
      | none => fs

/-- Apply a track change in a Word document (`applyChange`).  `answer` is the
user's reply to the confirmation prompt, asked unless `skipConfirmation`.
Returns how the run ends and the files afterwards.  An insertion whose wrapper
is a child of the `Document` node ends with the error `insertBefore` throws,
before anything is written. -/
def applyChange (P : Platform) (fs : FileSystem) (docxPath : String) (changeId : JsNumber)
    (outputPath : Option String) (skipConfirmation : Bool) (answer : Bool) :
    Outcome ApplyResult × FileSystem :=
  match listTrackChanges P fs docxPath with
  | .error e => (.failed e, fs)
  | .ok changes =>
    match changes.find? fun c => idEq c.id changeId with
    | none => (.failed .changeNotFound, fs)
    | some change =>
      if !skipConfirmation && !answer then (.cancelled, fs)
      else
        let finalOutputPath := pathOr outputPath docxPath
        let fs1 := copyIfDifferent fs docxPath outputPath
        match readDocumentXml fs1 (pathOr outputPath docxPath) with
        | .error e => (.failed e, fs1)
        | .ok (zip, docXml) =>
          let docDoc := parseXml P docXml
          match targetElement changes change changeId docDoc with
          | none => (.failed .cannotLocate, fs1)
          | some target =>
            if change.type = "Insertion" ∧
                insertBeforeThrows P target.1 target.2.childNodes = true then
              (.failed .hierarchyRequest, fs1)
            else
              let docDoc1 := acceptAt change target.1 docDoc
              let zip1 := zip.setFile "word/document.xml" (serializeXml P docDoc1)
              (.ok { changeId := changeId, type := change.type },
                fs1.writeFile finalOutputPath zip1)

/-! ## apply-all-changes.js -/

/-- The DOM while a loop runs over a snapshot `select(...)` took beforehand:
the document, and for the node that stood at a position when the snapshot was
taken its position now, `none` once it no longer hangs in the document. -/
structure Live where
  doc : List Node
  position : NodePath → Option NodePath

/-- Where the node at `q` stands after the child at `p` was replaced by `k`
nodes: later siblings of `p` (and what is below them) move by `k - 1`, the
node at `p` and what is below it leave the document with the removed child. -/
def relocate : NodePath → Nat → NodePath → Option NodePath
  | [], _, q => some q
  | _ :: _, _, [] => some []
  | [i], k, j :: q =>
      if j < i then some (j :: q) else if j = i then none else some ((j + k - 1) :: q)
  | i :: p, k, j :: q =>
      if j = i then (relocate p k q).map fun r => j :: r else some (j :: q)

/-- One pass of the insertion loop of `applyAllChanges` for the snapshot entry
`ins`: clones of the children go before the wrapper in its parent and the
wrapper is removed.  A wrapper that has left the document with an enclosing
wrapper still has its parent, so the edit happens in that orphaned subtree and
the document stays as it is. -/
def acceptInsertionStep (st : Live) (ins : NodePath × Node) : Live :=
  match st.position ins.1 with
  | none => st
  | some p =>
    let k := match nodeAt p st.doc with
      | some n => n.childNodes.length
      | none => 0
    { doc := atParentOf acceptInsertion p st.doc
      position := fun q => (st.position q).bind (relocate p k) }

/-- Whether the insertion loop of `applyAllChanges` throws on the snapshot
entries still to visit: at one of them, reached with the DOM as the passes
before it left it, the parent is the `Document` node and `insertBefore` throws. -/
def insertionLoopThrows (P : Platform) : List (NodePath × Node) → Live → Bool
  | [], _ => false
  | ins :: rest, st =>
      (match st.position ins.1 with
        | none => false
        | some p =>
          insertBeforeThrows P p
            (match nodeAt p st.doc with
              | some n => n.childNodes
              | none => [])) ||
        insertionLoopThrows P rest (acceptInsertionStep st ins)

/-- One pass of a removal loop of `applyAllChanges` (`w:del`, `w:rPrChange`,
`w:pPrChange`): `e.parentNode.removeChild(e)`. -/
def removeStep (st : Live) (e : NodePath × Node) : Live :=
  match st.position e.1 with
  | none => st
  | some p =>
    { doc := atParentOf removeChild p st.doc
      position := fun q => (st.position q).bind (relocate p 0) }

/-- `const es = select('//w:name', docDoc); for (const e of es) step(e)`. -/
def forEachSelected (name : String) (step : Live → NodePath × Node → Live)
    (docDoc : List Node) : List Node :=
  ((select name docDoc).foldl step { doc := docDoc, position := some }).doc

/-- The four loops of `applyAllChanges` on the parsed `word/document.xml`. -/
def acceptAllInDoc (docDoc : List Node) : List Node :=
  let d1 := forEachSelected "ins" acceptInsertionStep docDoc
  let d2 := forEachSelected "del" removeStep d1
  let d3 := forEachSelected "rPrChange" removeStep d2
  forEachSelected "pPrChange" removeStep d3

/-- The filters of `applyAllChanges`; a null or empty filter is not applied.
`toLowerCase` is the platform's `String.prototype.toLowerCase`. -/
def applyFilters (toLowerCase : String → String) (filterAuthor filterType : Option String)
    (changes : List ChangeRecord) : List ChangeRecord :=
  let changes1 :=
    if orElse filterAuthor "" = "" then changes
    else changes.filter fun c => c.author = orElse filterAuthor ""
  if orElse filterType "" = "" then changes1
  else changes1.filter fun c =>
    includes (toLowerCase c.type) (toLowerCase (orElse filterType ""))

/-- Apply all track changes in a Word document (`applyAllChanges`).  `answer`
is the user's reply to the confirmation prompt, asked unless
`skipConfirmation`.  Returns the count `applied` and the files afterwards; a
run whose insertion loop throws ends with that error before anything is
written. -/
def applyAllChanges (P : Platform) (toLowerCase : String → String) (fs : FileSystem)
    (docxPath : String) (outputPath filterAuthor filterType : Option String)
    (skipConfirmation : Bool) (answer : Bool) : Outcome Nat × FileSystem :=
  match listTrackChanges P fs docxPath with
  | .error e => (.failed e, fs)
  | .ok allChanges =>
    let changes := applyFilters toLowerCase filterAuthor filterType allChanges
    if changes.length = 0 then (.ok 0, fs)
    else if !skipConfirmation && !answer then (.cancelled, fs)
    else
      let finalOutputPath := pathOr outputPath docxPath
      let fs1 := copyIfDifferent fs docxPath outputPath
      match readDocumentXml fs1 (pathOr outputPath docxPath) with
      | .error e => (.failed e, fs1)
      | .ok (zip, docXml) =>
        let docDoc := parseXml P docXml
        if insertionLoopThrows P (select "ins" docDoc) { doc := docDoc, position := some } then
          (.failed .hierarchyRequest, fs1)
        else
          let docDoc1 := acceptAllInDoc docDoc
          let zip1 := zip.setFile "word/document.xml" (serializeXml P docDoc1)
          (.ok changes.length, fs1.writeFile finalOutputPath zip1)

/-! ## add-change.js -/

/-- `elem.textContent = text` on a fresh element: one text node, none for the
empty string. -/
def textContent (text : String) : List Node :=
  if text = "" then [] else [.text text]

/-- `createElementNS(nsW, 'w:' + name)` followed by the `setAttribute` and
`appendChild` calls made on it. -/
def createElementNS (name : String) (attrs : List (String × String)) (children : List Node) :
    Node :=
  .elem NS_W name attrs children

/-- Run the edit `f` on the child list of the element at position `p`. -/
def atNode (f : List Node → List Node) : NodePath → List Node → List Node
  | [] => fun doc => doc
  | [i] => fun doc => mapChildrenAt f i doc
  | i :: q => fun doc => mapChildrenAt (atNode f q) i doc

/-- The paragraph `addChange` builds: `w:p` holding the change element, which
holds a run with the text in `w:t`, or in `w:delText` for a deletion (the
`w:t` is removed from the run again).  `none` for an unsupported type. -/
def changeParagraph (text type author changeDate : String) : Option Node :=
  let attrs := [("w:author", author), ("w:date", changeDate)]
  let textElem := createElementNS "t" [] (textContent text)
  let run :=
    if type = "deletion" then
      createElementNS "r" [] (removeChild 0 [textElem] ++
        [createElementNS "delText" [] (textContent text)])
    else createElementNS "r" [] [textElem]
  if type = "insertion" then
    some (createElementNS "p" [] [createElementNS "ins" attrs [run]])
  else if type = "deletion" then
    some (createElementNS "p" [] [createElementNS "del" attrs [run]])
  else none

/-- The edit of `addChange` on the parsed `word/document.xml`: the new
paragraph is appended to the first `w:body`.  `changeDate` is the current time
in ISO form. -/
def addChangeInDoc (docDoc : List Node) (text type author changeDate : String) :
    Except Failure (List Node) :=
  match (select "body" docDoc)[0]? with
  | none => .error .bodyNotFound
  | some body =>
    match changeParagraph text type author changeDate with
    | none => .error .unsupportedType
    | some para => .ok (atNode (fun cs => cs ++ [para]) body.1 docDoc)

/-! ## Vocabulary of the statements -/

/-- The four element kinds `listTrackChanges` looks for. -/
def isChangeWrapper (n : Node) : Bool :=
  n.isW "ins" || n.isW "del" || n.isW "rPrChange" || n.isW "pPrChange"

/-- The records one loop pushes for the elements `es` when the counter starts at `start`. -/
def recordsFrom (mk : Node → Nat → ChangeRecord) (es : List (NodePath × Node)) (start : Nat) :
    List ChangeRecord :=
  List.zipWith (fun e i => mk e.2 i) es (List.range' start es.length)

/-- The change wrappers of a document in the order `listTrackChanges` visits
them, each with its element kind: the record with id `i` is built from the
entry at index `i - 1`. -/
def changeWrappers (doc : List Node) : List (String × (NodePath × Node)) :=
  (select "ins" doc).map (fun e => ("ins", e)) ++
  ((select "del" doc).map (fun e => ("del", e)) ++
  ((select "rPrChange" doc).map (fun e => ("rPrChange", e)) ++
  (select "pPrChange" doc).map (fun e => ("pPrChange", e))))

/-- One step on the way from the `Document` node to a child list: the element
entered, with the siblings before and after it. -/
structure Frame where
  before : List Node
  ns : String
  name : String
  attrs : List (String × String)
  after : List Node

/-- The document that has the child list `hole` at the place the frames lead
to (outermost frame first); everything outside that child list is fixed by the
frames. -/
def plug : List Frame → List Node → List Node
  | [], hole => hole
  | f :: ctx, hole => f.before ++ .elem f.ns f.name f.attrs (plug ctx hole) :: f.after

/-- The position of the element whose child list is the hole (empty for the
`Document` node itself). -/
def holePath (ctx : List Frame) : NodePath :=
  ctx.map fun f => f.before.length

/-- All text of a forest: the values of its text nodes in document order. -/
def allText : List Node → List String
  | [] => []
  | .text v :: rest => v :: allText rest
  | .elem _ _ _ cs :: rest => allText cs ++ allText rest

/-- The nodes of a forest in document order. -/
def allNodes (cs : List Node) : List Node :=
  (nodesFrom 0 cs).map Prod.snd

/-! ## Sample documents -/

/-- A run `w:r` holding `text` in a `w:t`. -/
def sampleRun (text : String) : Node :=
  createElementNS "r" [] [createElementNS "t" [] [.text text]]

/-- A document `w:document / w:body / w:p` with the given paragraph content. -/
def sampleDocument (content : List Node) : List Node :=
  [createElementNS "document" [] [createElementNS "body" [] [createElementNS "p" [] content]]]

/-- A paragraph with one `w:ins` that holds a run and a second `w:ins` with a run. -/
def sampleNested : List Node :=
  sampleDocument [createElementNS "ins" [("w:author", "A")]
    [sampleRun "a", createElementNS "ins" [("w:author", "A")] [sampleRun "b"]]]

/-- A paragraph with an insertion by Alice and an insertion by Bob. -/
def sampleTwoAuthors : List Node :=
  sampleDocument [createElementNS "ins" [("w:author", "Alice")] [sampleRun "x"],
    createElementNS "ins" [("w:author", "Bob")] [sampleRun "y"]]

/-- A paragraph with an insertion, a deletion and a run with a formatting marker. -/
def sampleMixed : List Node :=
  sampleDocument [createElementNS "ins" [("w:author", "Alice")] [sampleRun "Hello"],
    createElementNS "del" [] [createElementNS "r" [] [createElementNS "delText" [] [.text "old"]]],
    createElementNS "r" [] [createElementNS "rPr" [("w:b", "1")]
      [createElementNS "rPrChange" [("w:author", "Bob")] []], createElementNS "t" [] [.text "z"]]]

/-- A platform whose parser yields `doc` for every text. -/
def samplePlatform (doc : List Node) : Platform :=
  { parseFromString := fun _ => doc
    serializeToString := fun _ => "serialized"
    toISOString := fun _ => none }

/-- A package with a document part and a settings part. -/
def samplePackage : Package :=
  fun n => if n = "word/document.xml" then some "<w:document/>"
    else if n = "word/settings.xml" then some "<w:settings></w:settings>" else none

/-- Files: the sample package at `a.docx`, nothing else. -/
def sampleFiles : FileSystem :=
  fun p => if p = "a.docx" then some samplePackage else none

mutual
/-- Every node below `n` paired with its parent element, in document order. -/
def pairsBelow : Node → List (Node × Node)
  | .text _ => []
  | .elem ns nm attrs cs => pairsIn (.elem ns nm attrs cs) cs
/-- The nodes of the child list `cs` of `parent` and all below them, each
paired with its parent element, in document order. -/
def pairsIn (parent : Node) : List Node → List (Node × Node)
  | [] => []
  | c :: rest => (parent, c) :: pairsBelow c ++ pairsIn parent rest
end

/-- The content of the text nodes of all `w:t` descendants of `wrapper`, at any
depth, in document order: the values of the text nodes whose parent is a `w:t`
element below `wrapper`. -/
def descendantTexts (wrapper : Node) : List String :=
  (wrapper.childNodes.flatMap pairsBelow).filterMap fun q =>
    if q.1.isW "t" then q.2.nodeValue else none

/-- The records `listTrackChanges` yields for `sampleMixed`. -/
def sampleInsertion : ChangeRecord :=
  { id := 1, type := "Insertion", author := "Alice", date := none, text := "Hello",
    status := "Pending", element := "ins" }

/-- The second record of `sampleMixed`. -/
def sampleDeletion : ChangeRecord :=
  { id := 2, type := "Deletion", author := "Unknown", date := none, text := "",
    status := "Pending", element := "del" }

/-- The third record of `sampleMixed`. -/
def sampleFormatting : ChangeRecord :=
  { id := 3, type := "Formatting (Run)", author := "Bob", date := none,
    text := "[Formatting change]", status := "Pending", element := "rPrChange" }

/-! ## JavaScript numbers

The numbers these scripts compute are comment and relationship ids: integers,
on which JavaScript arithmetic is exact up to `2 ^ 53`.  They are modelled as
exact integers: the definitions agree with the code while the ids read are
below `2 ^ 53`, and the theorems about the values state that bound. -/

/-- The characters `parseInt` skips at the start (`StrWhiteSpaceChar`). -/
def isWhiteSpace (c : Char) : Bool :=
  c.toNat ∈ [9, 10, 11, 12, 13, 32, 160, 5760, 8232, 8233, 8239, 8287, 12288, 65279] ||
    (8192 ≤ c.toNat && c.toNat ≤ 8202)

/-- The decimal digits `0` to `9` (`\\d` in a regular expression). -/
def isDigit (c : Char) : Bool :=
  48 ≤ c.toNat && c.toNat ≤ 57

/-- The value of a decimal digit. -/
def digitValue (c : Char) : Nat :=
  c.toNat - 48

/-- The number a run of decimal digits denotes. -/
def digitsValue (ds : List Char) : Nat :=
  ds.foldl (fun acc d => 10 * acc + digitValue d) 0

/-- The digits of `parseInt(s, 10)` after white space and sign were taken off. -/
def parseDigits (negative : Bool) (cs : List Char) : JsNumber :=
  if cs.takeWhile isDigit = [] then .nan
  else if negative then .num (-(digitsValue (cs.takeWhile isDigit) : Int))
  else .num (digitsValue (cs.takeWhile isDigit) : Int)

/-- `parseInt(s, 10)`: leading white space is skipped, a sign is read, then the
longest run of decimal digits; `NaN` when there is no digit. -/
def parseInt (s : String) : JsNumber :=
  match s.data.dropWhile isWhiteSpace with
  | '-' :: cs => parseDigits true cs
  | '+' :: cs => parseDigits false cs
  | cs => parseDigits false cs

/-- The decimal digit for `d < 10`. -/
def digitChar (d : Nat) : Char :=
  Char.ofNat (48 + d)

/-- The decimal digits of `n`, most significant first; `fuel` bounds their number. -/
def natDigits : Nat → Nat → List Char
  | 0, _ => []
  | fuel + 1, n =>
      if n < 10 then [digitChar n] else natDigits fuel (n / 10) ++ [digitChar (n % 10)]

/-- `String(n)` for a natural number `n`. -/
def numberToString (n : Nat) : String :=
  ⟨natDigits (n + 1) n⟩

/-! ## add-comment.js -/

/-- The document `parseXml` yields for the text `addComment` uses when the
package has no comments part: an empty `w:comments` root. -/
def emptyCommentsDoc : List Node :=
  [.elem NS_W "comments" [("xmlns:w", NS_W)] []]

/-- The loop `for (const c of existingComments) { ... if (id > maxId) maxId = id }`. -/
def maxIdLoop : List (NodePath × Node) → Nat → Nat
  | [], maxId => maxId
  | c :: rest, maxId =>
      match parseInt (orElse (c.2.getAttribute "w:id") "0") with
      | .num id => maxIdLoop rest (if (maxId : Int) < id then id.toNat else maxId)
      | .nan => maxIdLoop rest maxId

/-- The number behind `newCommentId`: `maxId + 1` for the highest comment id,
as the code computes it while the ids read are below `2 ^ 53`. -/
def nextCommentId (commentsDoc : List Node) : Nat :=
  maxIdLoop (select "comment" commentsDoc) 0 + 1

/-- `author.split(' ')` on the characters of `author`; `cur` is the word read so far. -/
def splitSpaces : List Char → List Char → List (List Char)
  | cur, [] => [cur]
  | cur, c :: cs => if c = ' ' then cur :: splitSpaces [] cs else splitSpaces (cur ++ [c]) cs

/-- `w[0]` for a word that starts with the character `c`: the first UTF-16 code
unit, which is `c` itself in the Basic Multilingual Plane.  For a character
beyond it the code unit is a lead surrogate on its own, which no `String`
holds; U+FFFD stands for it here. -/
def firstCodeUnit (c : Char) : Char :=
  if c.toNat < 65536 then c else Char.ofNat 65533

/-- `words.map(w => w[0]).join('')`: the first code unit of every non-empty word. -/
def firstLetters (words : List (List Char)) : List Char :=
  words.flatMap fun w => (w.take 1).map firstCodeUnit

/-- `initials || author.split(' ').map(w => w[0]).join('').slice(0, 3).toUpperCase()`.
`toUpperCase` is the platform's `String.prototype.toUpperCase`. -/
def commentInitials (toUpperCase : String → String) (initials : Option String)
    (author : String) : String :=
  if orElse initials "" = "" then
    toUpperCase (slice ⟨firstLetters (splitSpaces [] author.data)⟩ 0 3)
  else orElse initials ""

/-- The `w:comment` element `addComment` builds. -/
def commentElement (newCommentId author commentDate commentInitials text : String) : Node :=
  createElementNS "comment"
    [("w:id", newCommentId), ("w:author", author), ("w:date", commentDate),
      ("w:initials", commentInitials)]
    [createElementNS "p" [] [createElementNS "r" [] [createElementNS "t" [] (textContent text)]]]

/-- The index of `doc.documentElement` among the children of the `Document` node. -/
def documentElementIndex : List Node → Option Nat
  | [] => none
  | .elem _ _ _ _ :: _ => some 0
  | .text _ :: rest => (documentElementIndex rest).map fun i => i + 1

/-- `commentsDoc.documentElement.appendChild(commentElem)`; `none` when the
document has no element (the call on `null` throws). -/
def appendToDocumentElement (commentElem : Node) (commentsDoc : List Node) :
    Option (List Node) :=
  match documentElementIndex commentsDoc with
  | none => none
  | some i => some (atNode (fun cs => cs ++ [commentElem]) [i] commentsDoc)

/-- The three markers appended to the target paragraph, in the order of the
`appendChild` calls. -/
def commentMarkers (newCommentId : String) : List Node :=
  [createElementNS "commentRangeStart" [("w:id", newCommentId)] [],
    createElementNS "commentReference" [("w:id", newCommentId)] [],
    createElementNS "commentRangeEnd" [("w:id", newCommentId)] []]

/-- `select('.//w:name', elem)`: the elements of that name below `elem`, in
document order, with positions relative to `elem`. -/
def selectBelow (name : String) (elem : Node) : List (NodePath × Node) :=
  (nodesBelow elem).filter fun q => q.2.isW name

/-- The position of `paragraphs[paragraphs.length - 1] || body` for the first
`w:body`; `none` when the document has no body. -/
def targetPara (docDoc : List Node) : Option NodePath :=
  match (select "body" docDoc)[0]? with
  | none => none
  | some body =>
    match (selectBelow "p" body.2).getLast? with
    | some para => some (body.1 ++ para.1)
    | none => some body.1

/-- Add comment reference to document.xml (at end of last paragraph); the
document is left as it is when it has no body. -/
def anchorComment (newCommentId : String) (docDoc : List Node) : List Node :=
  match targetPara docDoc with
  | none => docDoc
  | some p => atNode (fun cs => cs ++ commentMarkers newCommentId) p docDoc

/-- The text put in place of `</Types>`. -/
def contentTypeOverride : String :=
  "  <Override PartName=\"/word/comments.xml\" ContentType=\"application/vnd.openxmlformats-officedocument.wordprocessingml.comments+xml\"/>\n</Types>"

/-- Update content types if needed (for new comments.xml). -/
def updateContentTypes (contentTypesXml : String) : String :=
  if contentTypesXml ≠ "" ∧ includes contentTypesXml "comments.xml" = false then
    replaceFirst contentTypesXml "</Types>" contentTypeOverride
  else contentTypesXml

/-- `relsXml.match(/rId(\d+)/g)` on the characters of `relsXml`: the matches
from left to right; `skip` characters belong to the match just found. -/
def matchRIds : Nat → List Char → List (List Char)
  | _, [] => []
  | skip + 1, _ :: cs => matchRIds skip cs
  | 0, c :: cs =>
      if "rId".data.isPrefixOf (c :: cs) && !((cs.drop 2).takeWhile isDigit).isEmpty then
        ("rId".data ++ (cs.drop 2).takeWhile isDigit) ::
          matchRIds (2 + ((cs.drop 2).takeWhile isDigit).length) cs
      else matchRIds 0 cs

/-- `Math.max(...rIdMatch.map(r => parseInt(r.replace('rId', ''), 10)))`, and 0
without a match: every match is `rId` followed by digits.  This is what the
code computes while the numbers read are below `2 ^ 53`. -/
def maxRId (relsXml : String) : Nat :=
  ((matchRIds 0 relsXml.data).map fun r => digitsValue (r.drop 3)).foldl max 0

/-- The relationship id `rId${maxRId + 1}`. -/
def newRId (relsXml : String) : String :=
  "rId" ++ numberToString (maxRId relsXml + 1)

/-- The text put in place of `</Relationships>`. -/
def relationshipEntry (rId : String) : String :=
  "  <Relationship Id=\"" ++ rId ++ "\" Type=\"http://schemas.openxmlformats.org/officeDocument/2006/relationships/comments\" Target=\"comments.xml\"/>\n</Relationships>"

/-- Update document relationships. -/
def updateRels (relsXml : String) : String :=
  if relsXml ≠ "" ∧ includes relsXml "comments.xml" = false then
    replaceFirst relsXml "</Relationships>" (relationshipEntry (newRId relsXml))
  else relsXml

/-- `zip.file(name, f(text))` when the part `name` exists with the text `text`. -/
def Package.updateFile (zip : Package) (name : String) (f : String → String) : Package :=
  match zip name with
  | some text => zip.setFile name (f text)
  | none => zip

/-- `copyFileSync(docxPath, outputPath)` when an output path other than the
source is given; it throws when the source does not exist. -/
def copyToOutput (fs : FileSystem) (docxPath : String) (outputPath : Option String) :
    Except Failure FileSystem :=
  if orElse outputPath "" = "" ∨ orElse outputPath "" = docxPath then .ok fs
  else match fs docxPath with
    | some zip => .ok (fs.writeFile (orElse outputPath "") zip)
    | none => .error .noSuchFile

/-- What `addComment` returns. -/
structure CommentResult where
  commentId : String
  author : String
  text : String
deriving DecidableEq, Repr

/-- The parts `addComment` writes into the package `zip` whose document part
has the text `docXml`; `none` when the comments document has no root element. -/
def addCommentToPackage (P : Platform) (toUpperCase : String → String) (zip : Package)
    (docXml text author : String) (initials : Option String) (commentDate : String) :
    Option (CommentResult × Package) :=
  let docDoc := parseXml P docXml
  let commentsXml := orElse (zip "word/comments.xml") ""
  let commentsDoc := if commentsXml = "" then emptyCommentsDoc else parseXml P commentsXml
  let newCommentId := numberToString (nextCommentId commentsDoc)
  let commentElem := commentElement newCommentId author commentDate
    (commentInitials toUpperCase initials author) text
  match appendToDocumentElement commentElem commentsDoc with
  | none => none
  | some commentsDoc1 =>
    let docDoc1 := anchorComment newCommentId docDoc
    let zip1 :=
      if commentsXml = "" then
        (zip.updateFile "[Content_Types].xml" updateContentTypes).updateFile
          "word/_rels/document.xml.rels" updateRels
      else zip
    let zip2 := zip1.setFile "word/comments.xml" (serializeXml P commentsDoc1)
    let zip3 := zip2.setFile "word/document.xml" (serializeXml P docDoc1)
    some ({ commentId := newCommentId, author := author, text := text }, zip3)

/-- Add a comment to a Word document (`addComment`).  `commentDate` is the
current time in ISO form.  Returns how the run ends and the files afterwards. -/
def addComment (P : Platform) (toUpperCase : String → String) (fs : FileSystem)
    (docxPath text author : String) (initials outputPath : Option String)
    (commentDate : String) : Outcome CommentResult × FileSystem :=
  match copyToOutput fs docxPath outputPath with
  | .error e => (.failed e, fs)
  | .ok fs1 =>
    match readDocumentXml fs1 (pathOr outputPath docxPath) with
    | .error e => (.failed e, fs1)
    | .ok (zip, docXml) =>
      match addCommentToPackage P toUpperCase zip docXml text author initials commentDate with
      | none => (.failed .typeError, fs1)
      | some (result, zip3) => (.ok result, fs1.writeFile (pathOr outputPath docxPath) zip3)

/-! ## add-change.js on files -/

/-- Enable track changes in settings.xml if it exists. -/
def enableTrackRevisions (settingsXml : String) : String :=
  if settingsXml ≠ "" ∧ includes settingsXml "trackRevisions" = false then
    replaceFirst settingsXml "</w:settings>" "  <w:trackRevisions/>\n</w:settings>"
  else settingsXml

/-- What `addChange` returns. -/
structure AddChangeResult where
  type : String
  author : String
  text : String
deriving DecidableEq, Repr

/-- Add a tracked change to a Word document (`addChange`).  `changeDate` is the
current time in ISO form.  Returns how the run ends and the files afterwards. -/
def addChange (P : Platform) (fs : FileSystem) (docxPath text type author : String)
    (outputPath : Option String) (changeDate : String) :
    Outcome AddChangeResult × FileSystem :=
  match copyToOutput fs docxPath outputPath with
  | .error e => (.failed e, fs)
  | .ok fs1 =>
    match readDocumentXml fs1 (pathOr outputPath docxPath) with
    | .error e => (.failed e, fs1)
    | .ok (zip, docXml) =>
      match addChangeInDoc (parseXml P docXml) text type author changeDate with
      | .error e => (.failed e, fs1)
      | .ok docDoc1 =>
        let zip1 := zip.setFile "word/document.xml" (serializeXml P docDoc1)
        let zip2 := zip1.updateFile "word/settings.xml" enableTrackRevisions
        (.ok { type := type, author := author, text := text },
          fs1.writeFile (pathOr outputPath docxPath) zip2)

/-- The first character of every word of `cs`, where `sep` tells the separating
characters and `atStart` whether a word may start at the head of `cs`. -/
def wordInitials (sep : Char → Bool) : Bool → List Char → List Char
  | _, [] => []
  | atStart, c :: cs =>
      (if atStart && !sep c then [c] else []) ++ wordInitials sep (sep c) cs

/-- The initials as the specification words them: the first letter of each
whitespace-separated word of the author name, truncated to 3 characters and
uppercased. -/
def initialsByWhiteSpace (toUpperCase : String → String) (author : String) : String :=
  toUpperCase ⟨(wordInitials isWhiteSpace true author.data).take 3⟩

/-- `toUpperCase` on the characters of the samples: ASCII letters are
uppercased and `ß` becomes `SS`, as Unicode special casing has it. -/
def sampleUpper (s : String) : String :=
  ⟨s.data.flatMap fun c => if c = 'ß' then ['S', 'S'] else [c.toUpper]⟩

/-- The number of `w:name` elements of a document that carry the comment id
`id` as `w:id`. -/
def markerCount (name id : String) (doc : List Node) : Nat :=
  (allNodes doc).countP fun n => n.isW name && n.getAttribute "w:id" == some id

/-- A document whose root has no body. -/
def sampleNoBody : List Node :=
  [createElementNS "document" [] [createElementNS "p" [] [sampleRun "x"]]]

/-- A document whose paragraph still holds the three markers of a comment 1
that is no longer in the comments part. -/
def sampleStaleMarkers : List Node :=
  sampleDocument (sampleRun "x" :: commentMarkers "1")

/-- The number of places at which `pat` occurs in `s`. -/
def occurrences (s pat : String) : Nat :=
  s.data.tails.countP fun u => pat.data.isPrefixOf u

/-- A package with a document part and a content-types part only. -/
def sampleBarePackage : Package :=
  fun n => if n = "word/document.xml" then some "<w:document/>"
    else if n = "[Content_Types].xml" then some "<Types></Types>" else none

/-- Files: the bare sample package at `a.docx`, nothing else. -/
def sampleBareFiles : FileSystem :=
  fun p => if p = "a.docx" then some sampleBarePackage else none

/-- The number that follows `rId` at the head of `t`, when `t` starts with
`rId` and a digit. -/
def ridNumberAt (t : List Char) : Option Nat :=
  if "rId".data.isPrefixOf t && !((t.drop 3).takeWhile isDigit).isEmpty then
    some (digitsValue ((t.drop 3).takeWhile isDigit))
  else none

/-- The numbers that follow an occurrence of `rId` anywhere in the text of the
relationships part, from left to right. -/
def ridNumbers (relsXml : String) : List Nat :=
  relsXml.data.tails.filterMap ridNumberAt

/-- The number of an attribute ` Id="rIdN"` at the head of `t`. -/
def idAttributeAt (t : List Char) : Option Nat :=
  if " Id=\"rId".data.isPrefixOf t && !((t.drop 8).takeWhile isDigit).isEmpty &&
      ((t.drop 8).dropWhile isDigit).head? == some '"' then
    some (digitsValue ((t.drop 8).takeWhile isDigit))
  else none

/-- The numeric suffixes of the `Id` attributes of the relationship entries in
the text of the relationships part. -/
def idAttributeNumbers (relsXml : String) : List Nat :=
  relsXml.data.tails.filterMap idAttributeAt

/-- A relationships part whose only entry has the id `rId1` and a target file
named `rId7.png`. -/
def sampleRels : String :=
  "<Relationships><Relationship Id=\"rId1\" Type=\"image\" Target=\"media/rId7.png\"/></Relationships>"

/-- The paragraph `addChange` appends for an insertion. -/
def insertionParagraph (text author changeDate : String) : Node :=
  createElementNS "p" [] [createElementNS "ins" [("w:author", author), ("w:date", changeDate)]
    [createElementNS "r" [] [createElementNS "t" [] (textContent text)]]]

/-! ## listComments -/

/-- A comment record as built by `listComments`; `commentId` is what
`getAttribute('w:id')` returns. -/
structure CommentRecord where
  id : Nat
  commentId : Option String
  author : String
  initials : String
  date : Option String
  text : String
  commentedText : String
deriving DecidableEq, Repr

/-- The record pushed for a `w:comment` element. -/
def commentRecord (toISOString : String → Option String) (comment : Node) (commentNum : Nat) :
    CommentRecord :=
  { id := commentNum
    commentId := comment.getAttribute "w:id"
    author := orElse (comment.getAttribute "w:author") "Unknown"
    initials := orElse (comment.getAttribute "w:initials") ""
    date := parseDate toISOString (orElse (comment.getAttribute "w:date") "")
    text := getTextFromElement comment
    commentedText := "" }

/-- The loop `for (const comment of commentElems) { comments.push({ id: commentNum++, ... }) }`. -/
def pushComments (toISOString : String → Option String) :
    List (NodePath × Node) → List CommentRecord × Nat → List CommentRecord × Nat
  | [], st => st
  | e :: rest, (comments, commentNum) =>
      pushComments toISOString rest
        (comments ++ [commentRecord toISOString e.2 commentNum], commentNum + 1)

/-- The body of `listComments` once `word/comments.xml` is parsed. -/
def listCommentsInDoc (toISOString : String → Option String) (commentsDoc : List Node) :
    List CommentRecord :=
  (pushComments toISOString (select "comment" commentsDoc) ([], 1)).1

/-- List all comments in a Word document (`listComments`): no comments when the
comments part is absent or empty. -/
def listComments (P : Platform) (fs : FileSystem) (docxPath : String) :
    Except Failure (List CommentRecord) :=
  match fs docxPath with
  | none => .error .noSuchFile
  | some zip =>
    if orElse (zip "word/comments.xml") "" = "" then .ok []
    else .ok (listCommentsInDoc P.toISOString (parseXml P (orElse (zip "word/comments.xml") "")))

/-- The comment records for the elements `es` when the counter starts at `start`. -/
def commentsFrom (toISOString : String → Option String) (es : List (NodePath × Node))
    (start : Nat) : List CommentRecord :=
  List.zipWith (fun e i => commentRecord toISOString e.2 i) es (List.range' start es.length)

/-- A well-formed UTC timestamp `YYYY-MM-DDTHH:MM:SSZ` with a four-digit year. -/
def isUtcTimestamp (s : String) : Bool :=
  match s.data with
  | [y1, y2, y3, y4, '-', m1, m2, '-', d1, d2, 'T', h1, h2, ':', n1, n2, ':', s1, s2, 'Z'] =>
      [y1, y2, y3, y4, m1, m2, d1, d2, h1, h2, n1, n2, s1, s2].all isDigit
  | _ => false

/-- A `Date` that accepts the sample timestamp and nothing else. -/
def sampleToISOString (s : String) : Option String :=
  if s = "2024-01-15T10:30:00Z" then some "2024-01-15T10:30:00.000Z" else none

/-- The package `zip1` has, for every part not named in `parts`, what `zip` has. -/
def sameOutside (parts : List String) (zip zip1 : Package) : Prop :=
  ∀ n, n ∉ parts → zip1 n = zip n

/-- What the files `fs1` after a run on the source `docxPath` may hold at a
path: what the path held before, or a package that differs from the source
package in the parts named in `parts` at most. -/
def filesFramed (parts : List String) (fs : FileSystem) (docxPath : String) (fs1 : FileSystem) :
    Prop :=
  ∀ p, fs1 p = fs p ∨
    ∃ zip zip1, fs docxPath = some zip ∧ fs1 p = some zip1 ∧ sameOutside parts zip zip1

/-- The filters as the specification words them: the author equals the author
filter when one is given, and the type contains the type filter, both in lower
case, when one is given. -/
def matchesFilters (toLowerCase : String → String) (filterAuthor filterType : Option String)
    (c : ChangeRecord) : Bool :=
  (decide (orElse filterAuthor "" = "") || decide (c.author = orElse filterAuthor "")) &&
  (decide (orElse filterType "" = "") ||
    includes (toLowerCase c.type) (toLowerCase (orElse filterType "")))

/-- A package without a document part. -/
def sampleNoDocumentPackage : Package :=
  fun n => if n = "word/settings.xml" then some "<w:settings></w:settings>" else none

/-- Files: the package without a document part at `a.docx`, nothing else. -/
def sampleNoDocumentFiles : FileSystem :=
  fun p => if p = "a.docx" then some sampleNoDocumentPackage else none

/-- `toLowerCase` on the characters of the samples: ASCII letters are lowercased. -/
def sampleLower (s : String) : String :=
  ⟨s.data.map Char.toLower⟩

/-! ## docs.js: inline formatting

`processInlineFormatting` of the Documentor scripts.  A text is the list of its
characters; the indices of the samples are those of the JavaScript string. -/

/-- The characters `.` does not match in a regular expression: the line terminators. -/
def isLineTerminator (c : Char) : Bool :=
  c.toNat = 10 || c.toNat = 13 || c.toNat = 8232 || c.toNat = 8233

/-- The group `(.+?)` followed by the closing marker, read at the head of the
input: `captured` is what the group holds so far.  The shortest non-empty
capture after which the marker stands is taken; the result is the capture and
the input after the marker. -/
def lazyGroup (marker : List Char) : List Char → List Char → Option (List Char × List Char)
  | _, [] => none
  | captured, c :: cs =>
      if !captured.isEmpty && marker.isPrefixOf (c :: cs) then
        some (captured, (c :: cs).drop marker.length)
      else if isLineTerminator c then none
      else lazyGroup marker (captured ++ [c]) cs

/-- One alternative `marker(.+?)marker` at the head of the input. -/
def matchMarked (marker : List Char) (cs : List Char) : Option (List Char × List Char) :=
  if marker.isPrefixOf cs then lazyGroup marker [] (cs.drop marker.length) else none

/-- The regular expression `m1(.+?)m1|m2(.+?)m2` at the head of the input: the
text of the group that matched (`match[1] || match[2]`) and the input after
the match. -/
def matchAt (m1 m2 : List Char) (cs : List Char) : Option (List Char × List Char) :=
  match matchMarked m1 cs with
  | some r => some r
  | none => matchMarked m2 cs

/-- An `updateTextStyle` request: the range and the field (`bold` or `italic`). -/
structure TextStyleRequest where
  startIndex : Nat
  endIndex : Nat
  fields : String
deriving DecidableEq, Repr

/-- One pass `while ((match = regex.exec(text)) !== null) { ... }` followed by
`out += text.slice(lastIndex)`: `out` is the clean text built so far and the
input is the text from `lastIndex` on.  `fuel` bounds the number of steps; the
length of the input plus one is enough. -/
def stylePass (m1 m2 : List Char) (fields : String) (baseIndex : Nat) :
    Nat → List Char → List Char → List Char × List TextStyleRequest
  | 0, out, rest => (out ++ rest, [])
  | _ + 1, out, [] => (out, [])
  | fuel + 1, out, c :: cs =>
      match matchAt m1 m2 (c :: cs) with
      | some (captured, rest) =>
          let r := stylePass m1 m2 fields baseIndex fuel (out ++ captured) rest
          (r.1, { startIndex := baseIndex + out.length
                  endIndex := baseIndex + (out ++ captured).length
                  fields := fields } :: r.2)
      | none => stylePass m1 m2 fields baseIndex fuel (out ++ [c]) cs

/-- Process inline markdown formatting (bold, italic) and return clean text +
format requests (`processInlineFormatting`). -/
def processInlineFormatting (text : String) (baseIndex : Nat) :
    String × List TextStyleRequest :=
  let bold := stylePass "**".data "__".data "bold" baseIndex (text.length + 1) [] text.data
  let italic := stylePass "*".data "_".data "italic" baseIndex (bold.1.length + 1) [] bold.1
  (⟨italic.1⟩, bold.2 ++ italic.2)

/-- Every child of every `w:t` element of the document is a text node, as in
the WordprocessingML schema. -/
def textOnlyT (doc : List Node) : Bool :=
  (allNodes doc).all fun n => !n.isW "t" || n.childNodes.all fun c => c.nodeValue.isSome
/-- Whether the frame is a `w:t` element. -/
def Frame.isT (f : Frame) : Bool :=
  f.ns == NS_W && f.name == "t"

/-- Whether the node is a `w:del`, `w:rPrChange` or `w:pPrChange` element. -/
def isHidden (n : Node) : Bool :=
  n.isW "del" || n.isW "rPrChange" || n.isW "pPrChange"

mutual
/-- The `w:t` elements of a forest that are not inside a `w:del`, `w:rPrChange`
or `w:pPrChange` element, in document order. -/
def visibleT : List Node → List Node
  | [] => []
  | n :: rest => visibleTNode n ++ visibleT rest
/-- The `w:t` elements at a node and below it that are not inside a `w:del`,
`w:rPrChange` or `w:pPrChange` element. -/
def visibleTNode : Node → List Node
  | .text _ => []
  | .elem ns nm attrs cs =>
      if isHidden (.elem ns nm attrs []) then []
      else (if ns == NS_W && nm == "t" then [.elem ns nm attrs cs] else []) ++ visibleT cs
end

/-- The concatenation, in the order given, of the text of the elements: for
each the values of the text nodes below it. -/
def textOfElements (es : List Node) : String :=
  String.join (es.map fun n => String.join (allText n.childNodes))

/-- A document whose root element is a `w:ins` holding a run. -/
def sampleRootInsertion : List Node :=
  [createElementNS "ins" [("w:author", "A")] [sampleRun "Hello"]]

/-- A run whose `w:t` holds the text `a` and a `w:del` with the text `x`. -/
def sampleDeletionInText : List Node :=
  sampleDocument [createElementNS "r" []
    [createElementNS "t" [] [.text "a", createElementNS "del" [] [.text "x"]]]]

/-- The XML declaration `serializeXml` puts before the serializer's output. -/
def xmlDeclaration : String :=
  "<?xml version=\"1.0\" encoding=\"UTF-8\" standalone=\"yes\"?>"

mutual
/-- The markup of a node, for the sample serializer: elements of the Word
namespace carry the prefix `w`. -/
def renderNode : Node → String
  | .text v => v
  | .elem ns name attrs cs =>
      "<" ++ (if ns = NS_W then "w:" else "") ++ name ++
        String.join (attrs.map fun a => " " ++ a.1 ++ "=\"" ++ a.2 ++ "\"") ++
        (if cs.isEmpty then "/>"
          else ">" ++ renderNodes cs ++ "</" ++ (if ns = NS_W then "w:" else "") ++ name ++ ">")
/-- The markup of a forest, for the sample serializer. -/
def renderNodes : List Node → String
  | [] => ""
  | n :: rest => renderNode n ++ renderNodes rest
end

/-- A platform for a part that starts with an XML declaration: the parser
yields `doc`, and the serializer writes the declaration, which the library
keeps with the document it parsed, ahead of the markup of the elements. -/
def sampleDeclarationPlatform (doc : List Node) : Platform :=
  { parseFromString := fun _ => doc
    serializeToString := fun d => xmlDeclaration ++ renderNodes d
    toISOString := fun _ => none }

/-! ## Enumeration of changes -/

theorem pushChanges_eq (mk : Node → Nat → ChangeRecord) (es : List (NodePath × Node))
    (acc : List ChangeRecord) (n : Nat) :
    pushChanges mk es (acc, n) = (acc ++ recordsFrom mk es n, n + es.length) := by
  induction es generalizing acc n with
  | nil => simp [pushChanges, recordsFrom]
  | cons e rest ih =>
    simp only [pushChanges, ih, recordsFrom, List.length_cons, List.range'_succ,
      List.zipWith_cons_cons, List.append_assoc, List.singleton_append]
    simp [Nat.add_comm, Nat.add_left_comm]

theorem length_recordsFrom (mk : Node → Nat → ChangeRecord) (es : List (NodePath × Node))
    (n : Nat) : (recordsFrom mk es n).length = es.length := by
  simp [recordsFrom]

theorem listChanges_eq (toISOString : String → Option String) (doc : List Node) :
    listChanges toISOString doc =
      recordsFrom (insertionRecord toISOString) (select "ins" doc) 1 ++
      (recordsFrom (deletionRecord toISOString) (select "del" doc)
        (1 + (select "ins" doc).length) ++
      (recordsFrom (runFormattingRecord toISOString) (select "rPrChange" doc)
        (1 + (select "ins" doc).length + (select "del" doc).length) ++
      recordsFrom (paragraphFormattingRecord toISOString) (select "pPrChange" doc)
        (1 + (select "ins" doc).length + (select "del" doc).length +
          (select "rPrChange" doc).length))) := by
  simp [listChanges, pushChanges_eq, List.append_assoc]

theorem map_id_recordsFrom (mk : Node → Nat → ChangeRecord) (hmk : ∀ e i, (mk e i).id = i)
    (es : List (NodePath × Node)) (n : Nat) :
    (recordsFrom mk es n).map (fun c => c.id) = List.range' n es.length := by
  induction es generalizing n with
  | nil => simp [recordsFrom]
  | cons e rest ih =>
    have h := ih (n + 1)
    simp only [recordsFrom] at h
    simp [recordsFrom, List.range'_succ, hmk, h]

theorem range'_four (a b c d : Nat) :
    List.range' 1 a ++ (List.range' (1 + a) b ++ (List.range' (1 + (a + b)) c ++
      List.range' (1 + (a + (b + c))) d)) = List.range' 1 (a + (b + (c + d))) := by
  have h : ∀ s m n, List.range' s m ++ List.range' (s + m) n = List.range' s (m + n) := by
    intro s m n
    rw [List.range'_append_1, Nat.add_comm]
  rw [show 1 + (a + (b + c)) = (1 + (a + b)) + c by omega, h,
    show 1 + (a + b) = (1 + a) + b by omega, h, h]

theorem isW_ne {a b : String} (hab : a ≠ b) (n : Node) (h : n.isW a = true) :
    n.isW b = false := by
  cases n with
  | text v => rfl
  | elem ns nm attrs cs =>
    simp only [Node.isW, Bool.and_eq_true, beq_iff_eq] at h
    simp only [Node.isW, Bool.and_eq_false_iff, beq_eq_false_iff_ne, ne_eq]
    right
    rw [h.2]
    exact hab

theorem length_filter_isChangeWrapper (l : List (NodePath × Node)) :
    (l.filter fun q => isChangeWrapper q.2).length =
      (l.filter fun q => q.2.isW "ins").length + (l.filter fun q => q.2.isW "del").length +
      (l.filter fun q => q.2.isW "rPrChange").length +
      (l.filter fun q => q.2.isW "pPrChange").length := by
  induction l with
  | nil => rfl
  | cons q rest ih =>
    simp only [List.filter_cons, isChangeWrapper]
    by_cases h1 : q.2.isW "ins" = true
    · simp [h1, isW_ne (by decide : "ins" ≠ "del") q.2 h1,
        isW_ne (by decide : "ins" ≠ "rPrChange") q.2 h1,
        isW_ne (by decide : "ins" ≠ "pPrChange") q.2 h1, isChangeWrapper] at ih ⊢
      omega
    · by_cases h2 : q.2.isW "del" = true
      · simp [h1, h2, isW_ne (by decide : "del" ≠ "rPrChange") q.2 h2,
          isW_ne (by decide : "del" ≠ "pPrChange") q.2 h2, isChangeWrapper] at ih ⊢
        omega
      · by_cases h3 : q.2.isW "rPrChange" = true
        · simp [h1, h2, h3, isW_ne (by decide : "rPrChange" ≠ "pPrChange") q.2 h3,
            isChangeWrapper] at ih ⊢
          omega
        · by_cases h4 : q.2.isW "pPrChange" = true
          · simp [h1, h2, h3, h4, isChangeWrapper] at ih ⊢
            omega
          · simp [h1, h2, h3, h4, isChangeWrapper] at ih ⊢
            omega

/-- C1. `listTrackChanges` on a document tree returns the records of all
`w:ins` elements in document order, then those of all `w:del`, then of all
`w:rPrChange`, then of all `w:pPrChange` elements, each built from its element
with the running counter; the ids are exactly 1..n; and there is exactly one
record per change wrapper of the tree (so none when the tree has no wrapper). -/
theorem listChanges_enumerates (toISOString : String → Option String) (doc : List Node) :
    listChanges toISOString doc =
        List.zipWith (fun e i => insertionRecord toISOString e.2 i) (select "ins" doc)
          (List.range' 1 (select "ins" doc).length) ++
        (List.zipWith (fun e i => deletionRecord toISOString e.2 i) (select "del" doc)
          (List.range' (1 + (select "ins" doc).length) (select "del" doc).length) ++
        (List.zipWith (fun e i => runFormattingRecord toISOString e.2 i)
          (select "rPrChange" doc)
          (List.range' (1 + (select "ins" doc).length + (select "del" doc).length)
            (select "rPrChange" doc).length) ++
        List.zipWith (fun e i => paragraphFormattingRecord toISOString e.2 i)
          (select "pPrChange" doc)
          (List.range' (1 + (select "ins" doc).length + (select "del" doc).length +
            (select "rPrChange" doc).length) (select "pPrChange" doc).length)))
    ∧ (listChanges toISOString doc).map (fun c => c.id) =
        List.range' 1 (listChanges toISOString doc).length
    ∧ (listChanges toISOString doc).length =
        ((nodesFrom 0 doc).filter fun q => isChangeWrapper q.2).length
    ∧ (listChanges toISOString doc = [] ↔
        ∀ q ∈ nodesFrom 0 doc, isChangeWrapper q.2 = false) := by
  have hlen : (listChanges toISOString doc).length =
      ((nodesFrom 0 doc).filter fun q => isChangeWrapper q.2).length := by
    rw [listChanges_eq, length_filter_isChangeWrapper]
    simp only [List.length_append, length_recordsFrom, select]
    omega
  refine ⟨listChanges_eq toISOString doc, ?_, hlen, ?_⟩
  · rw [listChanges_eq]
    simp only [List.map_append, List.length_append, length_recordsFrom]
    rw [map_id_recordsFrom _ (fun _ _ => rfl), map_id_recordsFrom _ (fun _ _ => rfl),
      map_id_recordsFrom _ (fun _ _ => rfl), map_id_recordsFrom _ (fun _ _ => rfl)]
    simp only [Nat.add_assoc]
    exact range'_four _ _ _ _
  · rw [← List.length_eq_zero, hlen, List.length_eq_zero, List.filter_eq_nil_iff]
    simp

/-! ## The element `applyChange` picks -/

theorem map_element_recordsFrom (mk : Node → Nat → ChangeRecord) (kind : String)
    (hmk : ∀ e i, (mk e i).element = kind) (es : List (NodePath × Node)) (n : Nat) :
    (recordsFrom mk es n).map (fun c => c.element) = es.map (fun _ => kind) := by
  induction es generalizing n with
  | nil => simp [recordsFrom]
  | cons e rest ih =>
    have h := ih (n + 1)
    simp only [recordsFrom] at h
    simp [recordsFrom, List.range'_succ, hmk, h]

theorem map_element_listChanges (toISOString : String → Option String) (doc : List Node) :
    (listChanges toISOString doc).map (fun c => c.element) =
      (changeWrappers doc).map (fun w => w.1) := by
  rw [listChanges_eq]
  simp only [List.map_append, changeWrappers, List.map_map]
  rw [map_element_recordsFrom _ "ins" (fun _ _ => rfl),
    map_element_recordsFrom _ "del" (fun _ _ => rfl),
    map_element_recordsFrom _ "rPrChange" (fun _ _ => rfl),
    map_element_recordsFrom _ "pPrChange" (fun _ _ => rfl)]
  rfl

theorem map_id_listChanges (toISOString : String → Option String) (doc : List Node) :
    (listChanges toISOString doc).map (fun c => c.id) =
      List.range' 1 (listChanges toISOString doc).length := by
  rw [listChanges_eq]
  simp only [List.map_append, List.length_append, length_recordsFrom]
  rw [map_id_recordsFrom _ (fun _ _ => rfl), map_id_recordsFrom _ (fun _ _ => rfl),
    map_id_recordsFrom _ (fun _ _ => rfl), map_id_recordsFrom _ (fun _ _ => rfl)]
  simp only [Nat.add_assoc]
  exact range'_four _ _ _ _

theorem getElem?_filter_rank {β : Type} (p : β → Bool) (l : List β) (i : Nat) (x : β)
    (h : l[i]? = some x) (hp : p x = true) :
    (l.filter p)[(l.take i).countP p]? = some x := by
  induction l generalizing i with
  | nil => simp at h
  | cons a l ih =>
    cases i with
    | zero =>
      simp only [List.getElem?_cons_zero, Option.some.injEq] at h
      subst h
      simp [hp]
    | succ i =>
      simp only [List.getElem?_cons_succ] at h
      have := ih i h
      by_cases ha : p a = true
      · simp [List.filter_cons, ha, List.countP_cons, this]
      · simp [List.filter_cons, ha, List.countP_cons, this]

theorem ids_cons {c : ChangeRecord} {rest : List ChangeRecord} {s : Nat}
    (h : (c :: rest).map (fun c => c.id) = List.range' s (c :: rest).length) :
    c.id = s ∧ rest.map (fun c => c.id) = List.range' (s + 1) rest.length := by
  simpa [List.range'_succ] using h

theorem targetIndexLoop_eq (kind : String) (L : List ChangeRecord) (s id t : Nat)
    (hids : L.map (fun c => c.id) = List.range' s L.length) (hs : s ≤ id)
    (hid : id < s + L.length) :
    targetIndexLoop (.num id) kind L t =
      t + (L.take (id - s)).countP (fun c => decide (c.element = kind)) := by
  induction L generalizing s t with
  | nil => simp at hid; omega
  | cons c rest ih =>
    obtain ⟨hc, hrest⟩ := ids_cons hids
    by_cases hEq : id = s
    · subst hEq
      simp [targetIndexLoop, idEq, hc]
    · have hlt : s + 1 ≤ id := by omega
      have hne : ¬ ((c.id : Int) = (id : Int)) := by
        rw [hc]; intro h; exact hEq (by exact_mod_cast h.symm)
      have hidr : id < s + 1 + rest.length := by simp at hid; omega
      have hstep : id - s = (id - (s + 1)) + 1 := by omega
      rw [targetIndexLoop]
      simp only [idEq, hne, decide_False, Bool.false_eq_true, ↓reduceIte]
      rw [ih (s + 1) _ hrest hlt hidr, hstep, List.take_succ_cons, List.countP_cons]
      by_cases hk : c.element = kind
      · simp [hk]; omega
      · simp [hk]

theorem find?_idEq (L : List ChangeRecord) (s id : Nat)
    (hids : L.map (fun c => c.id) = List.range' s L.length) (hs : s ≤ id) :
    L.find? (fun c => idEq c.id (.num id)) = L[id - s]? := by
  induction L generalizing s with
  | nil => simp
  | cons c rest ih =>
    obtain ⟨hc, hrest⟩ := ids_cons hids
    by_cases hEq : id = s
    · subst hEq
      simp [List.find?_cons, idEq, hc]
    · have hlt : s + 1 ≤ id := by omega
      have hne : ¬ ((c.id : Int) = (id : Int)) := by
        rw [hc]; intro h; exact hEq (by exact_mod_cast h.symm)
      have hstep : id - s = (id - (s + 1)) + 1 := by omega
      have hstep2 : (c :: rest)[id - s]? = rest[id - (s + 1)]? := by
        rw [hstep, List.getElem?_cons_succ]
      rw [hstep2, ← ih (s + 1) hrest hlt, List.find?_cons]
      simp only [idEq, hne, decide_False]

theorem length_filter_upto (kind : String) (L : List ChangeRecord) (s id : Nat)
    (hids : L.map (fun c => c.id) = List.range' s L.length) :
    (L.filter fun c => decide (c.element = kind ∧ c.id ≤ id)).length =
      (L.take (id + 1 - s)).countP (fun c => decide (c.element = kind)) := by
  induction L generalizing s with
  | nil => simp
  | cons c rest ih =>
    obtain ⟨hc, hrest⟩ := ids_cons hids
    have h := ih (s + 1) hrest
    by_cases hle : s ≤ id
    · have hstep : id + 1 - s = (id + 1 - (s + 1)) + 1 := by omega
      rw [hstep, List.take_succ_cons, List.countP_cons, ← h, List.filter_cons]
      by_cases hk : c.element = kind
      · simp [hk, hc, hle]
      · simp [hk]
    · have hz : id + 1 - s = 0 := by omega
      have hz1 : id + 1 - (s + 1) = 0 := by omega
      rw [hz1] at h
      rw [hz, List.filter_cons]
      have : ¬ (c.element = kind ∧ c.id ≤ id) := by
        rw [hc]; intro hh; exact hle hh.2
      simp only [this, decide_False, Bool.false_eq_true, ↓reduceIte]
      simpa using h

theorem filter_changeWrappers (doc : List Node) (kind : String)
    (hk : kind = "ins" ∨ kind = "del" ∨ kind = "rPrChange" ∨ kind = "pPrChange") :
    (changeWrappers doc).filter (fun w => decide (w.1 = kind)) =
      (select kind doc).map (fun e => (kind, e)) := by
  rcases hk with h | h | h | h <;> subst h <;>
    simp [changeWrappers, List.filter_append, List.filter_map, Function.comp_def]

theorem kind_of_mem_changeWrappers (doc : List Node) (w : String × (NodePath × Node))
    (h : w ∈ changeWrappers doc) :
    w.1 = "ins" ∨ w.1 = "del" ∨ w.1 = "rPrChange" ∨ w.1 = "pPrChange" := by
  simp only [changeWrappers, List.mem_append, List.mem_map] at h
  rcases h with ⟨e, _, rfl⟩ | ⟨e, _, rfl⟩ | ⟨e, _, rfl⟩ | ⟨e, _, rfl⟩ <;> simp

theorem countP_element_take (toISOString : String → Option String) (doc : List Node)
    (kind : String) (i : Nat) :
    ((listChanges toISOString doc).take i).countP (fun c => decide (c.element = kind)) =
      ((changeWrappers doc).take i).countP (fun w => decide (w.1 = kind)) := by
  have h1 : ((listChanges toISOString doc).take i).countP (fun c => decide (c.element = kind)) =
      ((((listChanges toISOString doc).map (fun c => c.element)).take i).countP
        (fun k => decide (k = kind))) := by
    rw [← List.map_take, List.countP_map]; rfl
  have h2 : ((changeWrappers doc).take i).countP (fun w => decide (w.1 = kind)) =
      ((((changeWrappers doc).map (fun w => w.1)).take i).countP
        (fun k => decide (k = kind))) := by
    rw [← List.map_take, List.countP_map]; rfl
  rw [h1, h2, map_element_listChanges]

/-- The record with id `id` exists at index `id - 1`, it stems from the wrapper
at that index of `changeWrappers`, and `applyChange` picks that very element,
which is the `k`-th element of its kind for `k` the number of records of that
kind with an id up to `id`. -/
theorem targetElement_listed (toISOString : String → Option String) (doc : List Node)
    (id : Nat) (h1 : 1 ≤ id) (h2 : id ≤ (listChanges toISOString doc).length) :
    ∃ change e,
      (listChanges toISOString doc)[id - 1]? = some change ∧
      (listChanges toISOString doc).find? (fun c => idEq c.id (.num id)) = some change ∧
      (changeWrappers doc)[id - 1]? = some (change.element, e) ∧
      targetElement (listChanges toISOString doc) change (.num id) doc = some e ∧
      (select change.element doc)[((listChanges toISOString doc).filter
        fun c => decide (c.element = change.element ∧ c.id ≤ id)).length - 1]? = some e := by
  have hids := map_id_listChanges toISOString doc
  have hel := map_element_listChanges toISOString doc
  have hlenW : (changeWrappers doc).length = (listChanges toISOString doc).length := by
    have := congrArg List.length hel
    simpa using this.symm
  have hi : id - 1 < (listChanges toISOString doc).length := by omega
  have hiW : id - 1 < (changeWrappers doc).length := by omega
  have hw1 : ((changeWrappers doc)[id - 1]).1 = ((listChanges toISOString doc)[id - 1]).element := by
    have := congrArg (fun l => l[id - 1]?) hel
    simp only [List.getElem?_map, List.getElem?_eq_getElem hi, List.getElem?_eq_getElem hiW,
      Option.map_some', Option.some.injEq] at this
    exact this.symm
  have hkind := kind_of_mem_changeWrappers doc _ (List.getElem_mem hiW)
  rw [hw1] at hkind
  have hrank := getElem?_filter_rank
    (fun w => decide (w.1 = ((listChanges toISOString doc)[id - 1]).element))
    (changeWrappers doc) (id - 1) _ (List.getElem?_eq_getElem hiW) (by simp [hw1])
  rw [filter_changeWrappers doc _ hkind, List.getElem?_map] at hrank
  have hsel : (select ((listChanges toISOString doc)[id - 1]).element doc)[
      ((changeWrappers doc).take (id - 1)).countP
        (fun w => decide (w.1 = ((listChanges toISOString doc)[id - 1]).element))]? =
      some ((changeWrappers doc)[id - 1]).2 := by
    cases hq : (select ((listChanges toISOString doc)[id - 1]).element doc)[
      ((changeWrappers doc).take (id - 1)).countP
        (fun w => decide (w.1 = ((listChanges toISOString doc)[id - 1]).element))]? with
    | none => rw [hq] at hrank; simp at hrank
    | some e =>
      rw [hq] at hrank
      simp only [Option.map_some', Option.some.injEq] at hrank
      rw [← hrank]
  refine ⟨(listChanges toISOString doc)[id - 1], ((changeWrappers doc)[id - 1]).2,
    List.getElem?_eq_getElem hi, ?_, ?_, ?_, ?_⟩
  · rw [find?_idEq _ 1 id hids h1, List.getElem?_eq_getElem hi]
  · rw [List.getElem?_eq_getElem hiW, ← hw1]
  · simp only [targetElement]
    rw [targetIndexLoop_eq _ _ 1 id 0 hids h1 (by omega), Nat.zero_add, countP_element_take]
    exact hsel
  · rw [length_filter_upto _ _ 1 id hids]
    have hstep : id + 1 - 1 = (id - 1) + 1 := by omega
    rw [hstep, List.take_succ, List.countP_append, countP_element_take,
      List.getElem?_eq_getElem hi]
    simp only [Option.toList_some, List.countP_cons, List.countP_nil, decide_True, ↓reduceIte,
      Nat.zero_add, Nat.add_sub_cancel]
    exact hsel

/-! ## Files -/

theorem readDocumentXml_ok (fs : FileSystem) (path : String) (zip : Package) (docXml : String)
    (hfile : fs path = some zip) (hpart : zip "word/document.xml" = some docXml)
    (hne : docXml ≠ "") : readDocumentXml fs path = .ok (zip, docXml) := by
  simp [readDocumentXml, hfile, hpart, hne]

theorem readDocumentXml_after_copy (fs : FileSystem) (docxPath : String)
    (outputPath : Option String) (zip : Package) (docXml : String)
    (hfile : fs docxPath = some zip) (hpart : zip "word/document.xml" = some docXml)
    (hne : docXml ≠ "") :
    readDocumentXml (copyIfDifferent fs docxPath outputPath) (pathOr outputPath docxPath) =
      .ok (zip, docXml) := by
  cases outputPath with
  | none => simpa [copyIfDifferent, pathOr, orElse] using readDocumentXml_ok fs docxPath zip docXml hfile hpart hne
  | some o =>
    by_cases ho : o = ""
    · simpa [copyIfDifferent, pathOr, orElse, ho] using
        readDocumentXml_ok fs docxPath zip docXml hfile hpart hne
    · by_cases hd : o = docxPath
      · subst hd
        simpa [copyIfDifferent, pathOr, orElse, ho] using
          readDocumentXml_ok fs o zip docXml hfile hpart hne
      · simp only [copyIfDifferent, ho, hd, or_self, ↓reduceIte, hfile, pathOr, orElse]
        exact readDocumentXml_ok _ o zip docXml (by simp [FileSystem.writeFile]) hpart hne

/-! ## Tree contexts -/

theorem mapChildrenAt_append (f : List Node → List Node) (pre : List Node) (ns nm : String)
    (attrs : List (String × String)) (ch post : List Node) :
    mapChildrenAt f pre.length (pre ++ .elem ns nm attrs ch :: post) =
      pre ++ .elem ns nm attrs (f ch) :: post := by
  induction pre with
  | nil => simp [mapChildrenAt]
  | cons a pre ih => simp [mapChildrenAt, ih]

theorem atParentOf_plug (g : Nat → List Node → List Node) (ctx : List Frame) (i : Nat)
    (cs : List Node) :
    atParentOf g (holePath ctx ++ [i]) (plug ctx cs) = plug ctx (g i cs) := by
  induction ctx with
  | nil => simp [holePath, plug, atParentOf]
  | cons f ctx ih =>
    have hq : ∃ j q, holePath ctx ++ [i] = j :: q := by
      cases ctx with
      | nil => exact ⟨i, [], rfl⟩
      | cons f2 ctx2 => exact ⟨_, _, rfl⟩
    obtain ⟨j, q, hjq⟩ := hq
    have hp : holePath (f :: ctx) ++ [i] = f.before.length :: j :: q := by
      simp only [holePath, List.map_cons, List.cons_append, List.cons.injEq, true_and] at hjq ⊢
      exact hjq
    rw [hp, atParentOf]
    · rw [← hjq, plug]
      beta_reduce
      rw [mapChildrenAt_append, ih, plug]
    · intro h; cases h

theorem atNode_plug (g : List Node → List Node) (f : Frame) (ctx : List Frame)
    (cs : List Node) :
    atNode g (holePath (f :: ctx)) (plug (f :: ctx) cs) = plug (f :: ctx) (g cs) := by
  induction ctx generalizing f cs with
  | nil => simp [holePath, plug, atNode, mapChildrenAt_append]
  | cons f2 ctx ih =>
    have hp : holePath (f :: f2 :: ctx) = f.before.length :: holePath (f2 :: ctx) := rfl
    have hq : holePath (f2 :: ctx) = f2.before.length :: holePath ctx := rfl
    rw [hp, hq, atNode]
    · rw [← hq, plug]
      beta_reduce
      rw [mapChildrenAt_append, ih]
      rfl
    · intro h; cases h

theorem mem_nodesFrom_cases (i : Nat) (cs : List Node) (p : NodePath) (n : Node)
    (h : (p, n) ∈ nodesFrom i cs) :
    ∃ pre m post q, cs = pre ++ m :: post ∧ p = (i + pre.length) :: q ∧
      ((q = [] ∧ n = m) ∨ (q, n) ∈ nodesBelow m) := by
  induction cs generalizing i with
  | nil => simp [nodesFrom] at h
  | cons a rest ih =>
    simp only [nodesFrom, List.mem_cons, List.mem_append, List.mem_map, Prod.mk.injEq] at h
    rcases h with (⟨hp, hn⟩ | ⟨x, hx, hp, hn⟩) | h
    · exact ⟨[], a, rest, [], rfl, by simp [hp], Or.inl ⟨rfl, hn⟩⟩
    · refine ⟨[], a, rest, x.1, rfl, by simp [← hp], Or.inr ?_⟩
      rw [← hn]; exact hx
    · obtain ⟨pre, m, post, q, hcs, hpq, hq⟩ := ih (i + 1) h
      refine ⟨a :: pre, m, post, q, by simp [hcs], ?_, hq⟩
      rw [hpq]; simp; omega

theorem exists_plug_of_mem_aux (p : NodePath) :
    ∀ (i : Nat) (cs : List Node) (n : Node), (p, n) ∈ nodesFrom i cs →
      ∃ ctx pre post, cs = plug ctx (pre ++ n :: post) ∧
        ∃ j q, holePath ctx ++ [pre.length] = j :: q ∧ p = (i + j) :: q := by
  induction p with
  | nil =>
    intro i cs n h
    obtain ⟨_, _, _, _, _, hp, _⟩ := mem_nodesFrom_cases i cs [] n h
    cases hp
  | cons j0 q0 ih =>
    intro i cs n h
    obtain ⟨pre, m, post, q, hcs, hp, hq⟩ := mem_nodesFrom_cases i cs (j0 :: q0) n h
    simp only [List.cons.injEq] at hp
    obtain ⟨hj, hqq⟩ := hp
    subst hqq
    rcases hq with ⟨hnil, hnm⟩ | hbelow
    · subst hnil hnm
      exact ⟨[], pre, post, by simp [plug, hcs], pre.length, [], by simp [holePath], by simp [hj]⟩
    · cases m with
      | text v => simp [nodesBelow] at hbelow
      | elem ns nm attrs ch =>
        simp only [nodesBelow] at hbelow
        obtain ⟨ctx, pre2, post2, hch, j, q, hhole, hq0⟩ := ih 0 ch n hbelow
        refine ⟨⟨pre, ns, nm, attrs, post⟩ :: ctx, pre2, post2, ?_, pre.length, j :: q, ?_, ?_⟩
        · simp [plug, hcs, hch]
        · simp only [holePath, List.map_cons, List.cons_append, List.cons.injEq, true_and]
          exact hhole
        · rw [hj, hq0]; simp

/-- Every node of a document sits in a child list reached by some frames, at
the position the enumeration reports for it. -/
theorem exists_plug_of_mem (doc : List Node) (p : NodePath) (n : Node)
    (h : (p, n) ∈ nodesFrom 0 doc) :
    ∃ ctx pre post, doc = plug ctx (pre ++ n :: post) ∧ p = holePath ctx ++ [pre.length] := by
  obtain ⟨ctx, pre, post, hdoc, j, q, hhole, hp⟩ := exists_plug_of_mem_aux p 0 doc n h
  exact ⟨ctx, pre, post, hdoc, by rw [hp, hhole]; simp⟩

theorem insertClones_eq (ch pre : List Node) (t : Node) (post : List Node) :
    insertClones ch pre.length (pre ++ t :: post) =
      (pre.length + ch.length, pre ++ ch ++ t :: post) := by
  induction ch generalizing pre with
  | nil => simp [insertClones]
  | cons c rest ih =>
    have h1 : insertBefore (cloneNode c) pre.length (pre ++ t :: post) =
        (pre ++ [c]) ++ t :: post := by
      simp [insertBefore, cloneNode]
    have h2 : pre.length + 1 = (pre ++ [c]).length := by simp
    rw [insertClones, h1, h2, ih]
    simp; omega

theorem removeChild_append (pre : List Node) (t : Node) (post : List Node) :
    removeChild pre.length (pre ++ t :: post) = pre ++ post := by
  simp [removeChild]

theorem acceptInsertion_append (pre : List Node) (ins : Node) (post : List Node) :
    acceptInsertion pre.length (pre ++ ins :: post) = pre ++ ins.childNodes ++ post := by
  have hget : (pre ++ ins :: post)[pre.length]? = some ins := by
    rw [List.getElem?_append_right (Nat.le_refl _)]; simp
  simp only [acceptInsertion, hget, insertClones_eq]
  have h2 : pre.length + ins.childNodes.length = (pre ++ ins.childNodes).length := by simp
  rw [h2, removeChild_append]

theorem map_snd_nodesFrom (cs : List Node) (i : Nat) :
    (nodesFrom i cs).map Prod.snd = (nodesFrom 0 cs).map Prod.snd := by
  induction cs generalizing i with
  | nil => simp [nodesFrom]
  | cons a rest ih =>
    simp only [nodesFrom, List.map_cons, List.map_append, List.map_map, Function.comp_def,
      List.cons_append]
    rw [ih (i + 1), ih (0 + 1)]

theorem allNodes_cons (a : Node) (rest : List Node) :
    allNodes (a :: rest) = a :: allNodes a.childNodes ++ allNodes rest := by
  simp only [allNodes, nodesFrom, List.map_cons, List.map_append, List.map_map,
    Function.comp_def, List.cons_append]
  rw [map_snd_nodesFrom rest (0 + 1)]
  cases a <;> simp [nodesBelow, Node.childNodes, nodesFrom]

theorem allNodes_append (a b : List Node) : allNodes (a ++ b) = allNodes a ++ allNodes b := by
  induction a with
  | nil => simp [allNodes, nodesFrom]
  | cons x a ih => simp [allNodes_cons, ih]

theorem length_select (name : String) (cs : List Node) :
    (select name cs).length = (allNodes cs).countP fun n => n.isW name := by
  rw [select, allNodes, List.countP_map, List.countP_eq_length_filter]
  rfl

theorem countP_allNodes_plug (P : Node → Bool)
    (hP : ∀ ns nm attrs x y, P (.elem ns nm attrs x) = P (.elem ns nm attrs y))
    (ctx : List Frame) :
    ∃ K, ∀ cs, (allNodes (plug ctx cs)).countP P = K + (allNodes cs).countP P := by
  induction ctx with
  | nil => exact ⟨0, fun cs => by simp [plug]⟩
  | cons f ctx ih =>
    obtain ⟨K, hK⟩ := ih
    refine ⟨(allNodes f.before).countP P +
      ((if P (.elem f.ns f.name f.attrs []) then 1 else 0) + K) +
      (allNodes f.after).countP P, fun cs => ?_⟩
    simp only [plug, allNodes_append, allNodes_cons, List.countP_append, List.countP_cons,
      Node.childNodes, hK cs, List.cons_append]
    rw [hP f.ns f.name f.attrs (plug ctx cs) []]
    omega

theorem allText_append (a b : List Node) : allText (a ++ b) = allText a ++ allText b := by
  induction a with
  | nil => simp [allText]
  | cons x a ih => cases x <;> simp [allText, ih]

theorem allText_cons (a : Node) (rest : List Node) :
    allText (a :: rest) = (match a.nodeValue with | some v => [v] | none => []) ++
      allText a.childNodes ++ allText rest := by
  cases a <;> simp [allText, Node.nodeValue, Node.childNodes]

theorem allText_plug (ctx : List Frame) :
    ∃ A B, ∀ cs, allText (plug ctx cs) = A ++ allText cs ++ B := by
  induction ctx with
  | nil => exact ⟨[], [], fun cs => by simp [plug]⟩
  | cons f ctx ih =>
    obtain ⟨A, B, h⟩ := ih
    refine ⟨allText f.before ++ A, B ++ allText f.after, fun cs => ?_⟩
    simp [plug, allText_append, allText, h cs]

theorem applyChange_eq (P : Platform) (fs : FileSystem)
    (docxPath : String) (zip : Package) (docXml : String) (id : Nat)
    (outputPath : Option String) (skipConfirmation answer : Bool)
    (change : ChangeRecord) (e : NodePath × Node)
    (hfile : fs docxPath = some zip) (hpart : zip "word/document.xml" = some docXml)
    (hne : docXml ≠ "")
    (hfind : (listChanges P.toISOString (parseXml P docXml)).find?
      (fun c => idEq c.id (.num id)) = some change)
    (htarget : targetElement (listChanges P.toISOString (parseXml P docXml)) change (.num id)
      (parseXml P docXml) = some e)
    (hgo : skipConfirmation = true ∨ answer = true) :
    applyChange P fs docxPath (.num id) outputPath skipConfirmation answer =
      if change.type = "Insertion" ∧ insertBeforeThrows P e.1 e.2.childNodes = true then
        (.failed .hierarchyRequest, copyIfDifferent fs docxPath outputPath)
      else
        (.ok { changeId := .num id, type := change.type },
          (copyIfDifferent fs docxPath outputPath).writeFile (pathOr outputPath docxPath)
            (zip.setFile "word/document.xml"
              (serializeXml P (acceptAt change e.1 (parseXml P docXml))))) := by
  have hlist : listTrackChanges P fs docxPath =
      .ok (listChanges P.toISOString (parseXml P docXml)) := by
    simp [listTrackChanges, readDocumentXml_ok fs docxPath zip docXml hfile hpart hne]
  have hconf : (!skipConfirmation && !answer) = false := by
    rcases hgo with h | h <;> simp [h]
  simp only [applyChange, hlist, hfind, hconf, Bool.false_eq_true, ↓reduceIte,
    readDocumentXml_after_copy fs docxPath outputPath zip docXml hfile hpart hne, htarget]

/-- C2. For a package whose document lists `n` changes and an id in 1..n,
`applyChange` (once confirmed) writes the document in which the accept
transform was run on exactly the element the record with that id was built
from: the entry at index `id - 1` of the wrappers in listing order, which is
the `k`-th element of the record's kind in document order, `k` being the
number of records of that kind with an id up to `id`.  The one run that ends
otherwise is the insertion at which `insertBefore` throws: that same element
is a child of the `Document` node, and the files are those left by the copy. -/
theorem applyChange_mutates_listed_element (P : Platform) (fs : FileSystem)
    (docxPath : String) (zip : Package) (docXml : String) (id : Nat)
    (outputPath : Option String) (skipConfirmation answer : Bool)
    (hfile : fs docxPath = some zip) (hpart : zip "word/document.xml" = some docXml)
    (hne : docXml ≠ "") (h1 : 1 ≤ id)
    (h2 : id ≤ (listChanges P.toISOString (parseXml P docXml)).length)
    (hgo : skipConfirmation = true ∨ answer = true) :
    ∃ change e,
      listTrackChanges P fs docxPath = .ok (listChanges P.toISOString (parseXml P docXml)) ∧
      (listChanges P.toISOString (parseXml P docXml))[id - 1]? = some change ∧
      (changeWrappers (parseXml P docXml))[id - 1]? = some (change.element, e) ∧
      (select change.element (parseXml P docXml))[
        ((listChanges P.toISOString (parseXml P docXml)).filter
          fun c => decide (c.element = change.element ∧ c.id ≤ id)).length - 1]? = some e ∧
      applyChange P fs docxPath (.num id) outputPath skipConfirmation answer =
        if change.type = "Insertion" ∧ insertBeforeThrows P e.1 e.2.childNodes = true then
          (.failed .hierarchyRequest, copyIfDifferent fs docxPath outputPath)
        else
          (.ok { changeId := .num id, type := change.type },
            (copyIfDifferent fs docxPath outputPath).writeFile (pathOr outputPath docxPath)
              (zip.setFile "word/document.xml"
                (serializeXml P (acceptAt change e.1 (parseXml P docXml))))) := by
  obtain ⟨change, e, hget, hfind, hw, htarget, hk⟩ :=
    targetElement_listed P.toISOString (parseXml P docXml) id h1 h2
  have hlist : listTrackChanges P fs docxPath =
      .ok (listChanges P.toISOString (parseXml P docXml)) := by
    simp [listTrackChanges, readDocumentXml_ok fs docxPath zip docXml hfile hpart hne]
  refine ⟨change, e, hlist, hget, hw, hk, ?_⟩
  exact applyChange_eq P fs docxPath zip docXml id outputPath skipConfirmation answer change e
    hfile hpart hne hfind htarget hgo

/-! ## The accept transforms of `applyChange` -/

theorem forall_mem_recordsFrom (mk : Node → Nat → ChangeRecord) (Q : ChangeRecord → Prop)
    (hQ : ∀ e i, Q (mk e i)) (es : List (NodePath × Node)) (n : Nat) :
    ∀ c ∈ recordsFrom mk es n, Q c := by
  induction es generalizing n with
  | nil => simp [recordsFrom]
  | cons e rest ih =>
    intro c hc
    simp only [recordsFrom, List.length_cons, List.range'_succ, List.zipWith_cons_cons,
      List.mem_cons] at hc
    rcases hc with hc | hc
    · rw [hc]; exact hQ _ _
    · exact ih (n + 1) c hc

/-- The type of a record and the element kind it names go together. -/
theorem type_element_of_mem (toISOString : String → Option String) (doc : List Node)
    (c : ChangeRecord) (hc : c ∈ listChanges toISOString doc) :
    (c.type = "Insertion" ∧ c.element = "ins") ∨ (c.type = "Deletion" ∧ c.element = "del") ∨
    (c.type = "Formatting (Run)" ∧ c.element = "rPrChange") ∨
    (c.type = "Formatting (Paragraph)" ∧ c.element = "pPrChange") := by
  rw [listChanges_eq] at hc
  simp only [List.mem_append] at hc
  let Q : ChangeRecord → Prop := fun c =>
    (c.type = "Insertion" ∧ c.element = "ins") ∨ (c.type = "Deletion" ∧ c.element = "del") ∨
    (c.type = "Formatting (Run)" ∧ c.element = "rPrChange") ∨
    (c.type = "Formatting (Paragraph)" ∧ c.element = "pPrChange")
  rcases hc with hc | hc | hc | hc
  · exact forall_mem_recordsFrom (insertionRecord toISOString) Q
      (fun _ _ => Or.inl ⟨rfl, rfl⟩) _ _ c hc
  · exact forall_mem_recordsFrom (deletionRecord toISOString) Q
      (fun _ _ => Or.inr (Or.inl ⟨rfl, rfl⟩)) _ _ c hc
  · exact forall_mem_recordsFrom (runFormattingRecord toISOString) Q
      (fun _ _ => Or.inr (Or.inr (Or.inl ⟨rfl, rfl⟩))) _ _ c hc
  · exact forall_mem_recordsFrom (paragraphFormattingRecord toISOString) Q
      (fun _ _ => Or.inr (Or.inr (Or.inr ⟨rfl, rfl⟩))) _ _ c hc

theorem mem_select_of_mem_changeWrappers (doc : List Node) (k : String) (e : NodePath × Node)
    (h : (k, e) ∈ changeWrappers doc) : e ∈ select k doc := by
  simp only [changeWrappers, List.mem_append, List.mem_map, Prod.mk.injEq] at h
  rcases h with ⟨x, hx, rfl, rfl⟩ | ⟨x, hx, rfl, rfl⟩ | ⟨x, hx, rfl, rfl⟩ | ⟨x, hx, rfl, rfl⟩ <;>
    exact hx

/-- The element picked for a listed id, together with the frames around it. -/
theorem target_decomposition (toISOString : String → Option String) (doc : List Node)
    (id : Nat) (h1 : 1 ≤ id) (h2 : id ≤ (listChanges toISOString doc).length) :
    ∃ change ctx pre w post,
      (listChanges toISOString doc)[id - 1]? = some change ∧
      (listChanges toISOString doc).find? (fun c => idEq c.id (.num id)) = some change ∧
      doc = plug ctx (pre ++ w :: post) ∧ w.isW change.element = true ∧
      (changeWrappers doc)[id - 1]? =
        some (change.element, (holePath ctx ++ [pre.length], w)) ∧
      targetElement (listChanges toISOString doc) change (.num id) doc =
        some (holePath ctx ++ [pre.length], w) := by
  obtain ⟨change, e, hget, hfind, hw, htarget, _⟩ :=
    targetElement_listed toISOString doc id h1 h2
  have hmem : (change.element, e) ∈ changeWrappers doc := List.mem_iff_getElem?.2 ⟨_, hw⟩
  have hsel := mem_select_of_mem_changeWrappers doc _ _ hmem
  simp only [select, List.mem_filter] at hsel
  obtain ⟨ctx, pre, post, hdoc, hp⟩ := exists_plug_of_mem doc e.1 e.2 hsel.1
  have he : e = (holePath ctx ++ [pre.length], e.2) := by
    rw [← hp]
  refine ⟨change, ctx, pre, e.2, post, hget, hfind, hdoc, hsel.2, ?_, ?_⟩
  · rw [← he]; exact hw
  · rw [← he]; exact htarget

theorem nodeValue_of_isW (k : String) (n : Node) (h : n.isW k = true) : n.nodeValue = none := by
  cases n with
  | text v => simp [Node.isW] at h
  | elem ns nm attrs cs => rfl

theorem allText_unwrap (k : String) (pre : List Node) (n : Node) (post : List Node)
    (h : n.isW k = true) :
    allText (pre ++ n :: post) = allText pre ++ allText n.childNodes ++ allText post := by
  rw [allText_append, allText_cons, nodeValue_of_isW k n h]
  simp

theorem record_of_getElem? (toISOString : String → Option String) (doc : List Node) (id : Nat)
    (change : ChangeRecord) (h1 : 1 ≤ id)
    (hrec : (listChanges toISOString doc)[id - 1]? = some change) :
    id ≤ (listChanges toISOString doc).length ∧ change ∈ listChanges toISOString doc := by
  have hlt := (List.getElem?_eq_some_iff.1 hrec).1
  exact ⟨by omega, List.mem_iff_getElem?.2 ⟨_, hrec⟩⟩

/-- C3 (as the code has it). For a package and an id whose record is an
Insertion, let the `w:ins` wrapper that record was built from have the
siblings `pre` before and `post` after it.  When the wrapper is a child of the
`Document` node and `insertBefore` refuses one of its children, `applyChange`
(once confirmed) ends with that error and the files are those left by the
copy.  In every other case, so whenever the wrapper has a parent element, it
writes the document in which the wrapper is replaced, in the child list of its
parent, by its own children in their order: `pre ++ [ins] ++ post` becomes
`pre ++ children(ins) ++ post`, everything around that child list staying as
it was.  The text of that document is the text of the document read, so every
text inside the wrapper is still present, and it holds one `w:ins` element
fewer. -/
theorem applyChange_insertion_unwraps (P : Platform) (fs : FileSystem)
    (docxPath : String) (zip : Package) (docXml : String) (id : Nat)
    (outputPath : Option String) (skipConfirmation answer : Bool) (change : ChangeRecord)
    (hfile : fs docxPath = some zip) (hpart : zip "word/document.xml" = some docXml)
    (hne : docXml ≠ "") (h1 : 1 ≤ id)
    (hrec : (listChanges P.toISOString (parseXml P docXml))[id - 1]? = some change)
    (htype : change.type = "Insertion")
    (hgo : skipConfirmation = true ∨ answer = true) :
    ∃ ctx pre ins post,
      parseXml P docXml = plug ctx (pre ++ ins :: post) ∧ ins.isW "ins" = true ∧
      (changeWrappers (parseXml P docXml))[id - 1]? =
        some ("ins", (holePath ctx ++ [pre.length], ins)) ∧
      (ctx ≠ [] → insertBeforeThrows P (holePath ctx ++ [pre.length]) ins.childNodes = false) ∧
      applyChange P fs docxPath (.num id) outputPath skipConfirmation answer =
        (if insertBeforeThrows P (holePath ctx ++ [pre.length]) ins.childNodes = true then
          (.failed .hierarchyRequest, copyIfDifferent fs docxPath outputPath)
        else
          (.ok { changeId := .num id, type := "Insertion" },
            (copyIfDifferent fs docxPath outputPath).writeFile (pathOr outputPath docxPath)
              (zip.setFile "word/document.xml"
                (serializeXml P (plug ctx (pre ++ ins.childNodes ++ post)))))) ∧
      allText (plug ctx (pre ++ ins.childNodes ++ post)) = allText (parseXml P docXml) ∧
      (∀ t ∈ allText ins.childNodes,
        t ∈ allText (plug ctx (pre ++ ins.childNodes ++ post))) ∧
      (select "ins" (plug ctx (pre ++ ins.childNodes ++ post))).length + 1 =
        (select "ins" (parseXml P docXml)).length := by
  obtain ⟨h2, hmem⟩ := record_of_getElem? P.toISOString _ id change h1 hrec
  obtain ⟨change2, ctx, pre, w, post, hget, hfind, hdoc, hw, hwrap, htarget⟩ :=
    target_decomposition P.toISOString (parseXml P docXml) id h1 h2
  have hch : change2 = change := by
    rw [hrec] at hget; exact (Option.some.inj hget).symm
  subst hch
  have hel : change2.element = "ins" := by
    rcases type_element_of_mem P.toISOString _ change2 hmem with h | h | h | h
    · exact h.2
    all_goals (rw [h.1] at htype; exact absurd htype (by decide))
  rw [hel] at hw hwrap
  have hacc : acceptAt change2 (holePath ctx ++ [pre.length]) (parseXml P docXml) =
      plug ctx (pre ++ w.childNodes ++ post) := by
    rw [acceptAt, if_pos htype]
    conv => lhs; rw [hdoc]
    rw [atParentOf_plug, acceptInsertion_append]
  have happly := applyChange_eq P fs docxPath zip docXml id outputPath skipConfirmation answer
    change2 _ hfile hpart hne hfind htarget hgo
  rw [hacc, htype] at happly
  simp only [true_and] at happly
  obtain ⟨A, B, hAB⟩ := allText_plug ctx
  have htext : allText (plug ctx (pre ++ w.childNodes ++ post)) =
      allText (parseXml P docXml) := by
    conv => rhs; rw [hdoc]
    rw [hAB, hAB, allText_unwrap "ins" pre w post hw]
    simp [allText_append]
  obtain ⟨K, hK⟩ := countP_allNodes_plug (fun n => n.isW "ins") (fun _ _ _ _ _ => rfl) ctx
  refine ⟨ctx, pre, w, post, hdoc, hw, hwrap, ?_, happly, htext, ?_, ?_⟩
  · intro hctx
    cases ctx with
    | nil => exact absurd rfl hctx
    | cons f rest => simp [insertBeforeThrows, holePath]
  · intro t ht
    rw [hAB]
    simp only [allText_append, List.mem_append]
    exact Or.inl (Or.inr (Or.inl (Or.inr ht)))
  · conv => rhs; rw [hdoc]
    rw [length_select, length_select, hK, hK]
    simp only [allNodes_append, allNodes_cons, List.countP_append, List.countP_cons, hw,
      List.cons_append, if_true]
    omega

theorem acceptAt_remove (change : ChangeRecord) (ctx : List Frame) (pre : List Node) (w : Node)
    (post : List Node) (hnot : change.type ≠ "Insertion")
    (h : change.type = "Deletion" ∨ startsWith change.type "Formatting" = true) :
    acceptAt change (holePath ctx ++ [pre.length]) (plug ctx (pre ++ w :: post)) =
      plug ctx (pre ++ post) := by
  rw [acceptAt, if_neg hnot]
  rcases h with h | h
  · rw [if_pos h, atParentOf_plug, removeChild_append]
  · by_cases hd : change.type = "Deletion"
    · rw [if_pos hd, atParentOf_plug, removeChild_append]
    · rw [if_neg hd, if_pos h, atParentOf_plug, removeChild_append]

/-- C4. For a package and an id whose record is a Deletion, `applyChange` (once
confirmed) writes the document in which the `w:del` wrapper that record was
built from is taken out of the child list of its parent together with all below
it: `pre ++ [del] ++ post` becomes `pre ++ post`, everything around that child
list staying as it was.  The text of the result is the text of the document
without the text inside the wrapper, and the result has as many nodes fewer as
the wrapper and its descendants count. -/
theorem applyChange_deletion_removes (P : Platform) (fs : FileSystem)
    (docxPath : String) (zip : Package) (docXml : String) (id : Nat)
    (outputPath : Option String) (skipConfirmation answer : Bool) (change : ChangeRecord)
    (hfile : fs docxPath = some zip) (hpart : zip "word/document.xml" = some docXml)
    (hne : docXml ≠ "") (h1 : 1 ≤ id)
    (hrec : (listChanges P.toISOString (parseXml P docXml))[id - 1]? = some change)
    (htype : change.type = "Deletion")
    (hgo : skipConfirmation = true ∨ answer = true) :
    ∃ ctx pre del post,
      parseXml P docXml = plug ctx (pre ++ del :: post) ∧ del.isW "del" = true ∧
      (changeWrappers (parseXml P docXml))[id - 1]? =
        some ("del", (holePath ctx ++ [pre.length], del)) ∧
      applyChange P fs docxPath (.num id) outputPath skipConfirmation answer =
        (.ok { changeId := .num id, type := "Deletion" },
          (copyIfDifferent fs docxPath outputPath).writeFile (pathOr outputPath docxPath)
            (zip.setFile "word/document.xml" (serializeXml P (plug ctx (pre ++ post))))) ∧
      (∃ A B, allText (parseXml P docXml) = A ++ allText del.childNodes ++ B ∧
        allText (plug ctx (pre ++ post)) = A ++ B) ∧
      (allNodes (plug ctx (pre ++ post))).length + (1 + (allNodes del.childNodes).length) =
        (allNodes (parseXml P docXml)).length := by
  obtain ⟨h2, hmem⟩ := record_of_getElem? P.toISOString _ id change h1 hrec
  obtain ⟨change2, ctx, pre, w, post, hget, hfind, hdoc, hw, hwrap, htarget⟩ :=
    target_decomposition P.toISOString (parseXml P docXml) id h1 h2
  have hch : change2 = change := by
    rw [hrec] at hget; exact (Option.some.inj hget).symm
  subst hch
  have hel : change2.element = "del" := by
    rcases type_element_of_mem P.toISOString _ change2 hmem with h | h | h | h
    · rw [h.1] at htype; exact absurd htype (by decide)
    · exact h.2
    all_goals (rw [h.1] at htype; exact absurd htype (by decide))
  rw [hel] at hw hwrap
  have hacc : acceptAt change2 (holePath ctx ++ [pre.length]) (parseXml P docXml) =
      plug ctx (pre ++ post) := by
    conv => lhs; rw [hdoc]
    exact acceptAt_remove change2 ctx pre w post (by rw [htype]; decide) (Or.inl htype)
  have hnot : ¬ (change2.type = "Insertion" ∧ insertBeforeThrows P
      (holePath ctx ++ [pre.length], w).1 (holePath ctx ++ [pre.length], w).2.childNodes = true) := by
    intro h
    rw [htype] at h
    exact absurd h.1 (by decide)
  have happly := applyChange_eq P fs docxPath zip docXml id outputPath skipConfirmation answer
    change2 _ hfile hpart hne hfind htarget hgo
  rw [if_neg hnot, hacc, htype] at happly
  obtain ⟨A, B, hAB⟩ := allText_plug ctx
  obtain ⟨K, hK⟩ := countP_allNodes_plug (fun _ => true) (fun _ _ _ _ _ => rfl) ctx
  refine ⟨ctx, pre, w, post, hdoc, hw, hwrap, happly,
    ⟨A ++ allText pre, allText post ++ B, ?_, ?_⟩, ?_⟩
  · conv => lhs; rw [hdoc]
    rw [hAB, allText_unwrap "del" pre w post hw]
    simp
  · rw [hAB, allText_append]
    simp
  · conv => rhs; rw [hdoc]
    have e1 := hK (pre ++ post)
    have e2 := hK (pre ++ w :: post)
    simp only [List.countP_true] at e1 e2
    rw [e1, e2]
    simp only [allNodes_append, allNodes_cons, List.length_append, List.length_cons,
      List.cons_append]
    omega

/-- C5. For a package and an id whose record is a formatting change (run or
paragraph), `applyChange` (once confirmed) writes the document in which only
the `w:rPrChange` / `w:pPrChange` marker that record was built from is taken
out of the child list of its parent: `pre ++ [marker] ++ post` becomes
`pre ++ post`; the parent keeps its name, its attributes and its other
children in their order, and everything around it stays as it was. -/
theorem applyChange_formatting_removes_marker (P : Platform) (fs : FileSystem)
    (docxPath : String) (zip : Package) (docXml : String) (id : Nat)
    (outputPath : Option String) (skipConfirmation answer : Bool) (change : ChangeRecord)
    (hfile : fs docxPath = some zip) (hpart : zip "word/document.xml" = some docXml)
    (hne : docXml ≠ "") (h1 : 1 ≤ id)
    (hrec : (listChanges P.toISOString (parseXml P docXml))[id - 1]? = some change)
    (htype : change.type = "Formatting (Run)" ∨ change.type = "Formatting (Paragraph)")
    (hgo : skipConfirmation = true ∨ answer = true) :
    ∃ ctx pre marker post,
      parseXml P docXml = plug ctx (pre ++ marker :: post) ∧
      (marker.isW "rPrChange" = true ∨ marker.isW "pPrChange" = true) ∧
      (changeWrappers (parseXml P docXml))[id - 1]? =
        some (change.element, (holePath ctx ++ [pre.length], marker)) ∧
      applyChange P fs docxPath (.num id) outputPath skipConfirmation answer =
        (.ok { changeId := .num id, type := change.type },
          (copyIfDifferent fs docxPath outputPath).writeFile (pathOr outputPath docxPath)
            (zip.setFile "word/document.xml" (serializeXml P (plug ctx (pre ++ post))))) := by
  obtain ⟨h2, hmem⟩ := record_of_getElem? P.toISOString _ id change h1 hrec
  obtain ⟨change2, ctx, pre, w, post, hget, hfind, hdoc, hw, hwrap, htarget⟩ :=
    target_decomposition P.toISOString (parseXml P docXml) id h1 h2
  have hch : change2 = change := by
    rw [hrec] at hget; exact (Option.some.inj hget).symm
  subst hch
  have hel : change2.element = "rPrChange" ∨ change2.element = "pPrChange" := by
    rcases type_element_of_mem P.toISOString _ change2 hmem with h | h | h | h
    · rcases htype with ht | ht <;> (rw [h.1] at ht; exact absurd ht (by decide))
    · rcases htype with ht | ht <;> (rw [h.1] at ht; exact absurd ht (by decide))
    · exact Or.inl h.2
    · exact Or.inr h.2
  have hmark : w.isW "rPrChange" = true ∨ w.isW "pPrChange" = true := by
    rcases hel with h | h
    · left; rw [← h]; exact hw
    · right; rw [← h]; exact hw
  have hacc : acceptAt change2 (holePath ctx ++ [pre.length]) (parseXml P docXml) =
      plug ctx (pre ++ post) := by
    conv => lhs; rw [hdoc]
    refine acceptAt_remove change2 ctx pre w post ?_ (Or.inr ?_)
    · rcases htype with ht | ht <;> (rw [ht]; decide)
    · rcases htype with ht | ht <;> (rw [ht]; decide)
  have hnot : ¬ (change2.type = "Insertion" ∧ insertBeforeThrows P
      (holePath ctx ++ [pre.length], w).1 (holePath ctx ++ [pre.length], w).2.childNodes = true) := by
    intro h
    rcases htype with ht | ht <;> (rw [ht] at h; exact absurd h.1 (by decide))
  have happly := applyChange_eq P fs docxPath zip docXml id outputPath skipConfirmation answer
    change2 _ hfile hpart hne hfind htarget hgo
  rw [if_neg hnot, hacc] at happly
  exact ⟨ctx, pre, w, post, hdoc, hmark, hwrap, happly⟩

/-! ## Unknown change ids -/

theorem id_bounds_of_mem (toISOString : String → Option String) (doc : List Node)
    (c : ChangeRecord) (hc : c ∈ listChanges toISOString doc) :
    1 ≤ c.id ∧ c.id ≤ (listChanges toISOString doc).length := by
  have hmem : c.id ∈ (listChanges toISOString doc).map (fun c => c.id) :=
    List.mem_map_of_mem _ hc
  rw [map_id_listChanges, List.mem_range'_1] at hmem
  omega

/-- C6. When the document of a package lists `n` changes and the requested id
is none of 1..n (zero, a negative number, a number above `n`, or `NaN`),
`applyChange` fails with the change-not-found error and the files are exactly
as before: nothing was copied to the output path and no part was written. -/
theorem applyChange_unknown_id (P : Platform) (fs : FileSystem) (docxPath : String)
    (changeId : JsNumber) (outputPath : Option String) (skipConfirmation answer : Bool)
    (changes : List ChangeRecord)
    (hlist : listTrackChanges P fs docxPath = .ok changes)
    (hout : ∀ k : Nat, 1 ≤ k → k ≤ changes.length → changeId ≠ .num k) :
    applyChange P fs docxPath changeId outputPath skipConfirmation answer =
      (.failed .changeNotFound, fs) := by
  have hch : ∃ docXml, changes = listChanges P.toISOString (parseXml P docXml) := by
    simp only [listTrackChanges] at hlist
    split at hlist
    · cases hlist
    · rename_i zip docXml _
      exact ⟨docXml, by cases hlist; rfl⟩
  obtain ⟨docXml, hch⟩ := hch
  have hfind : changes.find? (fun c => idEq c.id changeId) = none := by
    rw [List.find?_eq_none]
    intro c hc
    rw [hch] at hc
    have hb := id_bounds_of_mem P.toISOString _ c hc
    rw [← hch] at hb
    cases changeId with
    | nan => simp [idEq]
    | num n =>
      simp only [idEq, decide_eq_true_eq]
      intro h
      exact hout c.id hb.1 hb.2 (by rw [h])
  simp only [applyChange, hlist, hfind]

/-! ## apply-all-changes.js on sample documents -/

theorem applyAllChanges_eq (P : Platform) (toLowerCase : String → String) (fs : FileSystem)
    (docxPath : String) (zip : Package) (docXml : String)
    (outputPath filterAuthor filterType : Option String) (skipConfirmation answer : Bool)
    (hfile : fs docxPath = some zip) (hpart : zip "word/document.xml" = some docXml)
    (hne : docXml ≠ "")
    (hsome : applyFilters toLowerCase filterAuthor filterType
      (listChanges P.toISOString (parseXml P docXml)) ≠ [])
    (hgo : skipConfirmation = true ∨ answer = true) :
    applyAllChanges P toLowerCase fs docxPath outputPath filterAuthor filterType
        skipConfirmation answer =
      if insertionLoopThrows P (select "ins" (parseXml P docXml))
          { doc := parseXml P docXml, position := some } = true then
        (.failed .hierarchyRequest, copyIfDifferent fs docxPath outputPath)
      else
        (.ok (applyFilters toLowerCase filterAuthor filterType
            (listChanges P.toISOString (parseXml P docXml))).length,
          (copyIfDifferent fs docxPath outputPath).writeFile (pathOr outputPath docxPath)
            (zip.setFile "word/document.xml"
              (serializeXml P (acceptAllInDoc (parseXml P docXml))))) := by
  have hlist : listTrackChanges P fs docxPath =
      .ok (listChanges P.toISOString (parseXml P docXml)) := by
    simp [listTrackChanges, readDocumentXml_ok fs docxPath zip docXml hfile hpart hne]
  have hconf : (!skipConfirmation && !answer) = false := by
    rcases hgo with h | h <;> simp [h]
  have hlen : ¬ (applyFilters toLowerCase filterAuthor filterType
      (listChanges P.toISOString (parseXml P docXml))).length = 0 := by
    rw [List.length_eq_zero]; exact hsome
  simp only [applyAllChanges, hlist, hlen, hconf, Bool.false_eq_true, ↓reduceIte,
    readDocumentXml_after_copy fs docxPath outputPath zip docXml hfile hpart hne]

/-- C7 (the code at a failing input). On the sample document with a `w:ins`
inside a `w:ins`, `applyAllChanges` without filters reports 2 changes applied,
yet the document it writes still lists the inner insertion as pending; a second
run on that result reports 1 change applied, and only then is the listing
empty. -/
theorem applyAllChanges_leaves_nested_insertion :
    (applyAllChanges (samplePlatform sampleNested) (fun s => s) sampleFiles "a.docx" none none
      none true false).1 = .ok 2 ∧
    listChanges (fun _ => none) (acceptAllInDoc sampleNested) =
      [{ id := 1, type := "Insertion", author := "A", date := none, text := "b",
         status := "Pending", element := "ins" }] ∧
    (applyAllChanges (samplePlatform (acceptAllInDoc sampleNested)) (fun s => s) sampleFiles
      "a.docx" none none none true false).1 = .ok 1 ∧
    listChanges (fun _ => none) (acceptAllInDoc (acceptAllInDoc sampleNested)) = [] := by
  refine ⟨?_, by decide, ?_, by decide⟩
  · rw [applyAllChanges_eq (samplePlatform sampleNested) (fun s => s) sampleFiles "a.docx"
      samplePackage "<w:document/>" none none none true false rfl rfl (by decide) (by decide)
      (Or.inl rfl), if_neg (by decide)]
    decide
  · rw [applyAllChanges_eq (samplePlatform (acceptAllInDoc sampleNested)) (fun s => s)
      sampleFiles "a.docx" samplePackage "<w:document/>" none none none true false rfl rfl
      (by decide) (by decide) (Or.inl rfl), if_neg (by decide)]
    decide

/-- C8 (the code at a failing input). On the sample document with one insertion
by Alice and one by Bob, `applyAllChanges` with the author filter `Alice`
reports 1 change applied, yet the document it writes is the one with all
wrappers accepted: Bob's insertion is no longer listed. -/
theorem applyAllChanges_ignores_filter :
    (listChanges (fun _ => none) sampleTwoAuthors).map (fun c => c.author) = ["Alice", "Bob"] ∧
    applyAllChanges (samplePlatform sampleTwoAuthors) (fun s => s) sampleFiles "a.docx" none
        (some "Alice") none true false =
      (.ok 1, sampleFiles.writeFile "a.docx" (samplePackage.setFile "word/document.xml"
        (serializeXml (samplePlatform sampleTwoAuthors) (acceptAllInDoc sampleTwoAuthors)))) ∧
    listChanges (fun _ => none) (acceptAllInDoc sampleTwoAuthors) = [] := by
  refine ⟨by decide, ?_, by decide⟩
  rw [applyAllChanges_eq (samplePlatform sampleTwoAuthors) (fun s => s) sampleFiles "a.docx"
    samplePackage "<w:document/>" none (some "Alice") none true false rfl rfl (by decide)
    (by decide) (Or.inl rfl), if_neg (by decide)]
  rfl

/-- C9 (the code at a failing input). After `addChange` put a deletion with the
text `Hello` into the sample document without changes, `listTrackChanges`
lists that deletion with the empty text: the text sits in `w:delText`, which
`getTextFromElement` does not read. -/
theorem deletion_listed_without_text :
    (addChangeInDoc (sampleDocument []) "Hello" "deletion" "AIM" "2024").toOption.map
        (listChanges (fun _ => none)) =
      some [{ id := 1, type := "Deletion", author := "AIM", date := some "2024", text := "",
              status := "Pending", element := "del" }] ∧
    getTextFromElement (createElementNS "del" []
      [createElementNS "r" [] [createElementNS "delText" [] [.text "Hello"]]]) = "" := by
  constructor <;> decide

/-! ## Text of a record -/

mutual
theorem textNodesOfNode_eq (p : Bool) (n : Node) :
    textNodesOfNode p n = (if p then n.nodeValue.toList else []) ++
      (pairsBelow n).filterMap fun q => if q.1.isW "t" then q.2.nodeValue else none := by
  cases n with
  | text v => cases p <;> simp [textNodesOfNode, pairsBelow, Node.nodeValue]
  | elem ns nm attrs cs =>
    have h : textNodesOfT (ns == NS_W && nm == "t") cs = _ :=
      textNodesOfT_eq (.elem ns nm attrs cs) cs
    rw [textNodesOfNode, pairsBelow, h]
    cases p <;> simp [Node.nodeValue]
theorem textNodesOfT_eq (parent : Node) (cs : List Node) :
    textNodesOfT (parent.isW "t") cs =
      (pairsIn parent cs).filterMap fun q => if q.1.isW "t" then q.2.nodeValue else none := by
  cases cs with
  | nil => simp [textNodesOfT, pairsIn]
  | cons c rest =>
    have h1 := textNodesOfT_eq parent rest
    have h2 := textNodesOfNode_eq (parent.isW "t") c
    simp only [textNodesOfT, pairsIn, List.filterMap_cons, List.filterMap_append, h2, ← h1]
    cases hv : c.nodeValue <;> cases hp : parent.isW "t" <;> simp
end

theorem flatMap_pairsBelow (cs : List Node) :
    textNodesOfT false cs = (cs.flatMap pairsBelow).filterMap fun q =>
      if q.1.isW "t" then q.2.nodeValue else none := by
  induction cs with
  | nil => simp [textNodesOfT]
  | cons c rest ih =>
    rw [textNodesOfT, ih, textNodesOfNode_eq false c]
    simp [List.flatMap_cons, List.filterMap_append]

theorem getElem?_recordsFrom (mk : Node → Nat → ChangeRecord) (es : List (NodePath × Node))
    (n i : Nat) :
    (recordsFrom mk es n)[i]? = (es[i]?).map fun e => mk e.2 (n + i) := by
  induction es generalizing n i with
  | nil => simp [recordsFrom]
  | cons e rest ih =>
    have h := ih (n + 1)
    simp only [recordsFrom] at h
    cases i with
    | zero => simp [recordsFrom, List.range'_succ]
    | succ i =>
      simp only [recordsFrom, List.length_cons, List.range'_succ, List.zipWith_cons_cons,
        List.getElem?_cons_succ, h]
      congr 1
      funext e
      congr 1
      omega

mutual
theorem mem_allText_of_node (p : Bool) (n : Node) (t : String)
    (h : t ∈ textNodesOfNode p n) : t ∈ allText [n] := by
  cases n with
  | text v =>
    cases p
    · simp [textNodesOfNode] at h
    · simp only [textNodesOfNode, if_true, List.mem_singleton] at h
      simp [allText, h]
  | elem ns nm attrs cs =>
    rw [textNodesOfNode] at h
    have := mem_allText_of_list _ cs t h
    simp [allText, this]
theorem mem_allText_of_list (p : Bool) (cs : List Node) (t : String)
    (h : t ∈ textNodesOfT p cs) : t ∈ allText cs := by
  cases cs with
  | nil => simp [textNodesOfT] at h
  | cons c rest =>
    rw [textNodesOfT, List.mem_append] at h
    have hsplit : allText (c :: rest) = allText [c] ++ allText rest := by
      rw [← allText_append]; rfl
    rw [hsplit, List.mem_append]
    rcases h with h | h
    · exact Or.inl (mem_allText_of_node p c t h)
    · exact Or.inr (mem_allText_of_list p rest t h)
end

/-- C10. The record of the `w:ins` element number `i` (in document order) is the
record number `i` of the listing, an Insertion whose text is the concatenation,
in document order, of the text nodes of all `w:t` descendants of the wrapper at
any depth; an element without text nodes below it has the empty text; every
formatting-change record has the text `[Formatting change]`. -/
theorem record_text (toISOString : String → Option String) (doc : List Node) :
    (∀ (i : Nat) (e : NodePath × Node), (select "ins" doc)[i]? = some e →
      ∃ c, (listChanges toISOString doc)[i]? = some c ∧ c.id = i + 1 ∧
        c.type = "Insertion" ∧ c.text = String.join (descendantTexts e.2)) ∧
    (∀ e : Node, getTextFromElement e = String.join (descendantTexts e)) ∧
    (∀ e : Node, allText e.childNodes = [] → getTextFromElement e = "") ∧
    (∀ c ∈ listChanges toISOString doc,
      (c.type = "Formatting (Run)" ∨ c.type = "Formatting (Paragraph)") →
        c.text = "[Formatting change]") := by
  have htext : ∀ e : Node, getTextFromElement e = String.join (descendantTexts e) := by
    intro e
    rw [getTextFromElement, descendantTexts, flatMap_pairsBelow]
  refine ⟨?_, htext, ?_, ?_⟩
  · intro i e he
    have hi : i < (select "ins" doc).length := (List.getElem?_eq_some_iff.1 he).1
    refine ⟨insertionRecord toISOString e.2 (1 + i), ?_, ?_, rfl, htext e.2⟩
    · rw [listChanges_eq, List.getElem?_append_left (by rw [length_recordsFrom]; exact hi),
        getElem?_recordsFrom, he]
      rfl
    · simp [insertionRecord]; omega
  · intro e he
    have hnil : textNodesOfT false e.childNodes = [] := by
      rw [List.eq_nil_iff_forall_not_mem]
      intro t ht
      have := mem_allText_of_list false _ t ht
      rw [he] at this
      exact absurd this (List.not_mem_nil t)
    rw [getTextFromElement, hnil]
    rfl
  · intro c hc htype
    rw [listChanges_eq] at hc
    simp only [List.mem_append] at hc
    let Q : ChangeRecord → Prop := fun c =>
      (c.type = "Formatting (Run)" ∨ c.type = "Formatting (Paragraph)") →
        c.text = "[Formatting change]"
    have hdec1 : ¬ ("Insertion" = "Formatting (Run)" ∨ "Insertion" = "Formatting (Paragraph)") := by
      decide
    have hdec2 : ¬ ("Deletion" = "Formatting (Run)" ∨ "Deletion" = "Formatting (Paragraph)") := by
      decide
    rcases hc with hc | hc | hc | hc
    · exact forall_mem_recordsFrom (insertionRecord toISOString) Q
        (fun _ _ h => absurd h hdec1) _ _ c hc htype
    · exact forall_mem_recordsFrom (deletionRecord toISOString) Q
        (fun _ _ h => absurd h hdec2) _ _ c hc htype
    · exact forall_mem_recordsFrom (runFormattingRecord toISOString) Q
        (fun _ _ _ => rfl) _ _ c hc htype
    · exact forall_mem_recordsFrom (paragraphFormattingRecord toISOString) Q
        (fun _ _ _ => rfl) _ _ c hc htype

/-! ## The theorems at sample inputs -/

theorem listChanges_enumerates_witness :
    listChanges (fun _ => none) sampleMixed = [sampleInsertion, sampleDeletion, sampleFormatting] ∧
    (listChanges (fun _ => none) sampleMixed).map (fun c => c.id) =
      List.range' 1 (listChanges (fun _ => none) sampleMixed).length :=
  ⟨by decide, (listChanges_enumerates (fun _ => none) sampleMixed).2.1⟩

theorem applyChange_mutates_listed_element_witness :
    sampleFiles "a.docx" = some samplePackage ∧
    samplePackage "word/document.xml" = some "<w:document/>" ∧
    "<w:document/>" ≠ "" ∧ 1 ≤ 2 ∧
    2 ≤ (listChanges (samplePlatform sampleMixed).toISOString
      (parseXml (samplePlatform sampleMixed) "<w:document/>")).length ∧
    ∃ change e,
      listTrackChanges (samplePlatform sampleMixed) sampleFiles "a.docx" =
        .ok (listChanges (samplePlatform sampleMixed).toISOString
          (parseXml (samplePlatform sampleMixed) "<w:document/>")) ∧
      (listChanges (samplePlatform sampleMixed).toISOString
        (parseXml (samplePlatform sampleMixed) "<w:document/>"))[2 - 1]? = some change ∧
      (changeWrappers (parseXml (samplePlatform sampleMixed) "<w:document/>"))[2 - 1]? =
        some (change.element, e) ∧
      (select change.element (parseXml (samplePlatform sampleMixed) "<w:document/>"))[
        ((listChanges (samplePlatform sampleMixed).toISOString
          (parseXml (samplePlatform sampleMixed) "<w:document/>")).filter
          fun c => decide (c.element = change.element ∧ c.id ≤ 2)).length - 1]? = some e ∧
      applyChange (samplePlatform sampleMixed) sampleFiles "a.docx" (.num (2 : Nat)) none true
          false =
        if change.type = "Insertion" ∧
            insertBeforeThrows (samplePlatform sampleMixed) e.1 e.2.childNodes = true then
          (.failed .hierarchyRequest, copyIfDifferent sampleFiles "a.docx" none)
        else
          (.ok { changeId := .num (2 : Nat), type := change.type },
            (copyIfDifferent sampleFiles "a.docx" none).writeFile (pathOr none "a.docx")
              (samplePackage.setFile "word/document.xml"
                (serializeXml (samplePlatform sampleMixed)
                  (acceptAt change e.1
                    (parseXml (samplePlatform sampleMixed) "<w:document/>"))))) :=
  ⟨rfl, rfl, by decide, by decide, by decide,
    applyChange_mutates_listed_element (samplePlatform sampleMixed) sampleFiles "a.docx"
      samplePackage "<w:document/>" 2 none true false rfl rfl (by decide) (by decide)
      (by decide) (Or.inl rfl)⟩

theorem applyChange_insertion_unwraps_witness :
    sampleFiles "a.docx" = some samplePackage ∧
    samplePackage "word/document.xml" = some "<w:document/>" ∧
    "<w:document/>" ≠ "" ∧ 1 ≤ 1 ∧
    (listChanges (samplePlatform sampleMixed).toISOString
      (parseXml (samplePlatform sampleMixed) "<w:document/>"))[1 - 1]? = some sampleInsertion ∧
    sampleInsertion.type = "Insertion" ∧
    ∃ ctx pre ins post,
      parseXml (samplePlatform sampleMixed) "<w:document/>" = plug ctx (pre ++ ins :: post) ∧
      ins.isW "ins" = true ∧
      (changeWrappers (parseXml (samplePlatform sampleMixed) "<w:document/>"))[1 - 1]? =
        some ("ins", (holePath ctx ++ [pre.length], ins)) ∧
      (ctx ≠ [] → insertBeforeThrows (samplePlatform sampleMixed)
        (holePath ctx ++ [pre.length]) ins.childNodes = false) ∧
      applyChange (samplePlatform sampleMixed) sampleFiles "a.docx" (.num (1 : Nat)) none true
          false =
        (if insertBeforeThrows (samplePlatform sampleMixed) (holePath ctx ++ [pre.length])
            ins.childNodes = true then
          (.failed .hierarchyRequest, copyIfDifferent sampleFiles "a.docx" none)
        else
          (.ok { changeId := .num (1 : Nat), type := "Insertion" },
            (copyIfDifferent sampleFiles "a.docx" none).writeFile (pathOr none "a.docx")
              (samplePackage.setFile "word/document.xml"
                (serializeXml (samplePlatform sampleMixed)
                  (plug ctx (pre ++ ins.childNodes ++ post)))))) ∧
      allText (plug ctx (pre ++ ins.childNodes ++ post)) =
        allText (parseXml (samplePlatform sampleMixed) "<w:document/>") ∧
      (∀ t ∈ allText ins.childNodes,
        t ∈ allText (plug ctx (pre ++ ins.childNodes ++ post))) ∧
      (select "ins" (plug ctx (pre ++ ins.childNodes ++ post))).length + 1 =
        (select "ins" (parseXml (samplePlatform sampleMixed) "<w:document/>")).length :=
  ⟨rfl, rfl, by decide, by decide, by decide, rfl,
    applyChange_insertion_unwraps (samplePlatform sampleMixed) sampleFiles "a.docx"
      samplePackage "<w:document/>" 1 none true false sampleInsertion rfl rfl (by decide)
      (by decide) (by decide) rfl (Or.inl rfl)⟩

theorem applyChange_deletion_removes_witness :
    sampleFiles "a.docx" = some samplePackage ∧
    samplePackage "word/document.xml" = some "<w:document/>" ∧
    "<w:document/>" ≠ "" ∧ 1 ≤ 2 ∧
    (listChanges (samplePlatform sampleMixed).toISOString
      (parseXml (samplePlatform sampleMixed) "<w:document/>"))[2 - 1]? = some sampleDeletion ∧
    sampleDeletion.type = "Deletion" ∧
    ∃ ctx pre del post,
      parseXml (samplePlatform sampleMixed) "<w:document/>" = plug ctx (pre ++ del :: post) ∧
      del.isW "del" = true ∧
      (changeWrappers (parseXml (samplePlatform sampleMixed) "<w:document/>"))[2 - 1]? =
        some ("del", (holePath ctx ++ [pre.length], del)) ∧
      applyChange (samplePlatform sampleMixed) sampleFiles "a.docx" (.num (2 : Nat)) none true
          false =
        (.ok { changeId := .num (2 : Nat), type := "Deletion" },
          (copyIfDifferent sampleFiles "a.docx" none).writeFile (pathOr none "a.docx")
            (samplePackage.setFile "word/document.xml"
              (serializeXml (samplePlatform sampleMixed) (plug ctx (pre ++ post))))) ∧
      (∃ A B, allText (parseXml (samplePlatform sampleMixed) "<w:document/>") =
          A ++ allText del.childNodes ++ B ∧
        allText (plug ctx (pre ++ post)) = A ++ B) ∧
      (allNodes (plug ctx (pre ++ post))).length + (1 + (allNodes del.childNodes).length) =
        (allNodes (parseXml (samplePlatform sampleMixed) "<w:document/>")).length :=
  ⟨rfl, rfl, by decide, by decide, by decide, rfl,
    applyChange_deletion_removes (samplePlatform sampleMixed) sampleFiles "a.docx"
      samplePackage "<w:document/>" 2 none true false sampleDeletion rfl rfl (by decide)
      (by decide) (by decide) rfl (Or.inl rfl)⟩

theorem applyChange_formatting_removes_marker_witness :
    sampleFiles "a.docx" = some samplePackage ∧
    samplePackage "word/document.xml" = some "<w:document/>" ∧
    "<w:document/>" ≠ "" ∧ 1 ≤ 3 ∧
    (listChanges (samplePlatform sampleMixed).toISOString
      (parseXml (samplePlatform sampleMixed) "<w:document/>"))[3 - 1]? = some sampleFormatting ∧
    (sampleFormatting.type = "Formatting (Run)" ∨
      sampleFormatting.type = "Formatting (Paragraph)") ∧
    ∃ ctx pre marker post,
      parseXml (samplePlatform sampleMixed) "<w:document/>" =
        plug ctx (pre ++ marker :: post) ∧
      (marker.isW "rPrChange" = true ∨ marker.isW "pPrChange" = true) ∧
      (changeWrappers (parseXml (samplePlatform sampleMixed) "<w:document/>"))[3 - 1]? =
        some (sampleFormatting.element, (holePath ctx ++ [pre.length], marker)) ∧
      applyChange (samplePlatform sampleMixed) sampleFiles "a.docx" (.num (3 : Nat)) none true
          false =
        (.ok { changeId := .num (3 : Nat), type := sampleFormatting.type },
          (copyIfDifferent sampleFiles "a.docx" none).writeFile (pathOr none "a.docx")
            (samplePackage.setFile "word/document.xml"
              (serializeXml (samplePlatform sampleMixed) (plug ctx (pre ++ post))))) :=
  ⟨rfl, rfl, by decide, by decide, by decide, Or.inl rfl,
    applyChange_formatting_removes_marker (samplePlatform sampleMixed) sampleFiles "a.docx"
      samplePackage "<w:document/>" 3 none true false sampleFormatting rfl rfl (by decide)
      (by decide) (by decide) (Or.inl rfl) (Or.inl rfl)⟩

theorem applyChange_unknown_id_witness :
    listTrackChanges (samplePlatform sampleMixed) sampleFiles "a.docx" =
      .ok [sampleInsertion, sampleDeletion, sampleFormatting] ∧
    (∀ k : Nat, 1 ≤ k → k ≤ [sampleInsertion, sampleDeletion, sampleFormatting].length →
      JsNumber.num 0 ≠ .num k) ∧
    applyChange (samplePlatform sampleMixed) sampleFiles "a.docx" (.num 0) (some "b.docx")
      true false = (.failed .changeNotFound, sampleFiles) :=
  have hlist : listTrackChanges (samplePlatform sampleMixed) sampleFiles "a.docx" =
      .ok [sampleInsertion, sampleDeletion, sampleFormatting] := by rfl
  have hout : ∀ k : Nat, 1 ≤ k → k ≤ [sampleInsertion, sampleDeletion, sampleFormatting].length →
      JsNumber.num 0 ≠ .num k := by
    intro k hk _ h
    injection h with h
    omega
  ⟨hlist, hout, applyChange_unknown_id (samplePlatform sampleMixed) sampleFiles "a.docx"
    (.num 0) (some "b.docx") true false _ hlist hout⟩

theorem record_text_witness :
    (select "ins" sampleMixed)[0]? =
      some ([0, 0, 0, 0], createElementNS "ins" [("w:author", "Alice")] [sampleRun "Hello"]) ∧
    ∃ c, (listChanges (fun _ => none) sampleMixed)[0]? = some c ∧ c.id = 0 + 1 ∧
      c.type = "Insertion" ∧
      c.text = String.join (descendantTexts
        (createElementNS "ins" [("w:author", "Alice")] [sampleRun "Hello"])) :=
  have h : (select "ins" sampleMixed)[0]? =
      some ([0, 0, 0, 0], createElementNS "ins" [("w:author", "Alice")] [sampleRun "Hello"]) :=
    rfl
  ⟨h, (record_text (fun _ => none) sampleMixed).1 0 _ h⟩

/-! ## Comment ids -/

theorem le_maxIdLoop_start (es : List (NodePath × Node)) (m : Nat) : m ≤ maxIdLoop es m := by
  induction es generalizing m with
  | nil => exact Nat.le_refl m
  | cons e rest ih =>
    rw [maxIdLoop]
    split
    · rename_i id _
      by_cases h : (m : Int) < id
      · simp only [h, ↓reduceIte]
        exact Nat.le_trans (by omega) (ih _)
      · simp only [h, ↓reduceIte]
        exact ih m
    · exact ih m

theorem le_maxIdLoop (es : List (NodePath × Node)) (m : Nat) (c : NodePath × Node) (n : Int)
    (hc : c ∈ es) (hn : parseInt (orElse (c.2.getAttribute "w:id") "0") = .num n) :
    n ≤ (maxIdLoop es m : Int) := by
  induction es generalizing m with
  | nil => cases hc
  | cons e rest ih =>
    rw [maxIdLoop]
    rcases List.mem_cons.1 hc with h | h
    · subst h
      rw [hn]
      by_cases hlt : (m : Int) < n
      · simp only [hlt, ↓reduceIte]
        have := le_maxIdLoop_start rest n.toNat
        omega
      · simp only [hlt, ↓reduceIte]
        have := le_maxIdLoop_start rest m
        omega
    · split
      · exact ih _ h
      · exact ih _ h

theorem map_snd_select (name : String) (doc : List Node) :
    (select name doc).map Prod.snd = (allNodes doc).filter fun n => n.isW name := by
  rw [select, allNodes, List.filter_map]
  rfl

theorem allNodes_nil : allNodes [] = [] := rfl

theorem allNodes_singleton_elem (ns nm : String) (attrs : List (String × String))
    (cs : List Node) : allNodes [.elem ns nm attrs cs] = .elem ns nm attrs cs :: allNodes cs := by
  rw [allNodes_cons, allNodes_nil, List.append_nil]
  rfl

/-! ## Initials -/

theorem firstLetters_splitSpaces (cs cur : List Char) :
    firstLetters (splitSpaces cur cs) =
      (cur.take 1 ++ wordInitials (fun c => decide (c = ' ')) cur.isEmpty cs).map
        firstCodeUnit := by
  induction cs generalizing cur with
  | nil => simp [splitSpaces, firstLetters, wordInitials]
  | cons c cs ih =>
    rw [splitSpaces, wordInitials]
    by_cases hc : c = ' '
    · subst hc
      have := ih []
      simp [firstLetters] at this
      simp [firstLetters, this]
    · simp only [hc, ↓reduceIte, decide_False, Bool.not_false, Bool.and_true]
      rw [ih (cur ++ [c])]
      cases cur with
      | nil => simp
      | cons a rest => simp

theorem map_firstCodeUnit (cs : List Char) (h : ∀ c ∈ cs, c.toNat < 65536) :
    cs.map firstCodeUnit = cs := by
  induction cs with
  | nil => rfl
  | cons a rest ih =>
    rw [List.map_cons, ih (fun c hc => h c (List.mem_cons_of_mem _ hc)), firstCodeUnit,
      if_pos (h a (List.mem_cons_self _ _))]

theorem mem_wordInitials (sep : Char → Bool) (cs : List Char) :
    ∀ (atStart : Bool) (c : Char), c ∈ wordInitials sep atStart cs → c ∈ cs := by
  induction cs with
  | nil => intro atStart c h; simp [wordInitials] at h
  | cons a rest ih =>
    intro atStart c h
    rw [wordInitials, List.mem_append] at h
    rcases h with h | h
    · split at h
      · rw [List.mem_singleton] at h
        rw [h]; exact List.mem_cons_self _ _
      · cases h
    · exact List.mem_cons_of_mem _ (ih _ c h)

/-- C12 (as the code has it). Non-empty initials that are supplied are stored
unchanged.  Otherwise, for an author name of characters of the Basic
Multilingual Plane, the initials are the first character of each non-empty
word of the author name split at single spaces, truncated to 3 characters and
then uppercased.  For every author name the derived initials have at most 3
characters when uppercasing does not lengthen a text; the author `Jane Doe`
gives `JD`. -/
theorem commentInitials_spec (toUpperCase : String → String) (initials : Option String)
    (author : String) :
    (∀ s, initials = some s → s ≠ "" → commentInitials toUpperCase initials author = s) ∧
    (orElse initials "" = "" → (∀ c ∈ author.data, c.toNat < 65536) →
      commentInitials toUpperCase initials author =
        toUpperCase ⟨(wordInitials (fun c => decide (c = ' ')) true author.data).take 3⟩) ∧
    (orElse initials "" = "" → (∀ s, (toUpperCase s).length ≤ s.length) →
      (commentInitials toUpperCase initials author).length ≤ 3) ∧
    commentInitials sampleUpper none "Jane Doe" = "JD" := by
  have hderived : orElse initials "" = "" →
      commentInitials toUpperCase initials author =
        toUpperCase ⟨((wordInitials (fun c => decide (c = ' ')) true author.data).map
          firstCodeUnit).take 3⟩ := by
    intro h
    rw [commentInitials, if_pos h, firstLetters_splitSpaces]
    simp [slice]
  refine ⟨?_, ?_, ?_, by decide⟩
  · intro s hs hne
    subst hs
    simp [commentInitials, orElse, hne]
  · intro h hbmp
    rw [hderived h, map_firstCodeUnit _
      (fun c hc => hbmp c (mem_wordInitials _ _ _ c hc))]
  · intro h hup
    rw [hderived h]
    refine Nat.le_trans (hup _) ?_
    show (((wordInitials (fun c => decide (c = ' ')) true author.data).map
      firstCodeUnit).take 3).length ≤ 3
    rw [List.length_take]
    omega

theorem commentInitials_spec_witness :
    orElse none "" = "" ∧ (∀ s : String, ((fun t : String => t) s).length ≤ s.length) ∧
    (∀ c ∈ ("ab  cd e f" : String).data, c.toNat < 65536) ∧
    commentInitials (fun t => t) none "ab  cd e f" = "ace" ∧
    commentInitials (fun t => t) none "ab  cd e f" =
      (fun t => t) ⟨(wordInitials (fun c => decide (c = ' ')) true
        ("ab  cd e f" : String).data).take 3⟩ ∧
    (commentInitials (fun t => t) none "ab  cd e f").length ≤ 3 :=
  ⟨rfl, fun _ => Nat.le_refl _, by decide, by decide,
    (commentInitials_spec (fun t => t) none "ab  cd e f").2.1 rfl (by decide),
    (commentInitials_spec (fun t => t) none "ab  cd e f").2.2.1 rfl
      (fun _ => Nat.le_refl _)⟩

/-- C12 (the claim at failing inputs). For the author `Jane<TAB>Doe` the code
derives `J` where the first letters of the whitespace-separated words give
`JD`; for the author `ß ß ß` the derived initials have 6 characters. -/
theorem commentInitials_counterexample :
    commentInitials sampleUpper none "Jane\tDoe" = "J" ∧
    initialsByWhiteSpace sampleUpper "Jane\tDoe" = "JD" ∧
    commentInitials sampleUpper none "Jane\tDoe" ≠ initialsByWhiteSpace sampleUpper "Jane\tDoe" ∧
    (commentInitials sampleUpper none "ß ß ß").length = 6 := by
  refine ⟨by decide, by decide, by decide, by decide⟩

/-! ## Anchoring a comment -/

theorem plug_append (a b : List Frame) (cs : List Node) :
    plug (a ++ b) cs = plug a (plug b cs) := by
  induction a with
  | nil => rfl
  | cons f a ih => simp [plug, ih]

theorem holePath_append (a b : List Frame) : holePath (a ++ b) = holePath a ++ holePath b := by
  simp [holePath]

theorem atNode_plug_snoc (g : List Node → List Node) (ctx : List Frame) (f : Frame)
    (cs : List Node) :
    atNode g (holePath (ctx ++ [f])) (plug (ctx ++ [f]) cs) = plug (ctx ++ [f]) (g cs) := by
  cases ctx with
  | nil => exact atNode_plug g f [] cs
  | cons f0 rest => exact atNode_plug g f0 (rest ++ [f]) cs

theorem elem_of_isW (k : String) (n : Node) (h : n.isW k = true) :
    ∃ ns nm attrs cs, n = .elem ns nm attrs cs := by
  cases n with
  | text v => simp [Node.isW] at h
  | elem ns nm attrs cs => exact ⟨ns, nm, attrs, cs, rfl⟩

/-- An element of a forest is reached by frames whose last one is the element
itself; the hole is its child list. -/
theorem exists_plug_children (doc : List Node) (p : NodePath) (ns nm : String)
    (attrs : List (String × String)) (cs : List Node)
    (h : (p, Node.elem ns nm attrs cs) ∈ nodesFrom 0 doc) :
    ∃ ctx f, doc = plug (ctx ++ [f]) cs ∧ holePath (ctx ++ [f]) = p ∧
      Node.elem f.ns f.name f.attrs cs = Node.elem ns nm attrs cs := by
  obtain ⟨ctx, pre, post, hdoc, hp⟩ := exists_plug_of_mem doc p _ h
  refine ⟨ctx, ⟨pre, ns, nm, attrs, post⟩, ?_, ?_, rfl⟩
  · rw [plug_append, hdoc]; rfl
  · rw [holePath_append, hp]; rfl

theorem targetPara_decomposition (doc : List Node) (body para : NodePath × Node)
    (hbody : (select "body" doc)[0]? = some body)
    (hpara : (selectBelow "p" body.2).getLast? = some para) :
    ∃ ctx f cs, doc = plug (ctx ++ [f]) cs ∧ holePath (ctx ++ [f]) = body.1 ++ para.1 ∧
      para.2 = .elem f.ns f.name f.attrs cs ∧ para.2.isW "p" = true := by
  have hb : body ∈ select "body" doc := List.mem_iff_getElem?.2 ⟨_, hbody⟩
  simp only [select, List.mem_filter] at hb
  obtain ⟨bns, bnm, battrs, bch, hbe⟩ := elem_of_isW "body" body.2 hb.2
  have hp : para ∈ selectBelow "p" body.2 := List.mem_of_getLast?_eq_some hpara
  simp only [selectBelow, List.mem_filter] at hp
  obtain ⟨pns, pnm, pattrs, pch, hpe⟩ := elem_of_isW "p" para.2 hp.2
  have hb1 : (body.1, Node.elem bns bnm battrs bch) ∈ nodesFrom 0 doc := by
    rw [← hbe]; exact hb.1
  obtain ⟨ctx1, f1, hdoc1, hpath1, _⟩ := exists_plug_children doc body.1 bns bnm battrs bch hb1
  have hp1 : (para.1, Node.elem pns pnm pattrs pch) ∈ nodesFrom 0 bch := by
    have := hp.1
    rw [hbe, nodesBelow] at this
    rw [← hpe]; exact this
  obtain ⟨ctx2, f2, hdoc2, hpath2, hf2⟩ := exists_plug_children bch para.1 pns pnm pattrs pch hp1
  refine ⟨(ctx1 ++ [f1]) ++ ctx2, f2, pch, ?_, ?_, ?_, hp.2⟩
  · rw [List.append_assoc, plug_append, ← hdoc2, ← hdoc1]
  · rw [List.append_assoc, holePath_append, hpath1, hpath2]
  · rw [hpe, ← hf2]

theorem addCommentToPackage_document (P : Platform) (toUpperCase : String → String)
    (zip : Package) (docXml text author : String) (initials : Option String)
    (commentDate : String) (result : CommentResult) (zip3 : Package)
    (hadd : addCommentToPackage P toUpperCase zip docXml text author initials commentDate =
      some (result, zip3)) :
    zip3 "word/document.xml" =
      some (serializeXml P (anchorComment result.commentId (parseXml P docXml))) := by
  simp only [addCommentToPackage] at hadd
  split at hadd
  · cases hadd
  · simp only [Option.some.injEq, Prod.mk.injEq] at hadd
    rw [← hadd.2, ← hadd.1]
    simp [Package.setFile]

/-- C13. When the first body of the document has a paragraph below it,
`addComment` writes the document in which the child list of the last such
paragraph (in document order) has gained, at its end, `commentRangeStart`,
`commentReference` and `commentRangeEnd`, in that order, each with the new
comment id as `w:id`; the paragraph keeps its name, attributes and earlier
children, and everything around it stays as it was. -/
theorem addComment_anchors_last_paragraph (P : Platform) (toUpperCase : String → String)
    (zip : Package) (docXml text author : String) (initials : Option String)
    (commentDate : String) (result : CommentResult) (zip3 : Package)
    (body para : NodePath × Node)
    (hadd : addCommentToPackage P toUpperCase zip docXml text author initials commentDate =
      some (result, zip3))
    (hbody : (select "body" (parseXml P docXml))[0]? = some body)
    (hpara : (selectBelow "p" body.2).getLast? = some para) :
    ∃ ctx f cs,
      parseXml P docXml = plug (ctx ++ [f]) cs ∧ holePath (ctx ++ [f]) = body.1 ++ para.1 ∧
      para.2 = .elem f.ns f.name f.attrs cs ∧ para.2.isW "p" = true ∧
      zip3 "word/document.xml" = some (serializeXml P (plug (ctx ++ [f]) (cs ++
        [Node.elem NS_W "commentRangeStart" [("w:id", result.commentId)] [],
          Node.elem NS_W "commentReference" [("w:id", result.commentId)] [],
          Node.elem NS_W "commentRangeEnd" [("w:id", result.commentId)] []]))) := by
  obtain ⟨ctx, f, cs, hdoc, hpath, hpe, hpw⟩ :=
    targetPara_decomposition (parseXml P docXml) body para hbody hpara
  refine ⟨ctx, f, cs, hdoc, hpath, hpe, hpw, ?_⟩
  rw [addCommentToPackage_document P toUpperCase zip docXml text author initials commentDate
    result zip3 hadd]
  have htp : targetPara (parseXml P docXml) = some (body.1 ++ para.1) := by
    simp only [targetPara, hbody, hpara]
  rw [anchorComment, htp]
  simp only
  rw [← hpath]
  conv => lhs; rw [hdoc]
  rw [atNode_plug_snoc]
  rfl

theorem targetPara_plug (doc : List Node) (p : NodePath) (h : targetPara doc = some p) :
    ∃ ctx f cs, doc = plug (ctx ++ [f]) cs ∧ holePath (ctx ++ [f]) = p := by
  rw [targetPara] at h
  cases hbody : (select "body" doc)[0]? with
  | none => rw [hbody] at h; cases h
  | some body =>
    rw [hbody] at h
    simp only at h
    cases hpara : (selectBelow "p" body.2).getLast? with
    | some para =>
      rw [hpara] at h
      simp only [Option.some.injEq] at h
      obtain ⟨ctx, f, cs, hdoc, hpath, _, _⟩ := targetPara_decomposition doc body para hbody hpara
      exact ⟨ctx, f, cs, hdoc, by rw [hpath, h]⟩
    | none =>
      rw [hpara] at h
      simp only [Option.some.injEq] at h
      have hb : body ∈ select "body" doc := List.mem_iff_getElem?.2 ⟨_, hbody⟩
      simp only [select, List.mem_filter] at hb
      obtain ⟨bns, bnm, battrs, bch, hbe⟩ := elem_of_isW "body" body.2 hb.2
      have hb1 : (body.1, Node.elem bns bnm battrs bch) ∈ nodesFrom 0 doc := by
        rw [← hbe]; exact hb.1
      obtain ⟨ctx, f, hdoc, hpath, _⟩ := exists_plug_children doc body.1 bns bnm battrs bch hb1
      exact ⟨ctx, f, bch, hdoc, by rw [hpath, h]⟩

theorem markerCount_anchor (name id : String) (doc : List Node) (p : NodePath)
    (h : targetPara doc = some p) :
    markerCount name id (anchorComment id doc) =
      markerCount name id doc + markerCount name id (commentMarkers id) := by
  obtain ⟨ctx, f, cs, hdoc, hpath⟩ := targetPara_plug doc p h
  obtain ⟨K, hK⟩ := countP_allNodes_plug
    (fun n => n.isW name && n.getAttribute "w:id" == some id) (fun _ _ _ _ _ => rfl)
    (ctx ++ [f])
  have hacc : anchorComment id doc = plug (ctx ++ [f]) (cs ++ commentMarkers id) := by
    rw [anchorComment, h]
    simp only
    rw [← hpath]
    conv => lhs; rw [hdoc]
    rw [atNode_plug_snoc]
  rw [hacc]
  conv => rhs; rw [hdoc]
  simp only [markerCount, hK, allNodes_append, List.countP_append]
  omega

theorem markerCount_commentMarkers (id : String) :
    markerCount "commentRangeStart" id (commentMarkers id) = 1 ∧
    markerCount "commentReference" id (commentMarkers id) = 1 ∧
    markerCount "commentRangeEnd" id (commentMarkers id) = 1 := by
  have h1 : (NS_W == NS_W) = true := by decide
  have hattr : ∀ nm, Node.getAttribute (.elem NS_W nm [("w:id", id)] []) "w:id" = some id := by
    intro nm; simp [Node.getAttribute]
  refine ⟨?_, ?_, ?_⟩ <;>
    simp only [markerCount, commentMarkers, createElementNS, allNodes_singleton_elem,
      allNodes_cons, allNodes_nil, Node.childNodes, List.countP_cons, List.countP_nil,
      List.append_nil, List.cons_append, List.nil_append, Node.isW, hattr, h1] <;>
    simp

/-- C14 (as the code has it). When the document has a body and holds no
`commentRangeStart`, `commentReference` or `commentRangeEnd` that carries the
new comment id, the document `addComment` writes holds exactly one of each
carrying that id. -/
theorem addComment_one_anchor (P : Platform) (toUpperCase : String → String)
    (zip : Package) (docXml text author : String) (initials : Option String)
    (commentDate : String) (result : CommentResult) (zip3 : Package) (body : NodePath × Node)
    (hadd : addCommentToPackage P toUpperCase zip docXml text author initials commentDate =
      some (result, zip3))
    (hbody : (select "body" (parseXml P docXml))[0]? = some body)
    (hstart : markerCount "commentRangeStart" result.commentId (parseXml P docXml) = 0)
    (href : markerCount "commentReference" result.commentId (parseXml P docXml) = 0)
    (hend : markerCount "commentRangeEnd" result.commentId (parseXml P docXml) = 0) :
    ∃ docDoc1, zip3 "word/document.xml" = some (serializeXml P docDoc1) ∧
      markerCount "commentRangeStart" result.commentId docDoc1 = 1 ∧
      markerCount "commentReference" result.commentId docDoc1 = 1 ∧
      markerCount "commentRangeEnd" result.commentId docDoc1 = 1 := by
  have htp : ∃ p, targetPara (parseXml P docXml) = some p := by
    rw [targetPara, hbody]
    simp only
    cases (selectBelow "p" body.2).getLast? with
    | some para => exact ⟨_, rfl⟩
    | none => exact ⟨_, rfl⟩
  obtain ⟨p, hp⟩ := htp
  obtain ⟨m1, m2, m3⟩ := markerCount_commentMarkers result.commentId
  refine ⟨anchorComment result.commentId (parseXml P docXml),
    addCommentToPackage_document P toUpperCase zip docXml text author initials commentDate
      result zip3 hadd, ?_, ?_, ?_⟩
  · rw [markerCount_anchor _ _ _ p hp, hstart, m1]
  · rw [markerCount_anchor _ _ _ p hp, href, m2]
  · rw [markerCount_anchor _ _ _ p hp, hend, m3]

/-- C14 (the claim at failing inputs). On a document without a body
`addComment` succeeds with the id 1 and the document it writes holds no marker
carrying that id; on a document whose paragraph still holds the markers of a
removed comment 1, with no comments part, it succeeds with the id 1 and the
document then holds two of each marker carrying that id. -/
theorem addComment_anchor_counterexample :
    (addComment (samplePlatform sampleNoBody) sampleUpper sampleFiles "a.docx" "note" "AIM"
      none none "2024").1 = .ok { commentId := "1", author := "AIM", text := "note" } ∧
    markerCount "commentRangeStart" "1" (anchorComment "1" sampleNoBody) = 0 ∧
    markerCount "commentReference" "1" (anchorComment "1" sampleNoBody) = 0 ∧
    markerCount "commentRangeEnd" "1" (anchorComment "1" sampleNoBody) = 0 ∧
    (addComment (samplePlatform sampleStaleMarkers) sampleUpper sampleFiles "a.docx" "note"
      "AIM" none none "2024").1 = .ok { commentId := "1", author := "AIM", text := "note" } ∧
    markerCount "commentRangeStart" "1" (anchorComment "1" sampleStaleMarkers) = 2 ∧
    markerCount "commentReference" "1" (anchorComment "1" sampleStaleMarkers) = 2 ∧
    markerCount "commentRangeEnd" "1" (anchorComment "1" sampleStaleMarkers) = 2 := by
  refine ⟨by decide, by decide, by decide, by decide, by decide, by decide, by decide, by decide⟩

/-! ## Texts: occurrences and replacement -/

theorem includes_iff_infix_chars (s t : String) : includes s t = true ↔ t.data <:+: s.data := by
  simp only [includes, List.any_eq_true, List.mem_tails, List.isPrefixOf_iff_prefix]
  constructor
  · rintro ⟨u, hu, hp⟩
    exact List.infix_iff_prefix_suffix.2 ⟨u, hp, hu⟩
  · intro h
    obtain ⟨u, hp, hu⟩ := List.infix_iff_prefix_suffix.1 h
    exact ⟨u, hu, hp⟩

theorem includes_eq_false_iff (s t : String) : includes s t = false ↔ occurrences s t = 0 := by
  simp only [includes, occurrences, List.any_eq_false, List.countP_eq_zero]

theorem includes_iff_occurrences (s t : String) : includes s t = true ↔ 0 < occurrences s t := by
  have := includes_eq_false_iff s t
  cases h : includes s t
  · have h0 := this.1 h; simp [h0]
  · constructor
    · intro _
      by_contra hn
      have h0 : occurrences s t = 0 := by omega
      rw [this.2 h0] at h; cases h
    · intro _; rfl

theorem occ_cons (p : List Char) (c : Char) (l : List Char) :
    (c :: l).tails.countP (fun u => p.isPrefixOf u) =
      (if p.isPrefixOf (c :: l) then 1 else 0) + l.tails.countP (fun u => p.isPrefixOf u) := by
  rw [List.tails, List.countP_cons]
  omega

theorem isPrefixOf_append_sep (p t : List Char) (d : Char) (b : List Char) (hd : d ∉ p) :
    p.isPrefixOf (t ++ d :: b) = p.isPrefixOf t := by
  induction t generalizing p with
  | nil =>
    cases p with
    | nil => simp
    | cons x p =>
      have hx : x ≠ d := fun h => hd (by rw [h]; exact List.mem_cons_self _ _)
      simp [List.isPrefixOf, hx]
  | cons y t ih =>
    cases p with
    | nil => simp
    | cons x p =>
      have hd2 : d ∉ p := fun h => hd (List.mem_cons_of_mem _ h)
      have := ih p hd2
      show (x == y && p.isPrefixOf (t ++ d :: b)) = (x == y && p.isPrefixOf t)
      rw [this]

/-- Occurrences on both sides of a character that is not in the pattern add up. -/
theorem occ_append_sep (p a : List Char) (d : Char) (b : List Char) (hp : p ≠ [])
    (hd : d ∉ p) :
    (a ++ d :: b).tails.countP (fun u => p.isPrefixOf u) =
      a.tails.countP (fun u => p.isPrefixOf u) +
        (d :: b).tails.countP (fun u => p.isPrefixOf u) := by
  induction a with
  | nil =>
    have : p.isPrefixOf [] = false := by
      cases p with
      | nil => exact absurd rfl hp
      | cons x p => rfl
    simp [this]
  | cons c a ih =>
    rw [List.cons_append, occ_cons, occ_cons, ih]
    have := isPrefixOf_append_sep p (c :: a) d b hd
    rw [List.cons_append] at this
    rw [this]
    omega

theorem occ_sep_cons (p : List Char) (d : Char) (b : List Char) (hd : d ∉ p)
    (hp : p ≠ []) :
    (d :: b).tails.countP (fun u => p.isPrefixOf u) =
      b.tails.countP (fun u => p.isPrefixOf u) := by
  rw [occ_cons]
  have : p.isPrefixOf (d :: b) = false := by
    cases p with
    | nil => exact absurd rfl hp
    | cons x p =>
      have hx : x ≠ d := fun h => hd (by rw [h]; exact List.mem_cons_self _ _)
      simp [List.isPrefixOf, hx]
  simp [this]

theorem replaceFirstChars_cases (pat rep : List Char) (hp : pat ≠ []) (s : List Char) :
    (∃ pre post, s = pre ++ pat ++ post ∧ replaceFirstChars pat rep s = pre ++ rep ++ post) ∨
    (s.tails.countP (fun u => pat.isPrefixOf u) = 0 ∧ replaceFirstChars pat rep s = s) := by
  induction s with
  | nil =>
    right
    have : pat.isPrefixOf [] = false := by
      cases pat with
      | nil => exact absurd rfl hp
      | cons x p => rfl
    simp [replaceFirstChars, hp, this]
  | cons c cs ih =>
    rw [replaceFirstChars]
    by_cases hpre : pat.isPrefixOf (c :: cs) = true
    · left
      have hpf := List.isPrefixOf_iff_prefix.1 hpre
      obtain ⟨t, ht⟩ := hpf
      refine ⟨[], t, by simp [ht], ?_⟩
      simp only [hpre, ↓reduceIte, List.nil_append]
      rw [← ht, List.drop_left]
    · simp only [hpre, Bool.false_eq_true, ↓reduceIte]
      rcases ih with ⟨pre, post, hs, hr⟩ | ⟨h0, hr⟩
      · left
        exact ⟨c :: pre, post, by simp [hs], by simp [hr]⟩
      · right
        refine ⟨?_, by rw [hr]⟩
        rw [occ_cons, h0]
        simp [hpre]

/-! ## The track-changes flag -/

theorem occurrences_after_insert (pre post : List Char)
    (h0 : (pre ++ "</w:settings>".data ++ post).tails.countP
      (fun u => "trackRevisions".data.isPrefixOf u) = 0) :
    (pre ++ "  <w:trackRevisions/>\n</w:settings>".data ++ post).tails.countP
      (fun u => "trackRevisions".data.isPrefixOf u) = 1 := by
  have hp : "trackRevisions".data ≠ [] := by decide
  have hlt : '<' ∉ "trackRevisions".data := by decide
  have hsp : ' ' ∉ "trackRevisions".data := by decide
  have hco : ':' ∉ "trackRevisions".data := by decide
  have hsl : '/' ∉ "trackRevisions".data := by decide
  have e0 : pre ++ "</w:settings>".data ++ post = pre ++ '<' :: ("/w:settings>".data ++ post) := by
    simp
  rw [e0, occ_append_sep _ _ _ _ hp hlt] at h0
  have hpre : pre.tails.countP (fun u => "trackRevisions".data.isPrefixOf u) = 0 := by omega
  have htag : ('<' :: ("/w:settings>".data ++ post)).tails.countP
      (fun u => "trackRevisions".data.isPrefixOf u) = 0 := by omega
  have e1 : pre ++ "  <w:trackRevisions/>\n</w:settings>".data ++ post =
      pre ++ ' ' :: ([' ', '<', 'w'] ++ ':' :: ("trackRevisions".data ++
        '/' :: (['>', '\n'] ++ '<' :: ("/w:settings>".data ++ post)))) := by
    simp
  rw [e1, occ_append_sep _ _ _ _ hp hsp, hpre, occ_sep_cons _ _ _ hsp hp,
    occ_append_sep _ _ _ _ hp hco, occ_sep_cons _ _ _ hco hp,
    occ_append_sep _ _ _ _ hp hsl, occ_sep_cons _ _ _ hsl hp,
    occ_append_sep _ _ _ _ hp hlt, htag]
  decide

theorem enableTrackRevisions_cases (s : String) :
    enableTrackRevisions s = s ∨
    (includes s "trackRevisions" = false ∧
      occurrences (enableTrackRevisions s) "trackRevisions" = 1 ∧
      ∃ pre post, s.data = pre ++ "</w:settings>".data ++ post ∧
        (enableTrackRevisions s).data =
          pre ++ "  <w:trackRevisions/>\n</w:settings>".data ++ post) := by
  by_cases h : s ≠ "" ∧ includes s "trackRevisions" = false
  · rw [enableTrackRevisions, if_pos h, replaceFirst]
    rcases replaceFirstChars_cases "</w:settings>".data "  <w:trackRevisions/>\n</w:settings>".data
      (by decide) s.data with ⟨pre, post, hs, hr⟩ | ⟨_, hr⟩
    · right
      refine ⟨h.2, ?_, pre, post, hs, hr⟩
      have h0 := (includes_eq_false_iff s "trackRevisions").1 h.2
      rw [occurrences, hs] at h0
      rw [occurrences]
      simp only [hr]
      exact occurrences_after_insert pre post h0
    · left
      rw [hr]
  · left
    rw [enableTrackRevisions, if_neg h]

theorem iterate_enableTrackRevisions (s : String) (n : Nat)
    (hidem : enableTrackRevisions (enableTrackRevisions s) = enableTrackRevisions s) :
    Nat.iterate enableTrackRevisions (n + 1) s = enableTrackRevisions s := by
  induction n with
  | zero => rfl
  | succ n ih =>
    rw [Function.iterate_succ_apply'] 
    rw [ih, hidem]

/-- C18. The settings update of `addChange` is idempotent: applied to its own
result it returns that result; and when the settings text has no
`trackRevisions` at the start, then after any number of updates the text holds
`trackRevisions` at most once. -/
theorem enableTrackRevisions_idempotent (s : String) :
    enableTrackRevisions (enableTrackRevisions s) = enableTrackRevisions s ∧
    (includes s "trackRevisions" = false →
      ∀ n : Nat, occurrences (Nat.iterate enableTrackRevisions n s) "trackRevisions" ≤ 1) := by
  have hidem : enableTrackRevisions (enableTrackRevisions s) = enableTrackRevisions s := by
    rcases enableTrackRevisions_cases s with h | ⟨_, hocc, _⟩
    · rw [h, h]
    · have hinc : includes (enableTrackRevisions s) "trackRevisions" = true := by
        rw [includes_iff_occurrences, hocc]; exact Nat.one_pos
      generalize enableTrackRevisions s = t at hinc
      rw [enableTrackRevisions, if_neg]
      rw [hinc]; simp
  refine ⟨hidem, ?_⟩
  intro hnone n
  cases n with
  | zero =>
    have := (includes_eq_false_iff s "trackRevisions").1 hnone
    simp only [Function.iterate_zero, id_eq, this]
    exact Nat.zero_le 1
  | succ n =>
    rw [iterate_enableTrackRevisions s n hidem]
    rcases enableTrackRevisions_cases s with h | ⟨_, hocc, _⟩
    · rw [h, (includes_eq_false_iff s "trackRevisions").1 hnone]
      exact Nat.zero_le 1
    · rw [hocc]

theorem enableTrackRevisions_idempotent_witness :
    includes "<w:settings><w:zoom/></w:settings>" "trackRevisions" = false ∧
    occurrences (Nat.iterate enableTrackRevisions 3 "<w:settings><w:zoom/></w:settings>")
      "trackRevisions" ≤ 1 ∧
    enableTrackRevisions "<w:settings><w:zoom/></w:settings>" =
      "<w:settings><w:zoom/>  <w:trackRevisions/>\n</w:settings>" :=
  ⟨by decide,
    (enableTrackRevisions_idempotent "<w:settings><w:zoom/></w:settings>").2 (by decide) 3,
    by decide⟩

/-! ## add-change.js on files -/

theorem copyToOutput_ok (fs : FileSystem) (docxPath : String) (outputPath : Option String)
    (zip : Package) (hfile : fs docxPath = some zip) :
    copyToOutput fs docxPath outputPath = .ok (copyIfDifferent fs docxPath outputPath) := by
  cases outputPath with
  | none => simp [copyToOutput, copyIfDifferent, orElse]
  | some o =>
    by_cases ho : o = ""
    · simp [copyToOutput, copyIfDifferent, orElse, ho]
    · by_cases hd : o = docxPath
      · subst hd
        simp [copyToOutput, copyIfDifferent, orElse, ho]
      · simp [copyToOutput, copyIfDifferent, orElse, ho, hd, hfile]

theorem copyIfDifferent_frame (fs : FileSystem) (docxPath : String)
    (outputPath : Option String) :
    (copyIfDifferent fs docxPath outputPath) docxPath = fs docxPath ∧
    ∀ p, some p ≠ outputPath → (copyIfDifferent fs docxPath outputPath) p = fs p := by
  cases outputPath with
  | none => simp [copyIfDifferent]
  | some o =>
    by_cases ho : o = ""
    · simp [copyIfDifferent, ho]
    · by_cases hd : o = docxPath
      · simp [copyIfDifferent, ho, hd]
      · cases hfile : fs docxPath with
        | none => simp [copyIfDifferent, ho, hd, hfile]
        | some zip =>
          simp only [copyIfDifferent, ho, hd, or_self, ↓reduceIte, hfile,
            FileSystem.writeFile]
          constructor
          · have : ¬ docxPath = o := fun h => hd h.symm
            simp [this]
          · intro p hp
            have : ¬ p = o := fun h => hp (by rw [h])
            simp [this]

theorem addChange_eq (P : Platform) (fs : FileSystem) (docxPath text type author : String)
    (outputPath : Option String) (changeDate : String) (zip : Package) (docXml : String)
    (docDoc1 : List Node)
    (hfile : fs docxPath = some zip) (hpart : zip "word/document.xml" = some docXml)
    (hne : docXml ≠ "")
    (hdoc : addChangeInDoc (parseXml P docXml) text type author changeDate = .ok docDoc1) :
    addChange P fs docxPath text type author outputPath changeDate =
      (.ok { type := type, author := author, text := text },
        (copyIfDifferent fs docxPath outputPath).writeFile (pathOr outputPath docxPath)
          ((zip.setFile "word/document.xml" (serializeXml P docDoc1)).updateFile
            "word/settings.xml" enableTrackRevisions)) := by
  simp only [addChange, copyToOutput_ok fs docxPath outputPath zip hfile,
    readDocumentXml_after_copy fs docxPath outputPath zip docXml hfile hpart hne, hdoc]

theorem addChange_failed (P : Platform) (fs : FileSystem) (docxPath text type author : String)
    (outputPath : Option String) (changeDate : String) (zip : Package) (docXml : String)
    (e : Failure)
    (hfile : fs docxPath = some zip) (hpart : zip "word/document.xml" = some docXml)
    (hne : docXml ≠ "")
    (hdoc : addChangeInDoc (parseXml P docXml) text type author changeDate = .error e) :
    addChange P fs docxPath text type author outputPath changeDate =
      (.failed e, copyIfDifferent fs docxPath outputPath) := by
  simp only [addChange, copyToOutput_ok fs docxPath outputPath zip hfile,
    readDocumentXml_after_copy fs docxPath outputPath zip docXml hfile hpart hne, hdoc]

theorem addChangeInDoc_ok (docDoc : List Node) (text type author changeDate : String)
    (body : NodePath × Node) (hbody : (select "body" docDoc)[0]? = some body)
    (htype : type = "insertion" ∨ type = "deletion") :
    ∃ para, changeParagraph text type author changeDate = some para ∧
      addChangeInDoc docDoc text type author changeDate =
        .ok (atNode (fun cs => cs ++ [para]) body.1 docDoc) := by
  rcases htype with h | h
  · subst h
    exact ⟨_, rfl, by simp only [addChangeInDoc, hbody]; rfl⟩
  · subst h
    exact ⟨_, rfl, by simp only [addChangeInDoc, hbody]; rfl⟩

/-- C17 (as the code has it). When `addChange` adds an insertion or deletion to
a package whose settings part exists, does not contain the text
`trackRevisions` and contains the closing tag `</w:settings>`, the settings
part it writes is the old text with `<w:trackRevisions/>` put before the first
`</w:settings>`, so it contains `<w:trackRevisions/>`. -/
theorem addChange_enables_flag (P : Platform) (fs : FileSystem)
    (docxPath text type author : String) (outputPath : Option String) (changeDate : String)
    (zip : Package) (docXml settingsXml : String) (body : NodePath × Node)
    (hfile : fs docxPath = some zip) (hpart : zip "word/document.xml" = some docXml)
    (hne : docXml ≠ "") (hbody : (select "body" (parseXml P docXml))[0]? = some body)
    (htype : type = "insertion" ∨ type = "deletion")
    (hset : zip "word/settings.xml" = some settingsXml)
    (hnone : includes settingsXml "trackRevisions" = false)
    (htag : includes settingsXml "</w:settings>" = true) :
    ∃ zip2,
      addChange P fs docxPath text type author outputPath changeDate =
        (.ok { type := type, author := author, text := text },
          (copyIfDifferent fs docxPath outputPath).writeFile (pathOr outputPath docxPath) zip2) ∧
      zip2 "word/settings.xml" = some (enableTrackRevisions settingsXml) ∧
      (∃ pre post, settingsXml.data = pre ++ "</w:settings>".data ++ post ∧
        (enableTrackRevisions settingsXml).data =
          pre ++ "  <w:trackRevisions/>\n</w:settings>".data ++ post) ∧
      includes (enableTrackRevisions settingsXml) "<w:trackRevisions/>" = true := by
  obtain ⟨para, _, hdoc⟩ := addChangeInDoc_ok (parseXml P docXml) text type author changeDate
    body hbody htype
  have hne2 : settingsXml ≠ "" := by
    intro h; rw [h] at htag; revert htag; decide
  have hdecomp : ∃ pre post, settingsXml.data = pre ++ "</w:settings>".data ++ post ∧
      (enableTrackRevisions settingsXml).data =
        pre ++ "  <w:trackRevisions/>\n</w:settings>".data ++ post := by
    rw [enableTrackRevisions, if_pos ⟨hne2, hnone⟩, replaceFirst]
    rcases replaceFirstChars_cases "</w:settings>".data
      "  <w:trackRevisions/>\n</w:settings>".data (by decide) settingsXml.data with
      ⟨pre, post, hs, hr⟩ | ⟨h0, _⟩
    · exact ⟨pre, post, hs, hr⟩
    · have := (includes_iff_occurrences settingsXml "</w:settings>").1 htag
      rw [occurrences] at this
      omega
  refine ⟨_, addChange_eq P fs docxPath text type author outputPath changeDate zip docXml _
    hfile hpart hne hdoc, ?_, hdecomp, ?_⟩
  · have hs : (zip.setFile "word/document.xml"
        (serializeXml P (atNode (fun cs => cs ++ [para]) body.1 (parseXml P docXml))))
        "word/settings.xml" = some settingsXml := by
      have : ¬ "word/settings.xml" = "word/document.xml" := by decide
      simp [Package.setFile, this, hset]
    rw [Package.updateFile, hs]
    simp [Package.setFile]
  · obtain ⟨pre, post, _, hr⟩ := hdecomp
    rw [includes_iff_infix_chars, hr]
    have hin : "<w:trackRevisions/>".data <:+: "  <w:trackRevisions/>\n</w:settings>".data :=
      ⟨"  ".data, "\n</w:settings>".data, by decide⟩
    exact List.IsInfix.trans hin ⟨pre, post, rfl⟩

/-- C17 (the claim at failing inputs). On a package without settings part
`addChange` adds an insertion and the package it writes still has no settings
part; a settings text that switches the flag off with
`<w:trackRevisions w:val="false"/>` is left as it is. -/
theorem addChange_flag_counterexample :
    (addChange (samplePlatform (sampleDocument [])) sampleBareFiles "a.docx" "draft" "insertion"
      "AIM" none "2024").1 = .ok { type := "insertion", author := "AIM", text := "draft" } ∧
    sampleBarePackage "word/settings.xml" = none ∧
    ((addChange (samplePlatform (sampleDocument [])) sampleBareFiles "a.docx" "draft"
      "insertion" "AIM" none "2024").2 "a.docx").map (fun zip => zip "word/settings.xml") =
        some none ∧
    enableTrackRevisions "<w:settings><w:trackRevisions w:val=\"false\"/></w:settings>" =
      "<w:settings><w:trackRevisions w:val=\"false\"/></w:settings>" := by
  refine ⟨by decide, by decide, by decide, by decide⟩

/-- C20 (as the code has it). On a package with a document part and a body,
`addChange` fails with the unsupported-type error exactly when the type is
neither `insertion` nor `deletion`; then the source file and every file other
than a given output path are as before, and the files are those left by the
copy to the output path that precedes the check. -/
theorem addChange_unsupported_type (P : Platform) (fs : FileSystem)
    (docxPath text type author : String) (outputPath : Option String) (changeDate : String)
    (zip : Package) (docXml : String) (body : NodePath × Node)
    (hfile : fs docxPath = some zip) (hpart : zip "word/document.xml" = some docXml)
    (hne : docXml ≠ "") (hbody : (select "body" (parseXml P docXml))[0]? = some body) :
    ((addChange P fs docxPath text type author outputPath changeDate).1 =
        .failed .unsupportedType ↔ (type ≠ "insertion" ∧ type ≠ "deletion")) ∧
    ((type ≠ "insertion" ∧ type ≠ "deletion") →
      (addChange P fs docxPath text type author outputPath changeDate).2 =
        copyIfDifferent fs docxPath outputPath ∧
      (addChange P fs docxPath text type author outputPath changeDate).2 docxPath =
        fs docxPath ∧
      ∀ p, some p ≠ outputPath →
        (addChange P fs docxPath text type author outputPath changeDate).2 p = fs p) := by
  have hfail : (type ≠ "insertion" ∧ type ≠ "deletion") →
      addChange P fs docxPath text type author outputPath changeDate =
        (.failed .unsupportedType, copyIfDifferent fs docxPath outputPath) := by
    intro h
    apply addChange_failed P fs docxPath text type author outputPath changeDate zip docXml _
      hfile hpart hne
    simp [addChangeInDoc, hbody, changeParagraph, h.1, h.2]
  constructor
  · constructor
    · intro h
      by_contra hn
      have htype : type = "insertion" ∨ type = "deletion" := by
        by_cases h1 : type = "insertion"
        · exact Or.inl h1
        · by_cases h2 : type = "deletion"
          · exact Or.inr h2
          · exact absurd ⟨h1, h2⟩ hn
      obtain ⟨para, _, hdoc⟩ := addChangeInDoc_ok (parseXml P docXml) text type author
        changeDate body hbody htype
      rw [addChange_eq P fs docxPath text type author outputPath changeDate zip docXml _
        hfile hpart hne hdoc] at h
      cases h
    · intro h
      rw [hfail h]
  · intro h
    rw [hfail h]
    exact ⟨rfl, (copyIfDifferent_frame fs docxPath outputPath).1,
      (copyIfDifferent_frame fs docxPath outputPath).2⟩

/-- C20 (the claim at a failing input). `addChange` with the type `move` and the
output path `b.docx` fails with the unsupported-type error, and the file
`b.docx`, absent before, exists afterwards: it holds the copy of the source. -/
theorem addChange_failure_counterexample :
    (addChange (samplePlatform (sampleDocument [])) sampleFiles "a.docx" "draft" "move" "AIM"
      (some "b.docx") "2024").1 = .failed .unsupportedType ∧
    (sampleFiles "b.docx").isSome = false ∧
    ((addChange (samplePlatform (sampleDocument [])) sampleFiles "a.docx" "draft" "move" "AIM"
      (some "b.docx") "2024").2 "b.docx").isSome = true := by
  refine ⟨by decide, by decide, by decide⟩

/-! ## Relationship ids -/

theorem take_length_takeWhile (p : Char → Bool) (l : List Char) :
    l.take (l.takeWhile p).length = l.takeWhile p := by
  induction l with
  | nil => rfl
  | cons c l ih =>
    by_cases h : p c = true
    · simp [List.takeWhile_cons, h, ih]
    · simp [List.takeWhile_cons, h]

theorem ridNumberAt_of_ne (c : Char) (cs : List Char) (h : c ≠ 'r') :
    ridNumberAt (c :: cs) = none := by
  have : "rId".data.isPrefixOf (c :: cs) = false := by
    show ('r' == c && _) = false
    have : ('r' == c) = false := by
      rw [beq_eq_false_iff_ne]; exact fun h2 => h h2.symm
    rw [this]; rfl
  simp [ridNumberAt, this]

theorem matchRIds_eq (cs : List Char) :
    ∀ k, (∀ c ∈ cs.take k, c ≠ 'r') →
      (matchRIds k cs).map (fun r => digitsValue (r.drop 3)) = cs.tails.filterMap ridNumberAt := by
  induction cs with
  | nil =>
    intro k _
    cases k <;> simp [matchRIds, ridNumberAt]
  | cons c cs ih =>
    intro k hk
    cases k with
    | succ k =>
      have hc : c ≠ 'r' := hk c (by simp)
      rw [matchRIds, List.tails, List.filterMap_cons, ridNumberAt_of_ne c cs hc]
      exact ih k (fun x hx => hk x (by simp [List.take_succ_cons, hx]))
    | zero =>
      rw [matchRIds, List.tails, List.filterMap_cons]
      by_cases hm : ("rId".data.isPrefixOf (c :: cs) &&
          !((cs.drop 2).takeWhile isDigit).isEmpty) = true
      · have hat : ridNumberAt (c :: cs) =
            some (digitsValue ((cs.drop 2).takeWhile isDigit)) := by
          have : (c :: cs).drop 3 = cs.drop 2 := rfl
          simp only [ridNumberAt, this, hm, ↓reduceIte]
        simp only [hm, ↓reduceIte, hat, List.map_cons]
        have hval : digitsValue (("rId".data ++ (cs.drop 2).takeWhile isDigit).drop 3) =
            digitsValue ((cs.drop 2).takeWhile isDigit) := rfl
        rw [hval]
        congr 1
        apply ih
        intro x hx
        simp only [Bool.and_eq_true] at hm
        have hpre := List.isPrefixOf_iff_prefix.1 hm.1
        obtain ⟨t, ht⟩ := hpre
        have hcs : cs = 'I' :: 'd' :: t := by
          have : "rId".data ++ t = 'r' :: 'I' :: 'd' :: t := rfl
          rw [this] at ht
          injection ht with _ h2
          exact h2.symm
        subst hcs
        have hdrop : ('I' :: 'd' :: t).drop 2 = t := rfl
        rw [hdrop] at hx
        have htake : ('I' :: 'd' :: t).take (2 + (t.takeWhile isDigit).length) =
            'I' :: 'd' :: t.take (t.takeWhile isDigit).length := by
          rw [Nat.add_comm]; rfl
        rw [htake, take_length_takeWhile] at hx
        simp only [List.mem_cons] at hx
        rcases hx with h | h | h
        · rw [h]; decide
        · rw [h]; decide
        · have hdig := List.mem_takeWhile_imp h
          intro hr; rw [hr] at hdig; revert hdig; decide
      · have hat : ridNumberAt (c :: cs) = none := by
          have : (c :: cs).drop 3 = cs.drop 2 := rfl
          simp only [ridNumberAt, this, hm, Bool.false_eq_true, ↓reduceIte]
        simp only [hm, Bool.false_eq_true, ↓reduceIte, hat]
        exact ih 0 (fun x hx => by simp at hx)

theorem maxRId_eq (relsXml : String) : maxRId relsXml = (ridNumbers relsXml).foldl max 0 := by
  rw [maxRId, ridNumbers, matchRIds_eq relsXml.data 0 (fun x hx => by simp at hx)]

theorem le_foldl_max (l : List Nat) (m : Nat) :
    m ≤ l.foldl max m ∧ ∀ n ∈ l, n ≤ l.foldl max m := by
  induction l generalizing m with
  | nil => simp
  | cons a l ih =>
    obtain ⟨h1, h2⟩ := ih (max m a)
    refine ⟨Nat.le_trans (Nat.le_max_left m a) h1, ?_⟩
    intro n hn
    rcases List.mem_cons.1 hn with h | h
    · rw [h]; exact Nat.le_trans (Nat.le_max_right m a) h1
    · exact h2 n h

theorem foldl_max_lt (l : List Nat) (B : Nat) :
    ∀ m : Nat, m < B → (∀ n ∈ l, n < B) → l.foldl max m + 1 ≤ B := by
  induction l with
  | nil => intro m hm _; exact hm
  | cons a l ih =>
    intro m hm h
    rw [List.foldl_cons]
    apply ih
    · exact max_lt hm (h a (List.mem_cons_self _ _))
    · exact fun n hn => h n (List.mem_cons_of_mem _ hn)

theorem replaceFirst_of_includes (s tag rep : String) (htag : tag.data ≠ [])
    (h : includes s tag = true) :
    ∃ pre post, s.data = pre ++ tag.data ++ post ∧
      (replaceFirst s tag rep).data = pre ++ rep.data ++ post := by
  rcases replaceFirstChars_cases tag.data rep.data htag s.data with
    ⟨pre, post, hs, hr⟩ | ⟨h0, _⟩
  · exact ⟨pre, post, hs, hr⟩
  · have := (includes_iff_occurrences s tag).1 h
    rw [occurrences] at this
    omega

theorem replaceFirst_of_not_includes (s tag rep : String) (htag : tag.data ≠ [])
    (h : includes s tag = false) : replaceFirst s tag rep = s := by
  rcases replaceFirstChars_cases tag.data rep.data htag s.data with
    ⟨pre, post, hs, _⟩ | ⟨_, hr⟩
  · have hin : includes s tag = true := by
      rw [includes_iff_infix_chars, hs]; exact ⟨pre, post, rfl⟩
    rw [hin] at h; cases h
  · rw [replaceFirst, hr]

theorem includes_of_infix_chars (pre post : List Char) (rep q s : String)
    (hs : s.data = pre ++ rep.data ++ post) (hq : q.data <:+: rep.data) :
    includes s q = true := by
  rw [includes_iff_infix_chars, hs]
  exact List.IsInfix.trans hq ⟨pre, post, rfl⟩

theorem updateRels_inserts (relsXml : String) (hnone : includes relsXml "comments.xml" = false)
    (htag : includes relsXml "</Relationships>" = true) :
    ∃ pre post, relsXml.data = pre ++ "</Relationships>".data ++ post ∧
      (updateRels relsXml).data = pre ++ (relationshipEntry (newRId relsXml)).data ++ post := by
  have hne : relsXml ≠ "" := by
    intro h; rw [h] at htag; revert htag; decide
  rw [updateRels, if_pos ⟨hne, hnone⟩]
  exact replaceFirst_of_includes relsXml "</Relationships>" _ (by decide) htag

/-- C16 (as the code has it). Let every number that follows an occurrence of
`rId` anywhere in the text of the relationships part be below `2 ^ 53`, where
JavaScript numbers are exact.  The id of the relationship entry `addComment`
adds is `rId` followed by `m + 1`, where `m` is the largest of those numbers (0
when there is none); it exceeds every such number, and the entry is put before
the first `</Relationships>`. -/
theorem newRId_spec (relsXml : String) (hsafe : ∀ n ∈ ridNumbers relsXml, n < 2 ^ 53) :
    newRId relsXml = "rId" ++ numberToString ((ridNumbers relsXml).foldl max 0 + 1) ∧
    (ridNumbers relsXml).foldl max 0 + 1 ≤ 2 ^ 53 ∧
    (∀ n ∈ ridNumbers relsXml, n < (ridNumbers relsXml).foldl max 0 + 1) ∧
    (ridNumbers relsXml = [] → newRId relsXml = "rId1") ∧
    (includes relsXml "comments.xml" = false → includes relsXml "</Relationships>" = true →
      ∃ pre post, relsXml.data = pre ++ "</Relationships>".data ++ post ∧
        (updateRels relsXml).data =
          pre ++ (relationshipEntry (newRId relsXml)).data ++ post) := by
  refine ⟨by rw [newRId, maxRId_eq], ?_, ?_, ?_, updateRels_inserts relsXml⟩
  · exact foldl_max_lt (ridNumbers relsXml) (2 ^ 53) 0 (by norm_num) hsafe
  · intro n hn
    exact Nat.lt_succ_of_le ((le_foldl_max (ridNumbers relsXml) 0).2 n hn)
  · intro h
    rw [newRId, maxRId_eq, h]
    decide

theorem newRId_spec_witness :
    (∀ n ∈ ridNumbers
      "<Relationships><Relationship Id=\"rId3\"/><Relationship Id=\"rId12\"/></Relationships>",
      n < 2 ^ 53) ∧
    includes
      "<Relationships><Relationship Id=\"rId3\"/><Relationship Id=\"rId12\"/></Relationships>"
      "comments.xml" = false ∧
    includes
      "<Relationships><Relationship Id=\"rId3\"/><Relationship Id=\"rId12\"/></Relationships>"
      "</Relationships>" = true ∧
    newRId "<Relationships><Relationship Id=\"rId3\"/><Relationship Id=\"rId12\"/></Relationships>"
      = "rId13" ∧
    ∃ pre post,
      ("<Relationships><Relationship Id=\"rId3\"/><Relationship Id=\"rId12\"/></Relationships>"
        : String).data = pre ++ "</Relationships>".data ++ post ∧
      (updateRels
        "<Relationships><Relationship Id=\"rId3\"/><Relationship Id=\"rId12\"/></Relationships>"
        ).data = pre ++ (relationshipEntry (newRId
          "<Relationships><Relationship Id=\"rId3\"/><Relationship Id=\"rId12\"/></Relationships>"
          )).data ++ post :=
  ⟨by decide, by decide, by decide, by decide,
    (newRId_spec
      "<Relationships><Relationship Id=\"rId3\"/><Relationship Id=\"rId12\"/></Relationships>"
      (by decide)).2.2.2.2 (by decide) (by decide)⟩

/-- C16 (the claim at a failing input). In the sample relationships part the
only `Id` attribute is `rId1`, so the largest numeric suffix among the ids is 1,
yet the new id is `rId8`: the target `media/rId7.png` counts as well. -/
theorem newRId_counterexample :
    idAttributeNumbers sampleRels = [1] ∧ ridNumbers sampleRels = [1, 7] ∧
    newRId sampleRels = "rId8" ∧
    newRId sampleRels ≠
      "rId" ++ numberToString ((idAttributeNumbers sampleRels).foldl max 0 + 1) := by
  refine ⟨by decide, by decide, by decide, by decide⟩

/-! ## Registering the comments part -/

theorem updateFile_apply (zip : Package) (n : String) (f : String → String) (m : String) :
    (zip.updateFile n f) m = if m = n then (zip n).map f else zip m := by
  cases h : zip n with
  | none =>
    by_cases hm : m = n
    · simp [Package.updateFile, h, hm]
    · simp [Package.updateFile, h, hm]
  | some t =>
    by_cases hm : m = n
    · simp [Package.updateFile, h, hm, Package.setFile]
    · simp [Package.updateFile, h, hm, Package.setFile]

theorem serializeXml_ne_empty (P : Platform) (doc : List Node) : serializeXml P doc ≠ "" := by
  intro h
  have hd := congrArg String.data h
  rw [serializeXml, String.data_append] at hd
  have : ("<?xml version=\"1.0\" encoding=\"UTF-8\" standalone=\"yes\"?>" : String).data ≠ [] := by
    decide
  exact this (List.append_eq_nil.1 hd).1

theorem updateContentTypes_inserts (ct : String) (hnone : includes ct "comments.xml" = false)
    (htag : includes ct "</Types>" = true) :
    ∃ pre post, ct.data = pre ++ "</Types>".data ++ post ∧
      (updateContentTypes ct).data = pre ++ contentTypeOverride.data ++ post := by
  have hne : ct ≠ "" := by
    intro h; rw [h] at htag; revert htag; decide
  rw [updateContentTypes, if_pos ⟨hne, hnone⟩]
  exact replaceFirst_of_includes ct "</Types>" _ (by decide) htag

theorem updateContentTypes_idempotent (ct : String) :
    updateContentTypes (updateContentTypes ct) = updateContentTypes ct := by
  by_cases h : ct ≠ "" ∧ includes ct "comments.xml" = false
  · by_cases htag : includes ct "</Types>" = true
    · obtain ⟨pre, post, _, hr⟩ := updateContentTypes_inserts ct h.2 htag
      have hinc : includes (updateContentTypes ct) "comments.xml" = true :=
        includes_of_infix_chars pre post contentTypeOverride _ _ hr
          ⟨"  <Override PartName=\"/word/".data, "\" ContentType=\"application/vnd.openxmlformats-officedocument.wordprocessingml.comments+xml\"/>\n</Types>".data, by decide⟩
      generalize updateContentTypes ct = t at hinc
      rw [updateContentTypes, if_neg]
      rw [hinc]; simp
    · have hfix : updateContentTypes ct = ct := by
        rw [updateContentTypes, if_pos h]
        exact replaceFirst_of_not_includes ct "</Types>" _ (by decide) (by simpa using htag)
      rw [hfix, hfix]
  · have hfix : updateContentTypes ct = ct := by rw [updateContentTypes, if_neg h]
    rw [hfix, hfix]

theorem relationshipEntry_data (rId : String) :
    (relationshipEntry rId).data = "  <Relationship Id=\"".data ++ rId.data ++
      "\" Type=\"http://schemas.openxmlformats.org/officeDocument/2006/relationships/comments\" Target=\"comments.xml\"/>\n</Relationships>".data := by
  simp [relationshipEntry, String.data_append]

theorem updateRels_idempotent (relsXml : String) :
    updateRels (updateRels relsXml) = updateRels relsXml := by
  by_cases h : relsXml ≠ "" ∧ includes relsXml "comments.xml" = false
  · by_cases htag : includes relsXml "</Relationships>" = true
    · obtain ⟨pre, post, _, hr⟩ := updateRels_inserts relsXml h.2 htag
      have hinc : includes (updateRels relsXml) "comments.xml" = true := by
        apply includes_of_infix_chars pre post (relationshipEntry (newRId relsXml)) _ _ hr
        rw [relationshipEntry_data]
        exact ⟨"  <Relationship Id=\"".data ++ (newRId relsXml).data ++
          "\" Type=\"http://schemas.openxmlformats.org/officeDocument/2006/relationships/comments\" Target=\"".data,
          "\"/>\n</Relationships>".data, by simp⟩
      generalize updateRels relsXml = t at hinc
      rw [updateRels, if_neg]
      rw [hinc]; simp
    · have hfix : updateRels relsXml = relsXml := by
        rw [updateRels, if_pos h]
        exact replaceFirst_of_not_includes relsXml "</Relationships>" _ (by decide)
          (by simpa using htag)
      rw [hfix, hfix]
  · have hfix : updateRels relsXml = relsXml := by rw [updateRels, if_neg h]
    rw [hfix, hfix]

/-- C15 (as the code has it). When the comments part existed, `addComment`
leaves the content-types part and the relationships part as they were.  When
it did not exist, each of the two parts that is present is passed through its
update: a text that does not mention `comments.xml` and has the closing tag
(`</Types>`, `</Relationships>`) gets the Override for `/word/comments.xml`,
or the relationship with the target `comments.xml`, put before the first
closing tag; a text that mentions `comments.xml` stays as it is, and each
update is idempotent.  The package written has a non-empty comments part, so
a later call changes neither part. -/
theorem addComment_registers_part (P : Platform) (toUpperCase : String → String)
    (zip : Package) (docXml text author : String) (initials : Option String)
    (commentDate : String) (result : CommentResult) (zip3 : Package)
    (hadd : addCommentToPackage P toUpperCase zip docXml text author initials commentDate =
      some (result, zip3)) :
    (orElse (zip "word/comments.xml") "" ≠ "" →
      zip3 "[Content_Types].xml" = zip "[Content_Types].xml" ∧
      zip3 "word/_rels/document.xml.rels" = zip "word/_rels/document.xml.rels") ∧
    (orElse (zip "word/comments.xml") "" = "" →
      zip3 "[Content_Types].xml" = (zip "[Content_Types].xml").map updateContentTypes ∧
      zip3 "word/_rels/document.xml.rels" =
        (zip "word/_rels/document.xml.rels").map updateRels) ∧
    orElse (zip3 "word/comments.xml") "" ≠ "" ∧
    (∀ ct, includes ct "comments.xml" = false → includes ct "</Types>" = true →
      includes (updateContentTypes ct) "<Override PartName=\"/word/comments.xml\"" = true ∧
      ∃ pre post, ct.data = pre ++ "</Types>".data ++ post ∧
        (updateContentTypes ct).data = pre ++ contentTypeOverride.data ++ post) ∧
    (∀ r, includes r "comments.xml" = false → includes r "</Relationships>" = true →
      includes (updateRels r) "Target=\"comments.xml\"" = true ∧
      ∃ pre post, r.data = pre ++ "</Relationships>".data ++ post ∧
        (updateRels r).data = pre ++ (relationshipEntry (newRId r)).data ++ post) ∧
    (∀ t, includes t "comments.xml" = true → updateContentTypes t = t ∧ updateRels t = t) ∧
    (∀ t, updateContentTypes (updateContentTypes t) = updateContentTypes t ∧
      updateRels (updateRels t) = updateRels t) := by
  have hz : ∃ docDoc1 commentsDoc1,
      zip3 = ((if orElse (zip "word/comments.xml") "" = "" then
          (zip.updateFile "[Content_Types].xml" updateContentTypes).updateFile
            "word/_rels/document.xml.rels" updateRels
        else zip).setFile "word/comments.xml" (serializeXml P commentsDoc1)).setFile
          "word/document.xml" (serializeXml P docDoc1) := by
    simp only [addCommentToPackage] at hadd
    split at hadd
    · cases hadd
    · simp only [Option.some.injEq, Prod.mk.injEq] at hadd
      exact ⟨_, _, hadd.2.symm⟩
  obtain ⟨docDoc1, commentsDoc1, hz3⟩ := hz
  have n1 : ¬ "[Content_Types].xml" = "word/document.xml" := by decide
  have n2 : ¬ "[Content_Types].xml" = "word/comments.xml" := by decide
  have n3 : ¬ "word/_rels/document.xml.rels" = "word/document.xml" := by decide
  have n4 : ¬ "word/_rels/document.xml.rels" = "word/comments.xml" := by decide
  have n5 : ¬ "[Content_Types].xml" = "word/_rels/document.xml.rels" := by decide
  have n6 : ¬ "word/_rels/document.xml.rels" = "[Content_Types].xml" := by decide
  have n7 : ¬ "word/comments.xml" = "word/document.xml" := by decide
  refine ⟨?_, ?_, ?_, ?_, ?_, ?_, ?_⟩
  · intro h
    rw [hz3]
    simp [Package.setFile, n1, n2, n3, n4, h]
  · intro h
    rw [hz3]
    simp [Package.setFile, n1, n2, n3, n4, n5, n6, h, updateFile_apply]
  · rw [hz3]
    simp only [Package.setFile, n7, ↓reduceIte, orElse]
    simp [serializeXml_ne_empty]
  · intro ct hnone htag
    obtain ⟨pre, post, hs, hr⟩ := updateContentTypes_inserts ct hnone htag
    refine ⟨?_, pre, post, hs, hr⟩
    exact includes_of_infix_chars pre post contentTypeOverride _ _ hr
      ⟨"  ".data, " ContentType=\"application/vnd.openxmlformats-officedocument.wordprocessingml.comments+xml\"/>\n</Types>".data, by decide⟩
  · intro r hnone htag
    obtain ⟨pre, post, hs, hr⟩ := updateRels_inserts r hnone htag
    refine ⟨?_, pre, post, hs, hr⟩
    apply includes_of_infix_chars pre post (relationshipEntry (newRId r)) _ _ hr
    rw [relationshipEntry_data]
    exact ⟨"  <Relationship Id=\"".data ++ (newRId r).data ++
      "\" Type=\"http://schemas.openxmlformats.org/officeDocument/2006/relationships/comments\" ".data,
      "/>\n</Relationships>".data, by simp⟩
  · intro t ht
    constructor
    · rw [updateContentTypes, if_neg]; rw [ht]; simp
    · rw [updateRels, if_neg]; rw [ht]; simp
  · intro t
    exact ⟨updateContentTypes_idempotent t, updateRels_idempotent t⟩

/-- C15 (the claim at a failing input). The bare sample package has no comments
part and no relationships part; after `addComment` the package still has no
relationships part, so nothing relates the document to `comments.xml`.  A
relationships text without the closing tag `</Relationships>` is left as it is. -/
theorem addComment_registration_counterexample :
    sampleBarePackage "word/comments.xml" = none ∧
    (addCommentToPackage (samplePlatform (sampleDocument [])) sampleUpper sampleBarePackage
      "<w:document/>" "note" "AIM" none "2024").map
        (fun r => (r.1, r.2 "word/_rels/document.xml.rels")) =
      some ({ commentId := "1", author := "AIM", text := "note" }, none) ∧
    updateRels "<Relationships xmlns=\"http://schemas.openxmlformats.org/package/2006/relationships\"/>" =
      "<Relationships xmlns=\"http://schemas.openxmlformats.org/package/2006/relationships\"/>" := by
  refine ⟨by decide, by decide, by decide⟩

/-! ## The theorems on comments and added changes at sample inputs -/

theorem addComment_anchors_last_paragraph_witness :
    ∃ (result : CommentResult) (zip3 : Package) (body para : NodePath × Node),
      addCommentToPackage (samplePlatform sampleMixed) sampleUpper samplePackage "<w:document/>"
        "note" "AIM" none "2024" = some (result, zip3) ∧
      (select "body" (parseXml (samplePlatform sampleMixed) "<w:document/>"))[0]? = some body ∧
      (selectBelow "p" body.2).getLast? = some para ∧
      ∃ ctx f cs,
        parseXml (samplePlatform sampleMixed) "<w:document/>" = plug (ctx ++ [f]) cs ∧
        holePath (ctx ++ [f]) = body.1 ++ para.1 ∧
        para.2 = .elem f.ns f.name f.attrs cs ∧ para.2.isW "p" = true ∧
        zip3 "word/document.xml" = some (serializeXml (samplePlatform sampleMixed)
          (plug (ctx ++ [f]) (cs ++
            [Node.elem NS_W "commentRangeStart" [("w:id", result.commentId)] [],
              Node.elem NS_W "commentReference" [("w:id", result.commentId)] [],
              Node.elem NS_W "commentRangeEnd" [("w:id", result.commentId)] []]))) := by
  have hs : (addCommentToPackage (samplePlatform sampleMixed) sampleUpper samplePackage
      "<w:document/>" "note" "AIM" none "2024").isSome = true := by decide
  cases h : addCommentToPackage (samplePlatform sampleMixed) sampleUpper samplePackage
      "<w:document/>" "note" "AIM" none "2024" with
  | none => rw [h] at hs; cases hs
  | some rz =>
    have hb : ((select "body" (parseXml (samplePlatform sampleMixed) "<w:document/>"))[0]?
        ).isSome = true := by decide
    cases hbody : (select "body" (parseXml (samplePlatform sampleMixed) "<w:document/>"))[0]? with
    | none => rw [hbody] at hb; cases hb
    | some body =>
      have hbv : body.1 = [0, 0] := by
        have : ((select "body" (parseXml (samplePlatform sampleMixed) "<w:document/>"))[0]?
            ).map Prod.fst = some [0, 0] := by decide
        rw [hbody] at this
        simpa using this
      have hp : ∃ para, (selectBelow "p" body.2).getLast? = some para := by
        have hbe : (select "body" (parseXml (samplePlatform sampleMixed) "<w:document/>"))[0]? =
            some ([0, 0], createElementNS "body" [] [createElementNS "p" []
              [createElementNS "ins" [("w:author", "Alice")] [sampleRun "Hello"],
                createElementNS "del" []
                  [createElementNS "r" [] [createElementNS "delText" [] [.text "old"]]],
                createElementNS "r" [] [createElementNS "rPr" [("w:b", "1")]
                  [createElementNS "rPrChange" [("w:author", "Bob")] []],
                  createElementNS "t" [] [.text "z"]]]]) := rfl
        rw [hbody] at hbe
        have hb2 := Option.some.inj hbe
        rw [hb2]
        exact ⟨_, rfl⟩
      obtain ⟨para, hpara⟩ := hp
      exact ⟨rz.1, rz.2, body, para, rfl, rfl, hpara,
        addComment_anchors_last_paragraph (samplePlatform sampleMixed) sampleUpper samplePackage
          "<w:document/>" "note" "AIM" none "2024" rz.1 rz.2 body para h hbody hpara⟩

theorem addComment_one_anchor_witness :
    ∃ (result : CommentResult) (zip3 : Package) (body : NodePath × Node),
      addCommentToPackage (samplePlatform sampleMixed) sampleUpper samplePackage "<w:document/>"
        "note" "AIM" none "2024" = some (result, zip3) ∧
      (select "body" (parseXml (samplePlatform sampleMixed) "<w:document/>"))[0]? = some body ∧
      markerCount "commentRangeStart" result.commentId
        (parseXml (samplePlatform sampleMixed) "<w:document/>") = 0 ∧
      markerCount "commentReference" result.commentId
        (parseXml (samplePlatform sampleMixed) "<w:document/>") = 0 ∧
      markerCount "commentRangeEnd" result.commentId
        (parseXml (samplePlatform sampleMixed) "<w:document/>") = 0 ∧
      ∃ docDoc1, zip3 "word/document.xml" =
          some (serializeXml (samplePlatform sampleMixed) docDoc1) ∧
        markerCount "commentRangeStart" result.commentId docDoc1 = 1 ∧
        markerCount "commentReference" result.commentId docDoc1 = 1 ∧
        markerCount "commentRangeEnd" result.commentId docDoc1 = 1 := by
  have hs : (addCommentToPackage (samplePlatform sampleMixed) sampleUpper samplePackage
      "<w:document/>" "note" "AIM" none "2024").map (fun r => r.1.commentId) = some "1" := by
    decide
  cases h : addCommentToPackage (samplePlatform sampleMixed) sampleUpper samplePackage
      "<w:document/>" "note" "AIM" none "2024" with
  | none => rw [h] at hs; cases hs
  | some rz =>
    rw [h] at hs
    have hid : rz.1.commentId = "1" := by simpa using hs
    have hb : ((select "body" (parseXml (samplePlatform sampleMixed) "<w:document/>"))[0]?
        ).isSome = true := by decide
    cases hbody : (select "body" (parseXml (samplePlatform sampleMixed) "<w:document/>"))[0]? with
    | none => rw [hbody] at hb; cases hb
    | some body =>
      have h1 : markerCount "commentRangeStart" rz.1.commentId
          (parseXml (samplePlatform sampleMixed) "<w:document/>") = 0 := by rw [hid]; decide
      have h2 : markerCount "commentReference" rz.1.commentId
          (parseXml (samplePlatform sampleMixed) "<w:document/>") = 0 := by rw [hid]; decide
      have h3 : markerCount "commentRangeEnd" rz.1.commentId
          (parseXml (samplePlatform sampleMixed) "<w:document/>") = 0 := by rw [hid]; decide
      exact ⟨rz.1, rz.2, body, rfl, rfl, h1, h2, h3,
        addComment_one_anchor (samplePlatform sampleMixed) sampleUpper samplePackage
          "<w:document/>" "note" "AIM" none "2024" rz.1 rz.2 body h hbody h1 h2 h3⟩

theorem addComment_registers_part_witness :
    ∃ (result : CommentResult) (zip3 : Package),
      addCommentToPackage (samplePlatform sampleMixed) sampleUpper sampleBarePackage
        "<w:document/>" "note" "AIM" none "2024" = some (result, zip3) ∧
      orElse (sampleBarePackage "word/comments.xml") "" = "" ∧
      zip3 "[Content_Types].xml" =
        (sampleBarePackage "[Content_Types].xml").map updateContentTypes ∧
      zip3 "word/_rels/document.xml.rels" =
        (sampleBarePackage "word/_rels/document.xml.rels").map updateRels ∧
      includes "<Types></Types>" "comments.xml" = false ∧
      includes "<Types></Types>" "</Types>" = true ∧
      includes (updateContentTypes "<Types></Types>")
        "<Override PartName=\"/word/comments.xml\"" = true := by
  have hs : (addCommentToPackage (samplePlatform sampleMixed) sampleUpper sampleBarePackage
      "<w:document/>" "note" "AIM" none "2024").isSome = true := by decide
  cases h : addCommentToPackage (samplePlatform sampleMixed) sampleUpper sampleBarePackage
      "<w:document/>" "note" "AIM" none "2024" with
  | none => rw [h] at hs; cases hs
  | some rz =>
    have hthm := addComment_registers_part (samplePlatform sampleMixed) sampleUpper
      sampleBarePackage "<w:document/>" "note" "AIM" none "2024" rz.1 rz.2 h
    have hno : orElse (sampleBarePackage "word/comments.xml") "" = "" := by decide
    exact ⟨rz.1, rz.2, rfl, hno, (hthm.2.1 hno).1, (hthm.2.1 hno).2, by decide, by decide,
      (hthm.2.2.2.1 "<Types></Types>" (by decide) (by decide)).1⟩

theorem addChange_enables_flag_witness :
    sampleFiles "a.docx" = some samplePackage ∧
    samplePackage "word/document.xml" = some "<w:document/>" ∧ "<w:document/>" ≠ "" ∧
    (select "body" (parseXml (samplePlatform (sampleDocument [])) "<w:document/>"))[0]? =
      some ([0, 0], createElementNS "body" [] [createElementNS "p" [] []]) ∧
    samplePackage "word/settings.xml" = some "<w:settings></w:settings>" ∧
    includes "<w:settings></w:settings>" "trackRevisions" = false ∧
    includes "<w:settings></w:settings>" "</w:settings>" = true ∧
    ∃ zip2,
      addChange (samplePlatform (sampleDocument [])) sampleFiles "a.docx" "draft" "insertion"
          "AIM" none "2024" =
        (.ok { type := "insertion", author := "AIM", text := "draft" },
          (copyIfDifferent sampleFiles "a.docx" none).writeFile (pathOr none "a.docx") zip2) ∧
      zip2 "word/settings.xml" = some (enableTrackRevisions "<w:settings></w:settings>") ∧
      (∃ pre post, ("<w:settings></w:settings>" : String).data =
          pre ++ "</w:settings>".data ++ post ∧
        (enableTrackRevisions "<w:settings></w:settings>").data =
          pre ++ "  <w:trackRevisions/>\n</w:settings>".data ++ post) ∧
      includes (enableTrackRevisions "<w:settings></w:settings>") "<w:trackRevisions/>" = true :=
  ⟨rfl, rfl, by decide, rfl, rfl, by decide, by decide,
    addChange_enables_flag (samplePlatform (sampleDocument [])) sampleFiles "a.docx" "draft"
      "insertion" "AIM" none "2024" samplePackage "<w:document/>" "<w:settings></w:settings>"
      ([0, 0], createElementNS "body" [] [createElementNS "p" [] []]) rfl rfl (by decide) rfl
      (Or.inl rfl) rfl (by decide) (by decide)⟩

theorem addChange_unsupported_type_witness :
    sampleFiles "a.docx" = some samplePackage ∧
    samplePackage "word/document.xml" = some "<w:document/>" ∧ "<w:document/>" ≠ "" ∧
    (select "body" (parseXml (samplePlatform (sampleDocument [])) "<w:document/>"))[0]? =
      some ([0, 0], createElementNS "body" [] [createElementNS "p" [] []]) ∧
    ("move" ≠ "insertion" ∧ "move" ≠ "deletion") ∧
    (addChange (samplePlatform (sampleDocument [])) sampleFiles "a.docx" "draft" "move" "AIM"
      (some "b.docx") "2024").2 = copyIfDifferent sampleFiles "a.docx" (some "b.docx") ∧
    (addChange (samplePlatform (sampleDocument [])) sampleFiles "a.docx" "draft" "move" "AIM"
      (some "b.docx") "2024").2 "a.docx" = sampleFiles "a.docx" :=
  have h := (addChange_unsupported_type (samplePlatform (sampleDocument [])) sampleFiles
    "a.docx" "draft" "move" "AIM" (some "b.docx") "2024" samplePackage "<w:document/>"
    ([0, 0], createElementNS "body" [] [createElementNS "p" [] []]) rfl rfl (by decide) rfl).2
    ⟨by decide, by decide⟩
  ⟨rfl, rfl, by decide, rfl, ⟨by decide, by decide⟩, h.1, h.2.1⟩

/-! ## Authors and dates of records -/

theorem pushComments_eq (toISOString : String → Option String) (es : List (NodePath × Node))
    (acc : List CommentRecord) (n : Nat) :
    pushComments toISOString es (acc, n) =
      (acc ++ commentsFrom toISOString es n, n + es.length) := by
  induction es generalizing acc n with
  | nil => simp [pushComments, commentsFrom]
  | cons e rest ih =>
    rw [pushComments, ih]
    simp only [commentsFrom, List.length_cons, List.range'_succ, List.zipWith_cons_cons,
      List.append_assoc, List.singleton_append, Prod.mk.injEq, true_and]
    omega

theorem listCommentsInDoc_eq (toISOString : String → Option String) (commentsDoc : List Node) :
    listCommentsInDoc toISOString commentsDoc =
      commentsFrom toISOString (select "comment" commentsDoc) 1 := by
  rw [listCommentsInDoc, pushComments_eq]
  simp

theorem map_author_commentsFrom (toISOString : String → Option String)
    (es : List (NodePath × Node)) (n : Nat) :
    (commentsFrom toISOString es n).map (fun c => c.author) =
      es.map (fun e => orElse (e.2.getAttribute "w:author") "Unknown") := by
  induction es generalizing n with
  | nil => rfl
  | cons e rest ih =>
    have := ih (n + 1)
    simp only [commentsFrom] at this
    simp only [commentsFrom, List.length_cons, List.range'_succ, List.zipWith_cons_cons,
      List.map_cons, this]
    rfl

theorem map_author_recordsFrom (mk : Node → Nat → ChangeRecord)
    (hmk : ∀ e i, (mk e i).author = orElse (e.getAttribute "w:author") "Unknown")
    (k : String) (es : List (NodePath × Node)) (n : Nat) :
    (recordsFrom mk es n).map (fun c => c.author) =
      (es.map (fun e => (k, e))).map
        (fun w => orElse (w.2.2.getAttribute "w:author") "Unknown") := by
  induction es generalizing n with
  | nil => rfl
  | cons e rest ih =>
    have := ih (n + 1)
    simp only [recordsFrom] at this
    simp only [recordsFrom, List.length_cons, List.range'_succ, List.zipWith_cons_cons,
      List.map_cons, this, hmk]

/-- C24. The authors of the records of `listTrackChanges`, in order, are those
of the change wrappers in listing order: the `w:author` attribute of the
wrapper when it is present and non-empty, and `Unknown` when it is absent or
empty.  The same holds for the records of `listComments` and the `w:comment`
elements in document order. -/
theorem record_author (toISOString : String → Option String) (doc commentsDoc : List Node) :
    (listChanges toISOString doc).map (fun c => c.author) =
      (changeWrappers doc).map
        (fun w => orElse (w.2.2.getAttribute "w:author") "Unknown") ∧
    (listCommentsInDoc toISOString commentsDoc).map (fun c => c.author) =
      (select "comment" commentsDoc).map
        (fun e => orElse (e.2.getAttribute "w:author") "Unknown") ∧
    (∀ (w : Node) (a : String), w.getAttribute "w:author" = some a → a ≠ "" →
      orElse (w.getAttribute "w:author") "Unknown" = a) ∧
    (∀ w : Node, w.getAttribute "w:author" = none ∨ w.getAttribute "w:author" = some "" →
      orElse (w.getAttribute "w:author") "Unknown" = "Unknown") := by
  refine ⟨?_, ?_, ?_, ?_⟩
  · rw [listChanges_eq, changeWrappers]
    simp only [List.map_append]
    rw [map_author_recordsFrom _ (fun _ _ => rfl) "ins",
      map_author_recordsFrom _ (fun _ _ => rfl) "del",
      map_author_recordsFrom _ (fun _ _ => rfl) "rPrChange",
      map_author_recordsFrom _ (fun _ _ => rfl) "pPrChange"]
  · rw [listCommentsInDoc_eq, map_author_commentsFrom]
  · intro w a h hne
    rw [h]
    simp [orElse, hne]
  · intro w h
    rcases h with h | h <;> rw [h] <;> simp [orElse]

theorem record_author_witness :
    (createElementNS "ins" [("w:author", "Alice")] [sampleRun "Hello"]).getAttribute "w:author" =
      some "Alice" ∧ "Alice" ≠ "" ∧
    orElse ((createElementNS "ins" [("w:author", "Alice")] [sampleRun "Hello"]).getAttribute
      "w:author") "Unknown" = "Alice" ∧
    (listChanges (fun _ => none) sampleMixed).map (fun c => c.author) =
      ["Alice", "Unknown", "Bob"] :=
  ⟨by decide, by decide,
    (record_author (fun _ => none) sampleMixed []).2.2.1
      (createElementNS "ins" [("w:author", "Alice")] [sampleRun "Hello"]) "Alice" (by decide)
      (by decide),
    by decide⟩

theorem isDigit_ne_T (c : Char) (h : isDigit c = true) : c ≠ 'T' := by
  intro hc
  subst hc
  revert h
  decide

/-- C25. `parseDate` is a total function: it returns null for the empty string
(the value its callers pass for an absent attribute) and a string otherwise;
it returns the input when the input contains no `T` or the platform `Date`
does not accept it; and for a well-formed UTC timestamp `YYYY-MM-DDTHH:MM:SSZ`,
which the platform `Date` renders as the same date and time with milliseconds
`.000`, it returns `YYYY-MM-DD HH:MM:SS`. -/
theorem parseDate_spec (toISOString : String → Option String) (s : String) :
    parseDate toISOString "" = none ∧
    (∀ w : Node, w.getAttribute "w:date" = none →
      parseDate toISOString (orElse (w.getAttribute "w:date") "") = none) ∧
    (s ≠ "" → (parseDate toISOString s).isSome = true) ∧
    (s ≠ "" → includes s "T" = false → parseDate toISOString s = some s) ∧
    (s ≠ "" → toISOString s = none → parseDate toISOString s = some s) ∧
    (isUtcTimestamp s = true →
      toISOString s = some ⟨s.data.take 19 ++ ".000Z".data⟩ →
      parseDate toISOString s =
        some ⟨s.data.take 10 ++ ' ' :: (s.data.take 19).drop 11⟩) := by
  refine ⟨by simp [parseDate], ?_, ?_, ?_, ?_, ?_⟩
  · intro w h
    rw [h]
    simp [orElse, parseDate]
  · intro h
    rw [parseDate, if_neg h]
    split
    · split <;> rfl
    · rfl
  · intro h hT
    rw [parseDate, if_neg h, hT]
    simp
  · intro h hnone
    rw [parseDate, if_neg h, hnone]
    split <;> rfl
  · intro hts hiso
    have hne : s ≠ "" := by
      intro h; subst h; revert hts; decide
    rw [isUtcTimestamp] at hts
    split at hts
    · rename_i y1 y2 y3 y4 m1 m2 d1 d2 h1 h2 n1 n2 s1 s2 hs
      simp only [List.all_cons, List.all_nil, Bool.and_true, Bool.and_eq_true] at hts
      obtain ⟨a1, a2, a3, a4, a5, a6, a7, a8, a9, a10, a11, a12, a13, a14⟩ := hts
      have hinc : includes s "T" = true := by
        rw [includes, hs]
        simp [List.tails, List.isPrefixOf]
      rw [parseDate, if_neg hne, hinc, hiso]
      simp only [↓reduceIte, Option.some.injEq]
      apply String.ext
      simp only [replaceFirst, slice, hs]
      have e1 := isDigit_ne_T y1 a1
      have e2 := isDigit_ne_T y2 a2
      have e3 := isDigit_ne_T y3 a3
      have e4 := isDigit_ne_T y4 a4
      have e5 := isDigit_ne_T m1 a5
      have e6 := isDigit_ne_T m2 a6
      have e7 := isDigit_ne_T d1 a7
      have e8 := isDigit_ne_T d2 a8
      simp [replaceFirstChars, List.isPrefixOf, e1.symm, e2.symm, e3.symm, e4.symm, e5.symm,
        e6.symm, e7.symm, e8.symm]
    · exact absurd hts (by simp)

theorem parseDate_spec_witness :
    isUtcTimestamp "2024-01-15T10:30:00Z" = true ∧
    sampleToISOString "2024-01-15T10:30:00Z" =
      some ⟨("2024-01-15T10:30:00Z" : String).data.take 19 ++ ".000Z".data⟩ ∧
    parseDate sampleToISOString "2024-01-15T10:30:00Z" =
      some ⟨("2024-01-15T10:30:00Z" : String).data.take 10 ++
        ' ' :: (("2024-01-15T10:30:00Z" : String).data.take 19).drop 11⟩ ∧
    parseDate sampleToISOString "2024-01-15T10:30:00Z" = some "2024-01-15 10:30:00" ∧
    parseDate sampleToISOString "Tuesday" = some "Tuesday" :=
  ⟨by decide, by decide,
    (parseDate_spec sampleToISOString "2024-01-15T10:30:00Z").2.2.2.2.2 (by decide) (by decide),
    by decide, by decide⟩

/-! ## Parts and files a run leaves alone -/

theorem copyIfDifferent_cases (fs : FileSystem) (docxPath : String) (outputPath : Option String)
    (zip : Package) (hfile : fs docxPath = some zip) (p : String) :
    copyIfDifferent fs docxPath outputPath p = fs p ∨
      copyIfDifferent fs docxPath outputPath p = some zip := by
  cases outputPath with
  | none => exact Or.inl rfl
  | some o =>
    by_cases ho : o = "" ∨ o = docxPath
    · left; simp [copyIfDifferent, ho]
    · simp only [copyIfDifferent, ho, ↓reduceIte, hfile, FileSystem.writeFile]
      by_cases hp : p = o
      · right; simp [hp]
      · left; simp [hp]

theorem filesFramed_refl (parts : List String) (fs : FileSystem) (docxPath : String) :
    filesFramed parts fs docxPath fs := fun _ => Or.inl rfl

theorem filesFramed_copy (parts : List String) (fs : FileSystem) (docxPath : String)
    (outputPath : Option String) :
    filesFramed parts fs docxPath (copyIfDifferent fs docxPath outputPath) := by
  intro p
  cases hfile : fs docxPath with
  | none =>
    left
    cases outputPath with
    | none => rfl
    | some o =>
      by_cases ho : o = "" ∨ o = docxPath
      · simp [copyIfDifferent, ho]
      · simp [copyIfDifferent, ho, hfile]
  | some zip =>
    rcases copyIfDifferent_cases fs docxPath outputPath zip hfile p with h | h
    · exact Or.inl h
    · exact Or.inr ⟨zip, zip, rfl, h, fun _ _ => rfl⟩

theorem filesFramed_write (parts : List String) (fs : FileSystem) (docxPath : String)
    (outputPath : Option String) (path : String) (zip zip1 : Package)
    (hfile : fs docxPath = some zip) (hsame : sameOutside parts zip zip1) :
    filesFramed parts fs docxPath ((copyIfDifferent fs docxPath outputPath).writeFile path zip1) := by
  intro p
  by_cases hp : p = path
  · exact Or.inr ⟨zip, zip1, hfile, by simp [FileSystem.writeFile, hp], hsame⟩
  · rcases filesFramed_copy parts fs docxPath outputPath p with h | h
    · left; simp [FileSystem.writeFile, hp, h]
    · right
      obtain ⟨z, z1, h1, h2, h3⟩ := h
      exact ⟨z, z1, h1, by simp [FileSystem.writeFile, hp, h2], h3⟩

theorem readDocumentXml_source (fs : FileSystem) (docxPath : String) (outputPath : Option String)
    (zip zip0 : Package) (docXml : String) (hfile : fs docxPath = some zip)
    (hread : readDocumentXml (copyIfDifferent fs docxPath outputPath) (pathOr outputPath docxPath) =
      .ok (zip0, docXml)) : zip0 = zip := by
  have hsrc : (copyIfDifferent fs docxPath outputPath) (pathOr outputPath docxPath) = some zip := by
    cases outputPath with
    | none => simpa [copyIfDifferent, pathOr, orElse] using hfile
    | some o =>
      by_cases ho : o = ""
      · simpa [copyIfDifferent, pathOr, orElse, ho] using hfile
      · by_cases hd : o = docxPath
        · simpa [copyIfDifferent, pathOr, orElse, ho, hd] using hfile
        · simp [copyIfDifferent, pathOr, orElse, ho, hd, hfile, FileSystem.writeFile]
  rw [readDocumentXml, hsrc] at hread
  simp only at hread
  split at hread
  · cases hread
  · split at hread
    · cases hread
    · cases hread; rfl

theorem sameOutside_setFile (parts : List String) (zip zip1 : Package) (name content : String)
    (hname : name ∈ parts) (h : sameOutside parts zip zip1) :
    sameOutside parts zip (zip1.setFile name content) := by
  intro n hn
  have : ¬ n = name := fun e => hn (e ▸ hname)
  simp [Package.setFile, this, h n hn]

theorem sameOutside_updateFile (parts : List String) (zip zip1 : Package) (name : String)
    (f : String → String) (hname : name ∈ parts) (h : sameOutside parts zip zip1) :
    sameOutside parts zip (zip1.updateFile name f) := by
  rw [Package.updateFile]
  split
  · exact sameOutside_setFile parts zip zip1 name _ hname h
  · exact h

theorem readDocumentXml_file (fs : FileSystem) (path : String) (zip : Package) (docXml : String)
    (h : readDocumentXml fs path = .ok (zip, docXml)) : fs path = some zip := by
  rw [readDocumentXml] at h
  split at h
  · cases h
  · rename_i z hz
    split at h
    · cases h
    · split at h
      · cases h
      · cases h; exact hz

theorem applyChange_framed (P : Platform) (fs : FileSystem) (docxPath : String)
    (changeId : JsNumber) (outputPath : Option String) (skipConfirmation answer : Bool) :
    filesFramed ["word/document.xml"] fs docxPath
      (applyChange P fs docxPath changeId outputPath skipConfirmation answer).2 := by
  rw [applyChange]
  cases hlist : listTrackChanges P fs docxPath with
  | error e => exact filesFramed_refl _ _ _
  | ok changes =>
    have hsrc : ∃ zip, fs docxPath = some zip := by
      rw [listTrackChanges] at hlist
      cases hr : readDocumentXml fs docxPath with
      | error e => rw [hr] at hlist; cases hlist
      | ok zd => exact ⟨zd.1, readDocumentXml_file fs docxPath zd.1 zd.2 hr⟩
    obtain ⟨zip, hfile⟩ := hsrc
    simp only
    split
    · exact filesFramed_refl _ _ _
    · split
      · exact filesFramed_refl _ _ _
      · split
        · exact filesFramed_copy _ _ _ _
        · rename_i zip0 docXml hread
          have hz := readDocumentXml_source fs docxPath outputPath zip zip0 docXml hfile hread
          split
          · exact filesFramed_copy _ _ _ _
          · split
            · exact filesFramed_copy _ _ _ _
            · exact filesFramed_write _ fs docxPath outputPath _ zip _ hfile
                (sameOutside_setFile _ zip zip0 _ _ (by simp) (by rw [hz]; exact fun _ _ => rfl))

theorem applyAllChanges_framed (P : Platform) (toLowerCase : String → String) (fs : FileSystem)
    (docxPath : String) (outputPath filterAuthor filterType : Option String)
    (skipConfirmation answer : Bool) :
    filesFramed ["word/document.xml"] fs docxPath
      (applyAllChanges P toLowerCase fs docxPath outputPath filterAuthor filterType
        skipConfirmation answer).2 := by
  rw [applyAllChanges]
  cases hlist : listTrackChanges P fs docxPath with
  | error e => exact filesFramed_refl _ _ _
  | ok changes =>
    have hsrc : ∃ zip, fs docxPath = some zip := by
      rw [listTrackChanges] at hlist
      cases hr : readDocumentXml fs docxPath with
      | error e => rw [hr] at hlist; cases hlist
      | ok zd => exact ⟨zd.1, readDocumentXml_file fs docxPath zd.1 zd.2 hr⟩
    obtain ⟨zip, hfile⟩ := hsrc
    simp only
    split
    · exact filesFramed_refl _ _ _
    · split
      · exact filesFramed_refl _ _ _
      · split
        · exact filesFramed_copy _ _ _ _
        · rename_i zip0 docXml hread
          have hz := readDocumentXml_source fs docxPath outputPath zip zip0 docXml hfile hread
          split
          · exact filesFramed_copy _ _ _ _
          · exact filesFramed_write _ fs docxPath outputPath _ zip _ hfile
              (sameOutside_setFile _ zip zip0 _ _ (by simp) (by rw [hz]; exact fun _ _ => rfl))

theorem copyToOutput_cases (fs : FileSystem) (docxPath : String) (outputPath : Option String) :
    (∃ e, copyToOutput fs docxPath outputPath = .error e ∧ fs docxPath = none) ∨
    (copyToOutput fs docxPath outputPath = .ok (copyIfDifferent fs docxPath outputPath)) := by
  cases hfile : fs docxPath with
  | some zip => exact Or.inr (copyToOutput_ok fs docxPath outputPath zip hfile)
  | none =>
    cases outputPath with
    | none => right; simp [copyToOutput, copyIfDifferent, orElse]
    | some o =>
      by_cases ho : o = ""
      · right; simp [copyToOutput, copyIfDifferent, orElse, ho]
      · by_cases hd : o = docxPath
        · right; subst hd; simp [copyToOutput, copyIfDifferent, orElse, ho]
        · left; exact ⟨.noSuchFile, by simp [copyToOutput, orElse, ho, hd, hfile], rfl⟩

theorem addChange_framed (P : Platform) (fs : FileSystem) (docxPath text type author : String)
    (outputPath : Option String) (changeDate : String) :
    filesFramed ["word/document.xml", "word/settings.xml"] fs docxPath
      (addChange P fs docxPath text type author outputPath changeDate).2 := by
  rw [addChange]
  rcases copyToOutput_cases fs docxPath outputPath with ⟨e, he, _⟩ | hc
  · rw [he]; exact filesFramed_refl _ _ _
  · rw [hc]
    simp only
    split
    · exact filesFramed_copy _ _ _ _
    · rename_i zip0 docXml hread
      split
      · exact filesFramed_copy _ _ _ _
      · cases hfile : fs docxPath with
        | some zip =>
          have hz := readDocumentXml_source fs docxPath outputPath zip zip0 docXml hfile hread
          exact filesFramed_write _ fs docxPath outputPath _ zip _ hfile
            (sameOutside_updateFile _ zip _ _ _ (by simp)
              (sameOutside_setFile _ zip zip0 _ _ (by simp)
                (by rw [hz]; exact fun _ _ => rfl)))
        | none =>
          exfalso
          have h1 : copyIfDifferent fs docxPath outputPath = fs := by
            cases outputPath with
            | none => rfl
            | some o =>
              by_cases ho : o = "" ∨ o = docxPath
              · simp [copyIfDifferent, ho]
              · simp [copyIfDifferent, ho, hfile]
          rw [h1] at hread hc
          have h2 := readDocumentXml_file _ _ _ _ hread
          cases outputPath with
          | none => simp [pathOr, orElse, hfile] at h2
          | some o =>
            by_cases ho : o = ""
            · simp [pathOr, orElse, ho, hfile] at h2
            · by_cases hd : o = docxPath
              · simp [pathOr, orElse, ho, hd, hfile] at h2
              · simp [copyToOutput, orElse, ho, hd, hfile] at hc
theorem addCommentToPackage_sameOutside (P : Platform) (toUpperCase : String → String)
    (zip : Package) (docXml text author : String) (initials : Option String)
    (commentDate : String) (result : CommentResult) (zip3 : Package)
    (hadd : addCommentToPackage P toUpperCase zip docXml text author initials commentDate =
      some (result, zip3)) :
    sameOutside ["word/comments.xml", "word/document.xml", "[Content_Types].xml",
      "word/_rels/document.xml.rels"] zip zip3 := by
  simp only [addCommentToPackage] at hadd
  split at hadd
  · cases hadd
  · simp only [Option.some.injEq, Prod.mk.injEq] at hadd
    rw [← hadd.2]
    apply sameOutside_setFile _ _ _ _ _ (by simp)
    apply sameOutside_setFile _ _ _ _ _ (by simp)
    split
    · apply sameOutside_updateFile _ _ _ _ _ (by simp)
      apply sameOutside_updateFile _ _ _ _ _ (by simp)
      exact fun _ _ => rfl
    · exact fun _ _ => rfl

theorem source_of_read (fs : FileSystem) (docxPath : String) (outputPath : Option String)
    (zip0 : Package) (docXml : String)
    (hc : copyToOutput fs docxPath outputPath = .ok (copyIfDifferent fs docxPath outputPath))
    (hread : readDocumentXml (copyIfDifferent fs docxPath outputPath) (pathOr outputPath docxPath) =
      .ok (zip0, docXml)) : fs docxPath = some zip0 := by
  cases hfile : fs docxPath with
  | some zip =>
    rw [readDocumentXml_source fs docxPath outputPath zip zip0 docXml hfile hread]
  | none =>
    exfalso
    have h1 : copyIfDifferent fs docxPath outputPath = fs := by
      cases outputPath with
      | none => rfl
      | some o =>
        by_cases ho : o = "" ∨ o = docxPath
        · simp [copyIfDifferent, ho]
        · simp [copyIfDifferent, ho, hfile]
    rw [h1] at hread hc
    have h2 := readDocumentXml_file _ _ _ _ hread
    cases outputPath with
    | none => simp [pathOr, orElse, hfile] at h2
    | some o =>
      by_cases ho : o = ""
      · simp [pathOr, orElse, ho, hfile] at h2
      · by_cases hd : o = docxPath
        · simp [pathOr, orElse, ho, hd, hfile] at h2
        · simp [copyToOutput, orElse, ho, hd, hfile] at hc

theorem addComment_framed (P : Platform) (toUpperCase : String → String) (fs : FileSystem)
    (docxPath text author : String) (initials outputPath : Option String)
    (commentDate : String) :
    filesFramed ["word/comments.xml", "word/document.xml", "[Content_Types].xml",
      "word/_rels/document.xml.rels"] fs docxPath
      (addComment P toUpperCase fs docxPath text author initials outputPath commentDate).2 := by
  rw [addComment]
  rcases copyToOutput_cases fs docxPath outputPath with ⟨e, he, _⟩ | hc
  · rw [he]; exact filesFramed_refl _ _ _
  · rw [hc]
    simp only
    split
    · exact filesFramed_copy _ _ _ _
    · rename_i zip0 docXml hread
      have hfile := source_of_read fs docxPath outputPath zip0 docXml hc hread
      split
      · exact filesFramed_copy _ _ _ _
      · rename_i result zip3 hadd
        exact filesFramed_write _ fs docxPath outputPath _ zip0 _ hfile
          (addCommentToPackage_sameOutside P toUpperCase zip0 docXml text author initials
            commentDate result zip3 hadd)

/-- C21. After a run of `applyChange` or `applyAllChanges` every file holds
what it held before, or a package that differs from the source package in
`word/document.xml` at most; after `addChange`, in `word/document.xml` and
`word/settings.xml` at most; after `addComment`, in `word/comments.xml`,
`word/document.xml`, `[Content_Types].xml` and `word/_rels/document.xml.rels`
at most.  Every other part is the part of the source package. -/
theorem mutations_frame_parts (P : Platform) (toLowerCase toUpperCase : String → String)
    (fs : FileSystem) (docxPath : String) (outputPath : Option String) :
    (∀ (changeId : JsNumber) (skipConfirmation answer : Bool),
      filesFramed ["word/document.xml"] fs docxPath
        (applyChange P fs docxPath changeId outputPath skipConfirmation answer).2) ∧
    (∀ (filterAuthor filterType : Option String) (skipConfirmation answer : Bool),
      filesFramed ["word/document.xml"] fs docxPath
        (applyAllChanges P toLowerCase fs docxPath outputPath filterAuthor filterType
          skipConfirmation answer).2) ∧
    (∀ text type author changeDate : String,
      filesFramed ["word/document.xml", "word/settings.xml"] fs docxPath
        (addChange P fs docxPath text type author outputPath changeDate).2) ∧
    (∀ (text author : String) (initials : Option String) (commentDate : String),
      filesFramed ["word/comments.xml", "word/document.xml", "[Content_Types].xml",
        "word/_rels/document.xml.rels"] fs docxPath
        (addComment P toUpperCase fs docxPath text author initials outputPath commentDate).2) ∧
    (∀ (parts : List String) (fs1 : FileSystem), filesFramed parts fs docxPath fs1 →
      ∀ (p : String) (zip zip1 : Package), fs docxPath = some zip → fs1 p = some zip1 →
        fs1 p ≠ fs p → ∀ n, n ∉ parts → zip1 n = zip n) :=
  ⟨fun changeId skipConfirmation answer =>
      applyChange_framed P fs docxPath changeId outputPath skipConfirmation answer,
    fun filterAuthor filterType skipConfirmation answer =>
      applyAllChanges_framed P toLowerCase fs docxPath outputPath filterAuthor filterType
        skipConfirmation answer,
    fun text type author changeDate =>
      addChange_framed P fs docxPath text type author outputPath changeDate,
    fun text author initials commentDate =>
      addComment_framed P toUpperCase fs docxPath text author initials outputPath commentDate,
    fun parts fs1 h p zip zip1 hfile h1 hne n hn => by
      rcases h p with h0 | ⟨z, z1, hz, hz1, hsame⟩
      · exact absurd h0 hne
      · rw [hfile] at hz
        rw [h1] at hz1
        cases hz; cases hz1
        exact hsame n hn⟩

theorem mutations_frame_parts_witness :
    sampleFiles "a.docx" = some samplePackage ∧
    (addChange (samplePlatform (sampleDocument [])) sampleFiles "a.docx" "draft" "insertion"
      "AIM" (some "b.docx") "2024").2 "b.docx" ≠ sampleFiles "b.docx" ∧
    ∀ zip1, (addChange (samplePlatform (sampleDocument [])) sampleFiles "a.docx" "draft"
        "insertion" "AIM" (some "b.docx") "2024").2 "b.docx" = some zip1 →
      ∀ n, n ∉ ["word/document.xml", "word/settings.xml"] → zip1 n = samplePackage n := by
  have hne : (addChange (samplePlatform (sampleDocument [])) sampleFiles "a.docx" "draft"
      "insertion" "AIM" (some "b.docx") "2024").2 "b.docx" ≠ sampleFiles "b.docx" := by
    intro h
    have := congrArg Option.isSome h
    revert this
    decide
  refine ⟨rfl, hne, fun zip1 h1 => ?_⟩
  exact (mutations_frame_parts (samplePlatform (sampleDocument [])) (fun s => s) (fun s => s)
    sampleFiles "a.docx" (some "b.docx")).2.2.2.2 _ _
    ((mutations_frame_parts (samplePlatform (sampleDocument [])) (fun s => s) (fun s => s)
      sampleFiles "a.docx" (some "b.docx")).2.2.1 "draft" "insertion" "AIM" "2024")
    "b.docx" samplePackage zip1 rfl h1 hne

/-! ## A package without document part -/

/-- C22. On a package without `word/document.xml`, `listTrackChanges`,
`addChange` and `addComment` each fail with the invalid-structure error.  The
files afterwards are those left by the copy to the output path: the source
file is as before, and every file holds what it held before or the source
package, which has gained no part and no content. -/
theorem missing_document_part (P : Platform) (toUpperCase : String → String)
    (fs : FileSystem) (docxPath text type author : String) (initials outputPath : Option String)
    (date : String) (zip : Package)
    (hfile : fs docxPath = some zip) (hpart : zip "word/document.xml" = none) :
    listTrackChanges P fs docxPath = .error .invalidStructure ∧
    addChange P fs docxPath text type author outputPath date =
      (.failed .invalidStructure, copyIfDifferent fs docxPath outputPath) ∧
    addComment P toUpperCase fs docxPath text author initials outputPath date =
      (.failed .invalidStructure, copyIfDifferent fs docxPath outputPath) ∧
    copyIfDifferent fs docxPath outputPath docxPath = fs docxPath ∧
    (∀ p, copyIfDifferent fs docxPath outputPath p = fs p ∨
      copyIfDifferent fs docxPath outputPath p = some zip) := by
  have hread : readDocumentXml (copyIfDifferent fs docxPath outputPath)
      (pathOr outputPath docxPath) = .error .invalidStructure := by
    have hsrc : (copyIfDifferent fs docxPath outputPath) (pathOr outputPath docxPath) =
        some zip := by
      cases outputPath with
      | none => simpa [copyIfDifferent, pathOr, orElse] using hfile
      | some o =>
        by_cases ho : o = ""
        · simpa [copyIfDifferent, pathOr, orElse, ho] using hfile
        · by_cases hd : o = docxPath
          · simpa [copyIfDifferent, pathOr, orElse, ho, hd] using hfile
          · simp [copyIfDifferent, pathOr, orElse, ho, hd, hfile, FileSystem.writeFile]
    rw [readDocumentXml, hsrc]
    simp only [hpart]
  refine ⟨?_, ?_, ?_, (copyIfDifferent_frame fs docxPath outputPath).1,
    copyIfDifferent_cases fs docxPath outputPath zip hfile⟩
  · rw [listTrackChanges, readDocumentXml, hfile]
    simp only [hpart]
  · rw [addChange, copyToOutput_ok fs docxPath outputPath zip hfile]
    simp only [hread]
  · rw [addComment, copyToOutput_ok fs docxPath outputPath zip hfile]
    simp only [hread]

theorem missing_document_part_witness :
    sampleNoDocumentFiles "a.docx" = some sampleNoDocumentPackage ∧
    sampleNoDocumentPackage "word/document.xml" = none ∧
    listTrackChanges (samplePlatform []) sampleNoDocumentFiles "a.docx" =
      .error .invalidStructure ∧
    (addChange (samplePlatform []) sampleNoDocumentFiles "a.docx" "draft" "insertion" "AIM"
      none "2024").1 = .failed .invalidStructure ∧
    (addComment (samplePlatform []) sampleUpper sampleNoDocumentFiles "a.docx" "note" "AIM"
      none none "2024").1 = .failed .invalidStructure :=
  ⟨rfl, rfl,
    (missing_document_part (samplePlatform []) sampleUpper sampleNoDocumentFiles "a.docx"
      "draft" "insertion" "AIM" none none "2024" sampleNoDocumentPackage rfl rfl).1,
    by decide, by decide⟩

/-! ## applyAllChanges: settings and count -/

/-- C23 (as the code has it). When `applyAllChanges` accepts the changes of a
document, the package it writes has the settings part of the source package,
or none when the source has none: the track-changes flag is enabled afterwards
exactly when it was enabled before.  The one run that writes no package is the
one whose insertion loop throws; its files are those left by the copy. -/
theorem applyAllChanges_keeps_settings (P : Platform) (toLowerCase : String → String)
    (fs : FileSystem) (docxPath : String) (zip : Package) (docXml : String)
    (outputPath filterAuthor filterType : Option String) (skipConfirmation answer : Bool)
    (hfile : fs docxPath = some zip) (hpart : zip "word/document.xml" = some docXml)
    (hne : docXml ≠ "")
    (hsome : applyFilters toLowerCase filterAuthor filterType
      (listChanges P.toISOString (parseXml P docXml)) ≠ [])
    (hgo : skipConfirmation = true ∨ answer = true) :
    ∃ n zip1,
      applyAllChanges P toLowerCase fs docxPath outputPath filterAuthor filterType
          skipConfirmation answer =
        (if insertionLoopThrows P (select "ins" (parseXml P docXml))
            { doc := parseXml P docXml, position := some } = true then
          (.failed .hierarchyRequest, copyIfDifferent fs docxPath outputPath)
        else
          (.ok n, (copyIfDifferent fs docxPath outputPath).writeFile (pathOr outputPath docxPath)
            zip1)) ∧
      zip1 "word/settings.xml" = zip "word/settings.xml" := by
  refine ⟨_, _, applyAllChanges_eq P toLowerCase fs docxPath zip docXml outputPath filterAuthor
    filterType skipConfirmation answer hfile hpart hne hsome hgo, ?_⟩
  have : ¬ "word/settings.xml" = "word/document.xml" := by decide
  simp [Package.setFile, this]

theorem applyAllChanges_keeps_settings_witness :
    sampleFiles "a.docx" = some samplePackage ∧
    samplePackage "word/document.xml" = some "<w:document/>" ∧ "<w:document/>" ≠ "" ∧
    applyFilters (fun s => s) none none
      (listChanges (samplePlatform sampleMixed).toISOString
        (parseXml (samplePlatform sampleMixed) "<w:document/>")) ≠ [] ∧
    ∃ n zip1,
      applyAllChanges (samplePlatform sampleMixed) (fun s => s) sampleFiles "a.docx" none none
          none true false =
        (if insertionLoopThrows (samplePlatform sampleMixed)
            (select "ins" (parseXml (samplePlatform sampleMixed) "<w:document/>"))
            { doc := parseXml (samplePlatform sampleMixed) "<w:document/>", position := some } =
              true then
          (.failed .hierarchyRequest, copyIfDifferent sampleFiles "a.docx" none)
        else
          (.ok n, (copyIfDifferent sampleFiles "a.docx" none).writeFile (pathOr none "a.docx")
            zip1)) ∧
      zip1 "word/settings.xml" = samplePackage "word/settings.xml" :=
  ⟨rfl, rfl, by decide, by decide,
    applyAllChanges_keeps_settings (samplePlatform sampleMixed) (fun s => s) sampleFiles "a.docx"
      samplePackage "<w:document/>" none none none true false rfl rfl (by decide) (by decide)
      (Or.inl rfl)⟩

/-- C23 (the claim at a failing input). The settings part of the sample package
does not hold the flag; `applyAllChanges` accepts the three changes of the
sample document and the package it writes has the same settings part, without
the flag. -/
theorem applyAllChanges_flag_counterexample :
    includes "<w:settings></w:settings>" "trackRevisions" = false ∧
    (applyAllChanges (samplePlatform sampleMixed) (fun s => s) sampleFiles "a.docx" none none
      none true false).1 = .ok 3 ∧
    ((applyAllChanges (samplePlatform sampleMixed) (fun s => s) sampleFiles "a.docx" none none
      none true false).2 "a.docx").map (fun zip => zip "word/settings.xml") =
        some (some "<w:settings></w:settings>") := by
  refine ⟨by decide, by decide, by decide⟩

theorem applyFilters_eq (toLowerCase : String → String) (filterAuthor filterType : Option String)
    (changes : List ChangeRecord) :
    applyFilters toLowerCase filterAuthor filterType changes =
      changes.filter (matchesFilters toLowerCase filterAuthor filterType) := by
  have hm : matchesFilters toLowerCase filterAuthor filterType = fun c =>
      (decide (orElse filterAuthor "" = "") || decide (c.author = orElse filterAuthor "")) &&
      (decide (orElse filterType "" = "") ||
        includes (toLowerCase c.type) (toLowerCase (orElse filterType ""))) := rfl
  rw [hm]
  by_cases ha : orElse filterAuthor "" = "" <;> by_cases ht : orElse filterType "" = "" <;>
    simp [applyFilters, ha, ht, List.filter_filter, Bool.and_comm]

/-- C26. When the run is not cancelled, the count `applyAllChanges` returns is
the number of records of the listing that satisfy the filters (the author
equals the author filter when one is given, the type contains the type filter,
both in lower case, when one is given); it is the number of all records when
no filter is given; and when that number is 0 the function returns 0 and the
files are as before.  The one run that returns no count is the one with a
record to apply whose insertion loop throws. -/
theorem applyAllChanges_count (P : Platform) (toLowerCase : String → String) (fs : FileSystem)
    (docxPath : String) (zip : Package) (docXml : String)
    (outputPath filterAuthor filterType : Option String) (skipConfirmation answer : Bool)
    (hfile : fs docxPath = some zip) (hpart : zip "word/document.xml" = some docXml)
    (hne : docXml ≠ "") (hgo : skipConfirmation = true ∨ answer = true) :
    listTrackChanges P fs docxPath = .ok (listChanges P.toISOString (parseXml P docXml)) ∧
    (applyAllChanges P toLowerCase fs docxPath outputPath filterAuthor filterType
      skipConfirmation answer).1 =
      (if (listChanges P.toISOString (parseXml P docXml)).countP
            (matchesFilters toLowerCase filterAuthor filterType) = 0 ∨
          insertionLoopThrows P (select "ins" (parseXml P docXml))
            { doc := parseXml P docXml, position := some } = false then
        .ok ((listChanges P.toISOString (parseXml P docXml)).countP
          (matchesFilters toLowerCase filterAuthor filterType))
      else .failed .hierarchyRequest) ∧
    (orElse filterAuthor "" = "" → orElse filterType "" = "" →
      (applyAllChanges P toLowerCase fs docxPath outputPath filterAuthor filterType
        skipConfirmation answer).1 =
        (if (listChanges P.toISOString (parseXml P docXml)).length = 0 ∨
            insertionLoopThrows P (select "ins" (parseXml P docXml))
              { doc := parseXml P docXml, position := some } = false then
          .ok (listChanges P.toISOString (parseXml P docXml)).length
        else .failed .hierarchyRequest)) ∧
    ((listChanges P.toISOString (parseXml P docXml)).countP
        (matchesFilters toLowerCase filterAuthor filterType) = 0 →
      applyAllChanges P toLowerCase fs docxPath outputPath filterAuthor filterType
        skipConfirmation answer = (.ok 0, fs)) := by
  have hlist : listTrackChanges P fs docxPath =
      .ok (listChanges P.toISOString (parseXml P docXml)) := by
    rw [listTrackChanges, readDocumentXml_ok fs docxPath zip docXml hfile hpart hne]
  have hzero : (listChanges P.toISOString (parseXml P docXml)).countP
        (matchesFilters toLowerCase filterAuthor filterType) = 0 →
      applyAllChanges P toLowerCase fs docxPath outputPath filterAuthor filterType
        skipConfirmation answer = (.ok 0, fs) := by
    intro h0
    have : (applyFilters toLowerCase filterAuthor filterType
        (listChanges P.toISOString (parseXml P docXml))).length = 0 := by
      rw [applyFilters_eq, ← List.countP_eq_length_filter, h0]
    rw [applyAllChanges, hlist]
    simp only [this, ↓reduceIte]
  have hcount : (applyAllChanges P toLowerCase fs docxPath outputPath filterAuthor filterType
      skipConfirmation answer).1 =
      (if (listChanges P.toISOString (parseXml P docXml)).countP
            (matchesFilters toLowerCase filterAuthor filterType) = 0 ∨
          insertionLoopThrows P (select "ins" (parseXml P docXml))
            { doc := parseXml P docXml, position := some } = false then
        .ok ((listChanges P.toISOString (parseXml P docXml)).countP
          (matchesFilters toLowerCase filterAuthor filterType))
      else .failed .hierarchyRequest) := by
    by_cases h0 : (listChanges P.toISOString (parseXml P docXml)).countP
        (matchesFilters toLowerCase filterAuthor filterType) = 0
    · rw [hzero h0, if_pos (Or.inl h0), h0]
    · have hsome : applyFilters toLowerCase filterAuthor filterType
          (listChanges P.toISOString (parseXml P docXml)) ≠ [] := by
        intro he
        apply h0
        rw [List.countP_eq_length_filter, ← applyFilters_eq, he]
        rfl
      rw [applyAllChanges_eq P toLowerCase fs docxPath zip docXml outputPath filterAuthor
        filterType skipConfirmation answer hfile hpart hne hsome hgo, applyFilters_eq,
        ← List.countP_eq_length_filter]
      cases hthrow : insertionLoopThrows P (select "ins" (parseXml P docXml))
          { doc := parseXml P docXml, position := some } with
      | false => simp
      | true => simp [h0]
  have hall : orElse filterAuthor "" = "" → orElse filterType "" = "" →
      (listChanges P.toISOString (parseXml P docXml)).countP
        (matchesFilters toLowerCase filterAuthor filterType) =
      (listChanges P.toISOString (parseXml P docXml)).length := by
    intro ha ht
    rw [List.countP_eq_length]
    intro c _
    simp [matchesFilters, ha, ht]
  refine ⟨hlist, hcount, ?_, hzero⟩
  intro ha ht
  rw [hcount, hall ha ht]

theorem applyAllChanges_count_witness :
    sampleFiles "a.docx" = some samplePackage ∧
    samplePackage "word/document.xml" = some "<w:document/>" ∧ "<w:document/>" ≠ "" ∧
    (listChanges (samplePlatform sampleTwoAuthors).toISOString
      (parseXml (samplePlatform sampleTwoAuthors) "<w:document/>")).countP
        (matchesFilters sampleLower (some "Alice") (some "INSERT")) = 1 ∧
    (applyAllChanges (samplePlatform sampleTwoAuthors) sampleLower sampleFiles "a.docx" none
      (some "Alice") (some "INSERT") true false).1 =
      (if (listChanges (samplePlatform sampleTwoAuthors).toISOString
            (parseXml (samplePlatform sampleTwoAuthors) "<w:document/>")).countP
              (matchesFilters sampleLower (some "Alice") (some "INSERT")) = 0 ∨
          insertionLoopThrows (samplePlatform sampleTwoAuthors)
            (select "ins" (parseXml (samplePlatform sampleTwoAuthors) "<w:document/>"))
            { doc := parseXml (samplePlatform sampleTwoAuthors) "<w:document/>",
              position := some } = false then
        .ok ((listChanges (samplePlatform sampleTwoAuthors).toISOString
          (parseXml (samplePlatform sampleTwoAuthors) "<w:document/>")).countP
            (matchesFilters sampleLower (some "Alice") (some "INSERT")))
      else .failed .hierarchyRequest) ∧
    (applyAllChanges (samplePlatform sampleTwoAuthors) sampleLower sampleFiles "a.docx" none
      (some "Alice") (some "INSERT") true false).1 = .ok 1 :=
  ⟨rfl, rfl, by decide, by decide,
    (applyAllChanges_count (samplePlatform sampleTwoAuthors) sampleLower sampleFiles "a.docx"
      samplePackage "<w:document/>" none (some "Alice") (some "INSERT") true false rfl rfl
      (by decide) (Or.inl rfl)).2.1,
    by decide⟩

/-! ## Inline formatting ranges -/

/-- C30 (the code at a failing input). For the line `*a* **b**` at base index 1
the clean text returned is `a b` with the line end, 4 characters, and the bold
request has the range 5 to 6: it ends after the end of the clean text, while
the text the bold markers enclosed, `b`, stands at 3 to 4.  For the line
`*a* **b** cd` the bold request covers `c`. -/
theorem processInlineFormatting_stale_bold_range :
    processInlineFormatting "*a* **b**\n" 1 =
      ("a b\n", [{ startIndex := 5, endIndex := 6, fields := "bold" },
        { startIndex := 1, endIndex := 2, fields := "italic" }]) ∧
    ¬ (6 ≤ 1 + ("a b\n" : String).length) ∧
    slice "a b\n" (3 - 1) (4 - 1) = "b" ∧
    processInlineFormatting "*a* **b** cd\n" 1 =
      ("a b cd\n", [{ startIndex := 5, endIndex := 6, fields := "bold" },
        { startIndex := 1, endIndex := 2, fields := "italic" }]) ∧
    slice "a b cd\n" (5 - 1) (6 - 1) = "c" := by
  refine ⟨by decide, by decide, by decide, by decide, by decide⟩

/-! ## add-comment.js on files -/

theorem addComment_eq (P : Platform) (toUpperCase : String → String) (fs : FileSystem)
    (docxPath text author : String) (initials outputPath : Option String)
    (commentDate : String) (zip : Package) (docXml : String) (result : CommentResult)
    (zip3 : Package)
    (hfile : fs docxPath = some zip) (hpart : zip "word/document.xml" = some docXml)
    (hne : docXml ≠ "")
    (hadd : addCommentToPackage P toUpperCase zip docXml text author initials commentDate =
      some (result, zip3)) :
    addComment P toUpperCase fs docxPath text author initials outputPath commentDate =
      (.ok result,
        (copyIfDifferent fs docxPath outputPath).writeFile (pathOr outputPath docxPath) zip3) := by
  simp only [addComment, copyToOutput_ok fs docxPath outputPath zip hfile,
    readDocumentXml_after_copy fs docxPath outputPath zip docXml hfile hpart hne, hadd]

/-! ## Documents whose `w:t` elements hold text only -/

theorem textOnlyT_append (a b : List Node) :
    textOnlyT (a ++ b) = (textOnlyT a && textOnlyT b) := by
  simp [textOnlyT, allNodes_append, List.all_append]

theorem textOnlyT_cons (n : Node) (rest : List Node) :
    textOnlyT (n :: rest) =
      ((!n.isW "t" || n.childNodes.all fun c => c.nodeValue.isSome) &&
        textOnlyT n.childNodes && textOnlyT rest) := by
  simp [textOnlyT, allNodes_cons, List.all_append, Bool.and_assoc]

/-! ## Positions across an edit -/

theorem nodeAt_nil (cs : List Node) : nodeAt [] cs = none := by
  cases cs <;> rfl

theorem nodeAt_cons_cons (i j : Nat) (q : NodePath) (cs : List Node) :
    nodeAt (i :: j :: q) cs =
      match cs[i]? with
      | some n => nodeAt (j :: q) n.childNodes
      | none => none := by
  rw [nodeAt]
  all_goals first | rfl | (intro h; cases h)

theorem nodeAt_head_congr (j j1 : Nat) (q : NodePath) (cs cs1 : List Node)
    (h : cs[j]? = cs1[j1]?) : nodeAt (j :: q) cs = nodeAt (j1 :: q) cs1 := by
  cases q with
  | nil => exact h
  | cons a b => rw [nodeAt_cons_cons, nodeAt_cons_cons, h]

theorem getElem?_mapChildrenAt_ne (f : List Node → List Node) (cs : List Node) :
    ∀ (i j : Nat), j ≠ i → (mapChildrenAt f i cs)[j]? = cs[j]? := by
  induction cs with
  | nil => intro i j _; cases i <;> rfl
  | cons c rest ih =>
    intro i j h
    cases i with
    | zero =>
      cases j with
      | zero => exact absurd rfl h
      | succ j => cases c <;> rfl
    | succ i =>
      cases j with
      | zero => simp [mapChildrenAt]
      | succ j =>
        rw [mapChildrenAt, List.getElem?_cons_succ, List.getElem?_cons_succ]
        exact ih i j (fun e => h (by rw [e]))

theorem getElem?_mapChildrenAt_self (f : List Node → List Node) (cs : List Node) :
    ∀ (i : Nat) (ns nm : String) (attrs : List (String × String)) (ch : List Node),
      cs[i]? = some (.elem ns nm attrs ch) →
      (mapChildrenAt f i cs)[i]? = some (.elem ns nm attrs (f ch)) := by
  induction cs with
  | nil => intro i ns nm attrs ch h; simp at h
  | cons c rest ih =>
    intro i ns nm attrs ch h
    cases i with
    | zero =>
      simp only [List.getElem?_cons_zero, Option.some.injEq] at h
      subst h
      simp [mapChildrenAt]
    | succ i =>
      rw [List.getElem?_cons_succ] at h
      rw [mapChildrenAt, List.getElem?_cons_succ]
      exact ih i ns nm attrs ch h

theorem getElem?_splice_lt (cs R : List Node) (i j : Nat) (h : j < i) (hi : i < cs.length) :
    (cs.take i ++ R ++ cs.drop (i + 1))[j]? = cs[j]? := by
  rw [List.append_assoc, List.getElem?_append_left (by simp; omega), List.getElem?_take_of_lt h]

theorem getElem?_splice_gt (cs R : List Node) (i j : Nat) (h : i < j) (hi : i < cs.length) :
    (cs.take i ++ R ++ cs.drop (i + 1))[j + R.length - 1]? = cs[j]? := by
  rw [List.getElem?_append_right (by simp; omega), List.getElem?_drop]
  congr 1
  simp
  omega

theorem relocate_nil_right (p : NodePath) (k : Nat) : relocate p k [] = some [] := by
  cases p <;> simp [relocate]

theorem relocate_cons_cons (i i1 : Nat) (p : NodePath) (k j : Nat) (q : NodePath) :
    relocate (i :: i1 :: p) k (j :: q) =
      if j = i then (relocate (i1 :: p) k q).map fun r => j :: r else some (j :: q) := by
  rw [relocate]
  all_goals first | rfl | (intro h; cases h)

theorem relocate_single (i k j : Nat) (q : NodePath) :
    relocate [i] k (j :: q) =
      if j < i then some (j :: q) else if j = i then none else some ((j + k - 1) :: q) := by
  rw [relocate]

theorem relocate_self (p : NodePath) (k : Nat) (hp : p ≠ []) : relocate p k p = none := by
  induction p with
  | nil => exact absurd rfl hp
  | cons i p ih =>
    cases p with
    | nil => simp [relocate_single]
    | cons i1 p1 =>
      rw [relocate_cons_cons, if_pos rfl, ih (by simp)]
      rfl

theorem lt_length_of_getElem? {β : Type} (l : List β) (i : Nat) (x : β) (h : l[i]? = some x) :
    i < l.length := by
  by_contra hn
  rw [List.getElem?_eq_none (by omega)] at h
  cases h

/-- Forward tracking: after the node at `p` was replaced in the child list of
its parent by `R n`, a node that stood at `q` and was relocated to `q1` stands
there, with its name. -/
theorem nodeAt_relocate (g : Nat → List Node → List Node) (R : Node → List Node)
    (hg : ∀ i cs m, cs[i]? = some m → g i cs = cs.take i ++ R m ++ cs.drop (i + 1))
    (p : NodePath) :
    ∀ (doc : List Node) (n : Node), nodeAt p doc = some n →
      ∀ (q : NodePath) (m : Node), nodeAt q doc = some m →
      ∀ q1, relocate p (R n).length q = some q1 →
        ∃ m1, nodeAt q1 (atParentOf g p doc) = some m1 ∧ ∀ k, m1.isW k = m.isW k := by
  induction p with
  | nil => intro doc n h; rw [nodeAt_nil] at h; cases h
  | cons i p ih =>
    intro doc n hn q m hm q1 hq
    cases q with
    | nil => rw [nodeAt_nil] at hm; cases hm
    | cons j q =>
      cases p with
      | nil =>
        have hi : doc[i]? = some n := hn
        have hlen := lt_length_of_getElem? _ _ _ hi
        have hdoc : atParentOf g [i] doc = doc.take i ++ R n ++ doc.drop (i + 1) := hg i doc n hi
        rw [relocate_single] at hq
        by_cases h1 : j < i
        · rw [if_pos h1] at hq
          cases hq
          refine ⟨m, ?_, fun _ => rfl⟩
          rw [← hm, hdoc]
          exact nodeAt_head_congr _ _ _ _ _ (getElem?_splice_lt doc (R n) i j h1 hlen)
        · rw [if_neg h1] at hq
          by_cases h2 : j = i
          · rw [if_pos h2] at hq; cases hq
          · rw [if_neg h2] at hq
            cases hq
            refine ⟨m, ?_, fun _ => rfl⟩
            rw [← hm, hdoc]
            exact nodeAt_head_congr _ _ _ _ _
              (getElem?_splice_gt doc (R n) i j (by omega) hlen)
      | cons i1 p1 =>
        rw [nodeAt_cons_cons] at hn
        cases hx : doc[i]? with
        | none => rw [hx] at hn; cases hn
        | some x =>
          rw [hx] at hn
          simp only at hn
          cases x with
          | text v => simp only [Node.childNodes] at hn; cases i1 <;> cases p1 <;> simp [nodeAt] at hn
          | elem ns nm attrs ch =>
            simp only [Node.childNodes] at hn
            have hdoc : atParentOf g (i :: i1 :: p1) doc =
                mapChildrenAt (atParentOf g (i1 :: p1)) i doc := by
              rw [atParentOf]
              all_goals first | rfl | (intro h; cases h)
            rw [relocate_cons_cons] at hq
            by_cases h1 : j = i
            · rw [if_pos h1] at hq
              subst h1
              cases hr : relocate (i1 :: p1) (R n).length q with
              | none => rw [hr] at hq; cases hq
              | some r =>
                rw [hr] at hq
                simp only [Option.map_some', Option.some.injEq] at hq
                subst hq
                have hself := getElem?_mapChildrenAt_self (atParentOf g (i1 :: p1)) doc j ns nm
                  attrs ch hx
                cases q with
                | nil =>
                  rw [relocate_nil_right] at hr
                  cases hr
                  have hm' : doc[j]? = some m := hm
                  rw [hx] at hm'
                  cases hm'
                  exact ⟨.elem ns nm attrs (atParentOf g (i1 :: p1) ch),
                    by rw [hdoc]; exact hself, fun _ => rfl⟩
                | cons j1 q2 =>
                  rw [nodeAt_cons_cons, hx] at hm
                  simp only [Node.childNodes] at hm
                  obtain ⟨m1, hm1, htag⟩ := ih ch n hn (j1 :: q2) m hm r hr
                  refine ⟨m1, ?_, htag⟩
                  cases r with
                  | nil => rw [nodeAt_nil] at hm1; cases hm1
                  | cons r0 r1 =>
                    rw [hdoc, nodeAt_cons_cons, hself]
                    exact hm1
            · rw [if_neg h1] at hq
              cases hq
              refine ⟨m, ?_, fun _ => rfl⟩
              rw [← hm, hdoc]
              exact nodeAt_head_congr _ _ _ _ _ (getElem?_mapChildrenAt_ne _ doc i j h1)

/-- Backward tracking: a node of the document after the node at `p` was removed
stood at a position that is relocated to its place, with its name. -/
theorem nodeAt_of_removed (p : NodePath) :
    ∀ (doc : List Node) (n : Node), nodeAt p doc = some n →
      ∀ (q1 : NodePath) (m1 : Node), nodeAt q1 (atParentOf removeChild p doc) = some m1 →
        ∃ q m, nodeAt q doc = some m ∧ relocate p 0 q = some q1 ∧ ∀ k, m.isW k = m1.isW k := by
  induction p with
  | nil => intro doc n h; rw [nodeAt_nil] at h; cases h
  | cons i p ih =>
    intro doc n hn q1 m1 hm1
    cases q1 with
    | nil => rw [nodeAt_nil] at hm1; cases hm1
    | cons j q1 =>
      cases p with
      | nil =>
        have hi : doc[i]? = some n := hn
        have hlen := lt_length_of_getElem? _ _ _ hi
        have hdoc : atParentOf removeChild [i] doc = doc.take i ++ [] ++ doc.drop (i + 1) := by
          simp [atParentOf, removeChild]
        by_cases h1 : j < i
        · refine ⟨j :: q1, m1, ?_, by rw [relocate_single, if_pos h1], fun _ => rfl⟩
          rw [← hm1, hdoc]
          exact (nodeAt_head_congr _ _ _ _ _ (getElem?_splice_lt doc [] i j h1 hlen)).symm
        · refine ⟨(j + 1) :: q1, m1, ?_, ?_, fun _ => rfl⟩
          · rw [← hm1, hdoc]
            have := getElem?_splice_gt doc [] i (j + 1) (by omega) hlen
            simp only [List.length_nil, Nat.add_zero, Nat.add_sub_cancel] at this
            exact (nodeAt_head_congr _ _ _ _ _ this).symm
          · rw [relocate_single, if_neg (by omega), if_neg (by omega)]
            simp
      | cons i1 p1 =>
        rw [nodeAt_cons_cons] at hn
        cases hx : doc[i]? with
        | none => rw [hx] at hn; cases hn
        | some x =>
          rw [hx] at hn
          simp only at hn
          cases x with
          | text v => simp only [Node.childNodes] at hn; cases i1 <;> cases p1 <;> simp [nodeAt] at hn
          | elem ns nm attrs ch =>
            simp only [Node.childNodes] at hn
            have hdoc : atParentOf removeChild (i :: i1 :: p1) doc =
                mapChildrenAt (atParentOf removeChild (i1 :: p1)) i doc := by
              rw [atParentOf]
              all_goals first | rfl | (intro h; cases h)
            have hself := getElem?_mapChildrenAt_self (atParentOf removeChild (i1 :: p1)) doc i
              ns nm attrs ch hx
            by_cases h1 : j = i
            · subst h1
              cases q1 with
              | nil =>
                refine ⟨[j], .elem ns nm attrs ch, hx, ?_, ?_⟩
                · rw [relocate_cons_cons, if_pos rfl, relocate_nil_right]; rfl
                · have : (mapChildrenAt (atParentOf removeChild (i1 :: p1)) j doc)[j]? =
                      some m1 := by rw [← hdoc]; exact hm1
                  rw [hself] at this
                  cases this
                  exact fun _ => rfl
              | cons j1 q2 =>
                rw [hdoc, nodeAt_cons_cons, hself] at hm1
                simp only [Node.childNodes] at hm1
                obtain ⟨q0, m, hm, hrel, htag⟩ := ih ch n hn (j1 :: q2) m1 hm1
                cases q0 with
                | nil => rw [nodeAt_nil] at hm; cases hm
                | cons a b =>
                  refine ⟨j :: a :: b, m, ?_, ?_, htag⟩
                  · rw [nodeAt_cons_cons, hx]; exact hm
                  · rw [relocate_cons_cons, if_pos rfl, hrel]; rfl
            · refine ⟨j :: q1, m1, ?_, by rw [relocate_cons_cons, if_neg h1], fun _ => rfl⟩
              rw [← hm1, hdoc]
              exact (nodeAt_head_congr _ _ _ _ _ (getElem?_mapChildrenAt_ne _ doc i j h1)).symm
theorem nodeAt_cons_of_ne (i : Nat) (q : NodePath) (cs : List Node) (hq : q ≠ []) :
    nodeAt (i :: q) cs =
      match cs[i]? with
      | some n => nodeAt q n.childNodes
      | none => none := by
  cases q with
  | nil => exact absurd rfl hq
  | cons a b => exact nodeAt_cons_cons i a b cs

theorem nodeAt_plug (ctx : List Frame) (pre : List Node) (n : Node) (post : List Node) :
    nodeAt (holePath ctx ++ [pre.length]) (plug ctx (pre ++ n :: post)) = some n := by
  induction ctx with
  | nil =>
    show (pre ++ n :: post)[pre.length]? = some n
    rw [List.getElem?_append_right (Nat.le_refl _)]
    simp
  | cons f ctx ih =>
    have hne : holePath ctx ++ [pre.length] ≠ [] := by simp
    have hp : holePath (f :: ctx) ++ [pre.length] =
        f.before.length :: (holePath ctx ++ [pre.length]) := by simp [holePath]
    rw [hp, nodeAt_cons_of_ne _ _ _ hne]
    simp only [plug, List.getElem?_append_right (Nat.le_refl _), Nat.sub_self,
      List.getElem?_cons_zero, Node.childNodes]
    exact ih

theorem nodeAt_of_mem (doc : List Node) (p : NodePath) (n : Node)
    (h : (p, n) ∈ nodesFrom 0 doc) : nodeAt p doc = some n := by
  obtain ⟨ctx, pre, post, hdoc, hp⟩ := exists_plug_of_mem doc p n h
  rw [hp, hdoc]
  exact nodeAt_plug ctx pre n post

theorem mem_nodesFrom_of_getElem (cs : List Node) :
    ∀ (i k : Nat) (x : Node), cs[i]? = some x →
      ([k + i], x) ∈ nodesFrom k cs ∧
      ∀ q n, (q, n) ∈ nodesBelow x → ((k + i) :: q, n) ∈ nodesFrom k cs := by
  induction cs with
  | nil => intro i k x h; simp at h
  | cons c rest ih =>
    intro i k x h
    cases i with
    | zero =>
      simp only [List.getElem?_cons_zero, Option.some.injEq] at h
      subst h
      constructor
      · simp [nodesFrom]
      · intro q n hq
        simp only [nodesFrom, Nat.add_zero, List.cons_append, List.mem_cons, List.mem_append,
          List.mem_map]
        exact Or.inr (Or.inl ⟨(q, n), hq, rfl⟩)
    | succ i =>
      rw [List.getElem?_cons_succ] at h
      obtain ⟨h1, h2⟩ := ih i (k + 1) x h
      have he : k + (i + 1) = k + 1 + i := by omega
      constructor
      · rw [he, nodesFrom]
        exact List.mem_append_right _ h1
      · intro q n hq
        rw [he, nodesFrom]
        exact List.mem_append_right _ (h2 q n hq)

theorem mem_of_nodeAt (p : NodePath) :
    ∀ (doc : List Node) (n : Node), nodeAt p doc = some n → (p, n) ∈ nodesFrom 0 doc := by
  induction p with
  | nil => intro doc n h; rw [nodeAt_nil] at h; cases h
  | cons i p ih =>
    intro doc n h
    cases p with
    | nil =>
      have := (mem_nodesFrom_of_getElem doc i 0 n h).1
      simpa using this
    | cons i1 p1 =>
      rw [nodeAt_cons_cons] at h
      cases hx : doc[i]? with
      | none => rw [hx] at h; cases h
      | some x =>
        rw [hx] at h
        simp only at h
        have hb : (i1 :: p1, n) ∈ nodesBelow x := by
          cases x with
          | text v =>
            simp only [Node.childNodes] at h
            cases p1 <;> simp [nodeAt] at h
          | elem ns nm attrs ch => exact ih ch n h
        have := (mem_nodesFrom_of_getElem doc i 0 x hx).2 _ _ hb
        simpa using this

theorem plug_of_nodeAt (doc : List Node) (p : NodePath) (n : Node) (h : nodeAt p doc = some n) :
    ∃ ctx pre post, doc = plug ctx (pre ++ n :: post) ∧ p = holePath ctx ++ [pre.length] :=
  exists_plug_of_mem doc p n (mem_of_nodeAt p doc n h)

theorem split_of_getElem? {β : Type} (l : List β) :
    ∀ (i : Nat) (x : β), l[i]? = some x →
      ∃ pre post, l = pre ++ x :: post ∧ pre.length = i := by
  induction l with
  | nil => intro i x h; simp at h
  | cons a l ih =>
    intro i x h
    cases i with
    | zero =>
      simp only [List.getElem?_cons_zero, Option.some.injEq] at h
      exact ⟨[], l, by simp [h], rfl⟩
    | succ i =>
      rw [List.getElem?_cons_succ] at h
      obtain ⟨pre, post, h1, h2⟩ := ih i x h
      exact ⟨a :: pre, post, by simp [h1], by simp [h2]⟩

theorem acceptInsertion_splice (i : Nat) (cs : List Node) (m : Node) (h : cs[i]? = some m) :
    acceptInsertion i cs = cs.take i ++ m.childNodes ++ cs.drop (i + 1) := by
  obtain ⟨pre, post, hcs, hlen⟩ := split_of_getElem? cs i m h
  subst hcs
  subst hlen
  have hd : (pre ++ m :: post).drop (pre.length + 1) = post := by
    rw [show pre ++ m :: post = (pre ++ [m]) ++ post by simp]
    exact List.drop_left' (by simp)
  rw [acceptInsertion_append, List.take_left, hd]

theorem removeChild_splice (i : Nat) (cs : List Node) (m : Node) (_h : cs[i]? = some m) :
    removeChild i cs = cs.take i ++ (fun _ : Node => ([] : List Node)) m ++ cs.drop (i + 1) := by
  simp [removeChild]

/-! ## The loops of apply-all-changes -/

theorem fold_acceptInsertionStep (Pr : List Node → Prop)
    (hstep : ∀ ctx pre w post, w.isW "ins" = true → Pr (plug ctx (pre ++ w :: post)) →
      Pr (plug ctx (pre ++ w.childNodes ++ post))) :
    ∀ (rest : List (NodePath × Node)) (st : Live), Pr st.doc →
      (∀ e ∈ rest, ∀ p, st.position e.1 = some p →
        ∃ n, nodeAt p st.doc = some n ∧ n.isW "ins" = true) →
      Pr (rest.foldl acceptInsertionStep st).doc := by
  intro rest
  induction rest with
  | nil => intro st h _; exact h
  | cons e rest ih =>
    intro st hPr hInv
    rw [List.foldl_cons]
    cases hpos : st.position e.1 with
    | none =>
      have hst : acceptInsertionStep st e = st := by rw [acceptInsertionStep, hpos]
      rw [hst]
      exact ih st hPr (fun e1 he1 => hInv e1 (List.mem_cons_of_mem _ he1))
    | some p =>
      obtain ⟨n, hn, hw⟩ := hInv e (List.mem_cons_self _ _) p hpos
      obtain ⟨ctx, pre, post, hdoc, hp⟩ := plug_of_nodeAt st.doc p n hn
      have hst : acceptInsertionStep st e =
          { doc := atParentOf acceptInsertion p st.doc
            position := fun q => (st.position q).bind (relocate p n.childNodes.length) } := by
        rw [acceptInsertionStep, hpos]
        simp only [hn]
      rw [hst]
      apply ih
      · show Pr (atParentOf acceptInsertion p st.doc)
        rw [hp]
        conv => arg 1; arg 3; rw [hdoc]
        rw [atParentOf_plug, acceptInsertion_append]
        exact hstep ctx pre n post hw (hdoc ▸ hPr)
      · intro e1 he1 p1 hp1
        simp only [Option.bind_eq_some] at hp1
        obtain ⟨p0, hp0, hrel⟩ := hp1
        obtain ⟨n0, hn0, hw0⟩ := hInv e1 (List.mem_cons_of_mem _ he1) p0 hp0
        obtain ⟨m1, hm1, htag⟩ := nodeAt_relocate acceptInsertion (fun m => m.childNodes)
          acceptInsertion_splice p st.doc n hn p0 n0 hn0 p1 hrel
        exact ⟨m1, hm1, by rw [htag]; exact hw0⟩

theorem fold_removeStep (name : String) (Pr : List Node → Prop)
    (hstep : ∀ ctx pre w post, w.isW name = true → Pr (plug ctx (pre ++ w :: post)) →
      Pr (plug ctx (pre ++ post))) :
    ∀ (rest : List (NodePath × Node)) (st : Live), Pr st.doc →
      (∀ e ∈ rest, ∀ p, st.position e.1 = some p →
        ∃ n, nodeAt p st.doc = some n ∧ n.isW name = true) →
      (∀ p n, nodeAt p st.doc = some n → n.isW name = true →
        ∃ e ∈ rest, st.position e.1 = some p) →
      Pr (rest.foldl removeStep st).doc ∧
      ∀ p n, nodeAt p (rest.foldl removeStep st).doc = some n → n.isW name = false := by
  intro rest
  induction rest with
  | nil =>
    intro st h _ hJ
    refine ⟨h, fun p n hn => ?_⟩
    by_contra hw
    obtain ⟨e, he, _⟩ := hJ p n hn (by simpa using hw)
    cases he
  | cons e rest ih =>
    intro st hPr hInv hJ
    rw [List.foldl_cons]
    cases hpos : st.position e.1 with
    | none =>
      have hst : removeStep st e = st := by rw [removeStep, hpos]
      rw [hst]
      refine ih st hPr (fun e1 he1 => hInv e1 (List.mem_cons_of_mem _ he1)) ?_
      intro p n hn hw
      obtain ⟨e1, he1, hp1⟩ := hJ p n hn hw
      rcases List.mem_cons.1 he1 with h | h
      · subst h; rw [hpos] at hp1; cases hp1
      · exact ⟨e1, h, hp1⟩
    | some p =>
      obtain ⟨n, hn, hw⟩ := hInv e (List.mem_cons_self _ _) p hpos
      obtain ⟨ctx, pre, post, hdoc, hp⟩ := plug_of_nodeAt st.doc p n hn
      have hst : removeStep st e =
          { doc := atParentOf removeChild p st.doc
            position := fun q => (st.position q).bind (relocate p 0) } := by
        rw [removeStep, hpos]
      have hpne : p ≠ [] := by
        intro h0; rw [h0, nodeAt_nil] at hn; cases hn
      rw [hst]
      apply ih
      · show Pr (atParentOf removeChild p st.doc)
        rw [hp]
        conv => arg 1; arg 3; rw [hdoc]
        rw [atParentOf_plug, removeChild_append]
        exact hstep ctx pre n post hw (hdoc ▸ hPr)
      · intro e1 he1 p1 hp1
        simp only [Option.bind_eq_some] at hp1
        obtain ⟨p0, hp0, hrel⟩ := hp1
        obtain ⟨n0, hn0, hw0⟩ := hInv e1 (List.mem_cons_of_mem _ he1) p0 hp0
        obtain ⟨m1, hm1, htag⟩ := nodeAt_relocate removeChild (fun _ => [])
          removeChild_splice p st.doc n hn p0 n0 hn0 p1 hrel
        exact ⟨m1, hm1, by rw [htag]; exact hw0⟩
      · intro p1 n1 hn1 hw1
        obtain ⟨p0, n0, hn0, hrel, htag⟩ := nodeAt_of_removed p st.doc n hn p1 n1 hn1
        obtain ⟨e1, he1, hp0⟩ := hJ p0 n0 hn0 (by rw [htag]; exact hw1)
        rcases List.mem_cons.1 he1 with h | h
        · subst h
          rw [hpos] at hp0
          cases hp0
          rw [relocate_self p 0 hpne] at hrel
          cases hrel
        · exact ⟨e1, h, by simp only [hp0, Option.some_bind]; exact hrel⟩

theorem forEachSelected_insertion (Pr : List Node → Prop)
    (hstep : ∀ ctx pre w post, w.isW "ins" = true → Pr (plug ctx (pre ++ w :: post)) →
      Pr (plug ctx (pre ++ w.childNodes ++ post)))
    (doc : List Node) (h : Pr doc) : Pr (forEachSelected "ins" acceptInsertionStep doc) := by
  rw [forEachSelected]
  apply fold_acceptInsertionStep Pr hstep _ _ h
  intro e he p hp
  cases hp
  rw [select, List.mem_filter] at he
  exact ⟨e.2, nodeAt_of_mem doc e.1 e.2 he.1, he.2⟩

theorem forEachSelected_removal (name : String) (Pr : List Node → Prop)
    (hstep : ∀ ctx pre w post, w.isW name = true → Pr (plug ctx (pre ++ w :: post)) →
      Pr (plug ctx (pre ++ post)))
    (doc : List Node) (h : Pr doc) :
    Pr (forEachSelected name removeStep doc) ∧
    (allNodes (forEachSelected name removeStep doc)).countP (fun n => n.isW name) = 0 := by
  rw [forEachSelected]
  have := fold_removeStep name Pr hstep (select name doc) { doc := doc, position := some } h
    (by
      intro e he p hp
      cases hp
      rw [select, List.mem_filter] at he
      exact ⟨e.2, nodeAt_of_mem doc e.1 e.2 he.1, he.2⟩)
    (by
      intro p n hn hw
      refine ⟨(p, n), ?_, rfl⟩
      rw [select, List.mem_filter]
      exact ⟨mem_of_nodeAt p doc n hn, hw⟩)
  refine ⟨this.1, ?_⟩
  rw [List.countP_eq_zero]
  intro n hn
  rw [allNodes, List.mem_map] at hn
  obtain ⟨q, hq, hqn⟩ := hn
  have := this.2 q.1 n (nodeAt_of_mem _ q.1 n (by rw [← hqn]; exact hq))
  simp [this]
/-! ## Visible text -/

theorem visibleT_append (a b : List Node) : visibleT (a ++ b) = visibleT a ++ visibleT b := by
  induction a with
  | nil => simp [visibleT]
  | cons x a ih => simp [visibleT, ih]

theorem plug_has_element (ctx : List Frame) (X : List Node)
    (hX : ∃ n ∈ X, n.nodeValue = none) : ∃ n ∈ plug ctx X, n.nodeValue = none := by
  cases ctx with
  | nil => exact hX
  | cons f rest => exact ⟨.elem f.ns f.name f.attrs (plug rest X), by simp [plug], rfl⟩

theorem frames_not_t (ctx : List Frame) (X : List Node)
    (h : textOnlyT (plug ctx X) = true) (hX : ∃ n ∈ X, n.nodeValue = none) :
    ∀ f ∈ ctx, f.isT = false := by
  induction ctx with
  | nil => intro f hf; cases hf
  | cons g rest ih =>
    simp only [plug, textOnlyT_append, textOnlyT_cons, Node.childNodes, Bool.and_eq_true,
      Bool.or_eq_true, Bool.not_eq_true'] at h
    obtain ⟨_, ⟨hE, hin⟩, _⟩ := h
    intro f hf
    rcases List.mem_cons.1 hf with h1 | h1
    · subst h1
      rcases hE with hE | hE
      · exact hE
      · exfalso
        obtain ⟨n, hn, hv⟩ := plug_has_element rest X hX
        have := List.all_eq_true.1 hE n hn
        rw [hv] at this
        cases this
    · exact ih hin f h1

theorem visibleT_plug_congr (ctx : List Frame) (X Y : List Node)
    (hf : ∀ f ∈ ctx, f.isT = false) (h : visibleT X = visibleT Y) :
    visibleT (plug ctx X) = visibleT (plug ctx Y) := by
  induction ctx with
  | nil => exact h
  | cons g rest ih =>
    have hg : (g.ns == NS_W && g.name == "t") = false := hf g (List.mem_cons_self _ _)
    have ih1 := ih (fun f h1 => hf f (List.mem_cons_of_mem _ h1))
    simp only [plug, visibleT_append, visibleT, visibleTNode, hg, ih1, Bool.false_eq_true,
      ↓reduceIte]

theorem textOnlyT_plug_congr (ctx : List Frame) (X Y : List Node)
    (hf : ∀ f ∈ ctx, f.isT = false) (h : textOnlyT X = true → textOnlyT Y = true) :
    textOnlyT (plug ctx X) = true → textOnlyT (plug ctx Y) = true := by
  induction ctx with
  | nil => exact h
  | cons g rest ih =>
    have hg : Node.isW "t" (.elem g.ns g.name g.attrs (plug rest X)) = false :=
      hf g (List.mem_cons_self _ _)
    have hg2 : Node.isW "t" (.elem g.ns g.name g.attrs (plug rest Y)) = false :=
      hf g (List.mem_cons_self _ _)
    have ih1 := ih (fun f h1 => hf f (List.mem_cons_of_mem _ h1))
    simp only [plug, textOnlyT_append, textOnlyT_cons, Node.childNodes, hg, hg2, Bool.not_false,
      Bool.true_or, Bool.true_and, Bool.and_eq_true]
    exact fun ⟨a, b, c⟩ => ⟨a, ih1 b, c⟩

theorem countP_plug_zero (k : String) (ctx : List Frame) (X Y : List Node)
    (h : (allNodes Y).countP (fun n => n.isW k) ≤ (allNodes X).countP (fun n => n.isW k))
    (h0 : (allNodes (plug ctx X)).countP (fun n => n.isW k) = 0) :
    (allNodes (plug ctx Y)).countP (fun n => n.isW k) = 0 := by
  obtain ⟨K, hK⟩ := countP_allNodes_plug (fun n => n.isW k) (fun _ _ _ _ _ => rfl) ctx
  rw [hK] at h0 ⊢
  omega

mutual
theorem visibleTNode_eq_filter (n : Node)
    (h : isHidden n = false ∧ ∀ x ∈ allNodes n.childNodes, isHidden x = false) :
    visibleTNode n = (n :: allNodes n.childNodes).filter fun x => x.isW "t" := by
  cases n with
  | text v => simp [visibleTNode, Node.childNodes, allNodes_nil, Node.isW]
  | elem ns nm attrs cs =>
    have hh : isHidden (.elem ns nm attrs []) = false := h.1
    have ht : Node.isW "t" (.elem ns nm attrs cs) = (ns == NS_W && nm == "t") := rfl
    rw [visibleTNode, hh, visibleT_eq_filter cs h.2]
    simp only [Bool.false_eq_true, ↓reduceIte, Node.childNodes, List.filter_cons, ht]
    split <;> simp
theorem visibleT_eq_filter (cs : List Node) (h : ∀ x ∈ allNodes cs, isHidden x = false) :
    visibleT cs = (allNodes cs).filter fun x => x.isW "t" := by
  cases cs with
  | nil => rfl
  | cons c rest =>
    have hc : isHidden c = false := h c (by rw [allNodes_cons]; exact List.mem_cons_self _ _)
    have h1 : ∀ x ∈ allNodes c.childNodes, isHidden x = false := fun x hx =>
      h x (by rw [allNodes_cons]; exact List.mem_cons_of_mem _ (List.mem_append_left _ hx))
    have h2 : ∀ x ∈ allNodes rest, isHidden x = false := fun x hx =>
      h x (by rw [allNodes_cons]; exact List.mem_cons_of_mem _ (List.mem_append_right _ hx))
    rw [visibleT, visibleTNode_eq_filter c ⟨hc, h1⟩, visibleT_eq_filter rest h2, allNodes_cons]
    show _ = List.filter _ ((c :: allNodes c.childNodes) ++ allNodes rest)
    rw [List.filter_append]
end

theorem visible_step (doc : List Node) (ctx : List Frame) (pre post Y : List Node) (w : Node)
    (hw : w.nodeValue = none)
    (hv : visibleT Y = visibleT (pre ++ w :: post))
    (ht : textOnlyT (pre ++ w :: post) = true → textOnlyT Y = true)
    (h : visibleT (plug ctx (pre ++ w :: post)) = visibleT doc ∧
      textOnlyT (plug ctx (pre ++ w :: post)) = true) :
    visibleT (plug ctx Y) = visibleT doc ∧ textOnlyT (plug ctx Y) = true := by
  have hf := frames_not_t ctx (pre ++ w :: post) h.2 ⟨w, by simp, hw⟩
  exact ⟨(visibleT_plug_congr ctx _ _ hf hv).trans h.1,
    textOnlyT_plug_congr ctx _ _ hf ht h.2⟩

theorem visible_step_insertion (doc : List Node) (ctx : List Frame) (pre post : List Node)
    (w : Node) (hw : w.isW "ins" = true)
    (h : visibleT (plug ctx (pre ++ w :: post)) = visibleT doc ∧
      textOnlyT (plug ctx (pre ++ w :: post)) = true) :
    visibleT (plug ctx (pre ++ w.childNodes ++ post)) = visibleT doc ∧
      textOnlyT (plug ctx (pre ++ w.childNodes ++ post)) = true := by
  cases w with
  | text v => cases hw
  | elem ns nm attrs ch =>
    have n1 : ("ins" : String) ≠ "t" := by decide
    have n2 : ("ins" : String) ≠ "del" := by decide
    have n3 : ("ins" : String) ≠ "rPrChange" := by decide
    have n4 : ("ins" : String) ≠ "pPrChange" := by decide
    have ht : (ns == NS_W && nm == "t") = false := isW_ne n1 _ hw
    have hh : isHidden (.elem ns nm attrs []) = false := by
      have a := isW_ne n2 _ hw
      have b := isW_ne n3 _ hw
      have c := isW_ne n4 _ hw
      simp only [isHidden, Bool.or_eq_false_iff]
      exact ⟨⟨a, b⟩, c⟩
    refine visible_step doc ctx pre post (pre ++ ch ++ post) (.elem ns nm attrs ch) rfl ?_ ?_ h
    · simp only [visibleT_append, visibleT, visibleTNode, hh, ht, Node.childNodes,
        Bool.false_eq_true, ↓reduceIte, List.nil_append, List.append_assoc]
    · simp only [textOnlyT_append, textOnlyT_cons, Node.childNodes, Bool.and_eq_true]
      exact fun ⟨a, ⟨_, b⟩, c⟩ => ⟨⟨a, b⟩, c⟩

theorem visible_step_removal (name : String)
    (hname : name = "del" ∨ name = "rPrChange" ∨ name = "pPrChange")
    (doc : List Node) (ctx : List Frame) (pre post : List Node)
    (w : Node) (hw : w.isW name = true)
    (h : visibleT (plug ctx (pre ++ w :: post)) = visibleT doc ∧
      textOnlyT (plug ctx (pre ++ w :: post)) = true) :
    visibleT (plug ctx (pre ++ post)) = visibleT doc ∧
      textOnlyT (plug ctx (pre ++ post)) = true := by
  cases w with
  | text v => cases hw
  | elem ns nm attrs ch =>
    have hh : isHidden (.elem ns nm attrs []) = true := by
      have hw1 : Node.isW name (.elem ns nm attrs []) = true := hw
      simp only [isHidden, Bool.or_eq_true]
      rcases hname with h | h | h <;> subst h
      · exact Or.inl (Or.inl hw1)
      · exact Or.inl (Or.inr hw1)
      · exact Or.inr hw1
    refine visible_step doc ctx pre post (pre ++ post) (.elem ns nm attrs ch) rfl ?_ ?_ h
    · simp only [visibleT_append, visibleT, visibleTNode, hh, ↓reduceIte, List.nil_append]
    · simp only [textOnlyT_append, textOnlyT_cons, Node.childNodes, Bool.and_eq_true]
      exact fun ⟨a, _, c⟩ => ⟨a, c⟩

theorem countP_removal_le (k : String) (pre post : List Node) (w : Node) :
    (allNodes (pre ++ post)).countP (fun n => n.isW k) ≤
      (allNodes (pre ++ w :: post)).countP (fun n => n.isW k) := by
  simp only [allNodes_append, allNodes_cons, List.countP_append, List.countP_cons]
  omega

/-- The `w:t` elements of the document `applyAllChanges` writes are the `w:t`
elements of the document read that are not inside a `w:del`, `w:rPrChange` or
`w:pPrChange` element, when every `w:t` element holds text only. -/
theorem acceptAllInDoc_visible (doc : List Node) (hT : textOnlyT doc = true) :
    (allNodes (acceptAllInDoc doc)).filter (fun n => n.isW "t") = visibleT doc := by
  have h1 := forEachSelected_insertion
    (fun d => visibleT d = visibleT doc ∧ textOnlyT d = true)
    (fun ctx pre w post hw h => visible_step_insertion doc ctx pre post w hw h) doc ⟨rfl, hT⟩
  obtain ⟨h2, c2⟩ := forEachSelected_removal "del"
    (fun d => visibleT d = visibleT doc ∧ textOnlyT d = true)
    (fun ctx pre w post hw h => visible_step_removal "del" (Or.inl rfl) doc ctx pre post w hw h)
    _ h1
  obtain ⟨⟨h3, d3⟩, c3⟩ := forEachSelected_removal "rPrChange"
    (fun d => (visibleT d = visibleT doc ∧ textOnlyT d = true) ∧
      (allNodes d).countP (fun n => n.isW "del") = 0)
    (fun ctx pre w post hw h =>
      ⟨visible_step_removal "rPrChange" (Or.inr (Or.inl rfl)) doc ctx pre post w hw h.1,
        countP_plug_zero "del" ctx _ _ (countP_removal_le "del" pre post w) h.2⟩)
    _ ⟨h2, c2⟩
  obtain ⟨⟨h4, d4, e4⟩, c4⟩ := forEachSelected_removal "pPrChange"
    (fun d => (visibleT d = visibleT doc ∧ textOnlyT d = true) ∧
      (allNodes d).countP (fun n => n.isW "del") = 0 ∧
      (allNodes d).countP (fun n => n.isW "rPrChange") = 0)
    (fun ctx pre w post hw h =>
      ⟨visible_step_removal "pPrChange" (Or.inr (Or.inr rfl)) doc ctx pre post w hw h.1,
        countP_plug_zero "del" ctx _ _ (countP_removal_le "del" pre post w) h.2.1,
        countP_plug_zero "rPrChange" ctx _ _ (countP_removal_le "rPrChange" pre post w) h.2.2⟩)
    _ ⟨h3, d3, c3⟩
  rw [← h4.1]
  symm
  apply visibleT_eq_filter
  intro x hx
  rw [List.countP_eq_zero] at d4 e4 c4
  have a := d4 x hx
  have b := e4 x hx
  have c := c4 x hx
  simp only [Bool.not_eq_true] at a b c
  simp [isHidden, a, b, c]

/-! ## The error of `insertBefore` on the `Document` node -/

theorem relocate_length (p : NodePath) (k : Nat) :
    ∀ (q r : NodePath), relocate p k q = some r → r.length = q.length := by
  induction p with
  | nil =>
    intro q r h
    simp only [relocate, Option.some.injEq] at h
    rw [← h]
  | cons i p ih =>
    intro q r h
    cases q with
    | nil =>
      rw [relocate_nil_right] at h
      cases h; rfl
    | cons j q =>
      cases p with
      | nil =>
        rw [relocate_single] at h
        split at h
        · cases h; rfl
        · split at h
          · cases h
          · cases h; rfl
      | cons i1 p1 =>
        rw [relocate_cons_cons] at h
        split at h
        · simp only [Option.map_eq_some'] at h
          obtain ⟨r1, hr1, hr⟩ := h
          rw [← hr]
          simp [ih q r1 hr1]
        · cases h; rfl

theorem insertionLoopThrows_of_deep (P : Platform) :
    ∀ (es : List (NodePath × Node)) (st : Live), (∀ e ∈ es, e.1.length ≠ 1) →
      (∀ q p, st.position q = some p → p.length = q.length) →
      insertionLoopThrows P es st = false := by
  intro es
  induction es with
  | nil => intro st _ _; rfl
  | cons e rest ih =>
    intro st hes hst
    rw [insertionLoopThrows, Bool.or_eq_false_iff]
    constructor
    · cases hpos : st.position e.1 with
      | none => rfl
      | some p =>
        have hl := hst _ _ hpos
        have hne := hes e (List.mem_cons_self _ _)
        simp only [insertBeforeThrows, Bool.and_eq_false_imp, beq_iff_eq]
        intro h
        omega
    · apply ih
      · exact fun e1 he1 => hes e1 (List.mem_cons_of_mem _ he1)
      · intro q p hq
        rw [acceptInsertionStep] at hq
        cases hpos : st.position e.1 with
        | none =>
          rw [hpos] at hq
          exact hst q p hq
        | some p0 =>
          rw [hpos] at hq
          simp only [Option.bind_eq_some] at hq
          obtain ⟨p1, hp1, hrel⟩ := hq
          rw [relocate_length _ _ _ _ hrel]
          exact hst q p1 hp1

theorem length_ne_one_of_select (name : String) (doc : List Node)
    (h : ∀ n ∈ doc, n.isW name = false) : ∀ e ∈ select name doc, e.1.length ≠ 1 := by
  intro e he
  rw [select, List.mem_filter] at he
  obtain ⟨pre, m, post, q, hcs, hp, hq⟩ := mem_nodesFrom_cases 0 doc e.1 e.2 he.1
  rcases hq with ⟨_, hn⟩ | hq
  · have := h m (by rw [hcs]; simp)
    rw [hn, this] at he
    exact absurd he.2 (by simp)
  · rw [hp]
    cases m with
    | text v => simp [nodesBelow] at hq
    | elem ns nm attrs cs =>
      rw [nodesBelow] at hq
      obtain ⟨_, _, _, q1, _, hq1, _⟩ := mem_nodesFrom_cases 0 cs q e.2 hq
      rw [hq1]
      simp

theorem insertionLoopThrows_of_no_root (P : Platform) (doc : List Node)
    (h : ∀ n ∈ doc, n.isW "ins" = false) :
    insertionLoopThrows P (select "ins" doc) { doc := doc, position := some } = false :=
  insertionLoopThrows_of_deep P _ _ (length_ne_one_of_select "ins" doc h)
    (fun q p hq => by cases hq; rfl)

/-- C3 (the claim at a failing input). The sample document whose root element
is a `w:ins` holding a run lists one Insertion with the text `Hello`;
`applyChange` for its id ends with the error `insertBefore` throws on the
`Document` node, and the files are as before: the wrapper is not replaced by
its children. -/
theorem applyChange_root_counterexample :
    listChanges (fun _ => none) sampleRootInsertion =
      [{ id := 1, type := "Insertion", author := "A", date := none, text := "Hello",
         status := "Pending", element := "ins" }] ∧
    applyChange (samplePlatform sampleRootInsertion) sampleFiles "a.docx" (.num 1) none true
      false = (.failed .hierarchyRequest, sampleFiles) :=
  ⟨by decide, rfl⟩

/-! ## Visible text after accepting all changes -/

/-- C27 (as the code has it). Let every `w:t` element of the document hold text
only, and let the document list at least one change.  Unless its insertion
loop throws, which it does not when no `w:ins` is a child of the `Document`
node, `applyAllChanges` (without filters, once confirmed) writes the document
whose `w:t` elements are, in document order and each with its content, the
`w:t` elements of the document read that are not inside a `w:del`,
`w:rPrChange` or `w:pPrChange` element; so the concatenation of their text is
the same.  Inserted text is neither lost nor moved. -/
theorem applyAllChanges_keeps_visible_text (P : Platform) (toLowerCase : String → String)
    (fs : FileSystem) (docxPath : String) (zip : Package) (docXml : String)
    (outputPath : Option String) (skipConfirmation answer : Bool)
    (hfile : fs docxPath = some zip) (hpart : zip "word/document.xml" = some docXml)
    (hne : docXml ≠ "")
    (hsome : listChanges P.toISOString (parseXml P docXml) ≠ [])
    (hgo : skipConfirmation = true ∨ answer = true)
    (hT : textOnlyT (parseXml P docXml) = true) :
    applyAllChanges P toLowerCase fs docxPath outputPath none none skipConfirmation answer =
      (if insertionLoopThrows P (select "ins" (parseXml P docXml))
          { doc := parseXml P docXml, position := some } = true then
        (.failed .hierarchyRequest, copyIfDifferent fs docxPath outputPath)
      else
        (.ok (listChanges P.toISOString (parseXml P docXml)).length,
          (copyIfDifferent fs docxPath outputPath).writeFile (pathOr outputPath docxPath)
            (zip.setFile "word/document.xml"
              (serializeXml P (acceptAllInDoc (parseXml P docXml)))))) ∧
    ((∀ n ∈ parseXml P docXml, n.isW "ins" = false) →
      insertionLoopThrows P (select "ins" (parseXml P docXml))
        { doc := parseXml P docXml, position := some } = false) ∧
    (select "t" (acceptAllInDoc (parseXml P docXml))).map Prod.snd =
      visibleT (parseXml P docXml) ∧
    textOfElements ((select "t" (acceptAllInDoc (parseXml P docXml))).map Prod.snd) =
      textOfElements (visibleT (parseXml P docXml)) := by
  have hf : applyFilters toLowerCase none none (listChanges P.toISOString (parseXml P docXml)) =
      listChanges P.toISOString (parseXml P docXml) := by
    simp [applyFilters, orElse]
  have hv : (select "t" (acceptAllInDoc (parseXml P docXml))).map Prod.snd =
      visibleT (parseXml P docXml) := by
    rw [map_snd_select]
    exact acceptAllInDoc_visible _ hT
  have hrun := applyAllChanges_eq P toLowerCase fs docxPath zip docXml outputPath none none
    skipConfirmation answer hfile hpart hne (by rw [hf]; exact hsome) hgo
  rw [hf] at hrun
  exact ⟨hrun, insertionLoopThrows_of_no_root P _, hv, by rw [hv]⟩

theorem applyAllChanges_keeps_visible_text_witness :
    textOnlyT (parseXml (samplePlatform sampleNested) "<w:document/>") = true ∧
    visibleT sampleNested =
      [createElementNS "t" [] [.text "a"], createElementNS "t" [] [.text "b"]] ∧
    (∀ n ∈ parseXml (samplePlatform sampleNested) "<w:document/>", n.isW "ins" = false) ∧
    applyAllChanges (samplePlatform sampleNested) (fun s => s) sampleFiles "a.docx" none none
        none true false =
      (.ok 2, sampleFiles.writeFile "a.docx" (samplePackage.setFile "word/document.xml"
        (serializeXml (samplePlatform sampleNested) (acceptAllInDoc sampleNested)))) ∧
    (select "t" (acceptAllInDoc (parseXml (samplePlatform sampleNested) "<w:document/>"))).map
      Prod.snd = visibleT (parseXml (samplePlatform sampleNested) "<w:document/>") := by
  have h := applyAllChanges_keeps_visible_text (samplePlatform sampleNested) (fun s => s)
    sampleFiles "a.docx" samplePackage "<w:document/>" none true false rfl rfl (by decide)
    (by decide) (Or.inl rfl) (by decide)
  have hroot : ∀ n ∈ parseXml (samplePlatform sampleNested) "<w:document/>",
      n.isW "ins" = false := by
    intro n hn
    have : n ∈ sampleNested := hn
    simp only [sampleNested, sampleDocument, List.mem_singleton] at this
    rw [this]
    rfl
  refine ⟨by decide, rfl, hroot, ?_, h.2.2.1⟩
  rw [h.1, if_neg (by rw [h.2.1 hroot]; simp)]
  rfl

/-- C27 (the claim at failing inputs). In the sample document whose `w:t`
holds the text `a` and a `w:del` with the text `x`, the `w:t` is inside no
`w:del` and its text is `ax`; `applyAllChanges` accepts the one change and
writes the document whose `w:t` has the text `a`.  On the sample document
whose root element is a `w:ins`, `applyAllChanges` ends with the error
`insertBefore` throws and writes nothing. -/
theorem applyAllChanges_text_counterexample :
    (listChanges (fun _ => none) sampleDeletionInText).map (fun c => c.type) = ["Deletion"] ∧
    applyAllChanges (samplePlatform sampleDeletionInText) (fun s => s) sampleFiles "a.docx"
        none none none true false =
      (.ok 1, sampleFiles.writeFile "a.docx" (samplePackage.setFile "word/document.xml"
        (serializeXml (samplePlatform sampleDeletionInText)
          (acceptAllInDoc sampleDeletionInText)))) ∧
    acceptAllInDoc sampleDeletionInText =
      sampleDocument [createElementNS "r" [] [createElementNS "t" [] [.text "a"]]] ∧
    textOfElements ((select "t" (acceptAllInDoc sampleDeletionInText)).map Prod.snd) = "a" ∧
    visibleT sampleDeletionInText =
      [createElementNS "t" [] [.text "a", createElementNS "del" [] [.text "x"]]] ∧
    textOfElements (visibleT sampleDeletionInText) = "ax" ∧
    (listChanges (fun _ => none) sampleRootInsertion).length = 1 ∧
    applyAllChanges (samplePlatform sampleRootInsertion) (fun s => s) sampleFiles "a.docx" none
      none none true false = (.failed .hierarchyRequest, sampleFiles) := by
  have h1 : acceptAllInDoc sampleDeletionInText =
      sampleDocument [createElementNS "r" [] [createElementNS "t" [] [.text "a"]]] := rfl
  have h2 : visibleT sampleDeletionInText =
      [createElementNS "t" [] [.text "a", createElementNS "del" [] [.text "x"]]] := rfl
  refine ⟨by decide, rfl, h1, ?_, h2, ?_, by decide, rfl⟩
  · rw [h1]
    have : (select "t" (sampleDocument [createElementNS "r" []
        [createElementNS "t" [] [.text "a"]]])).map Prod.snd =
        [createElementNS "t" [] [.text "a"]] := rfl
    rw [this]
    simp [textOfElements, createElementNS, Node.childNodes, allText, String.join]
  · rw [h2]
    simp [textOfElements, createElementNS, Node.childNodes, allText, String.join]

/-! ## The XML declaration of the parts written -/

theorem serializeXml_twice (P : Platform) (doc : List Node) (rest : String)
    (hkeep : P.serializeToString doc = "<?xml" ++ rest) :
    serializeXml P doc = xmlDeclaration ++ "<?xml" ++ rest := by
  rw [serializeXml, hkeep, String.append_assoc]
  rfl

theorem readDocumentXml_written (fs : FileSystem) (path : String) (zip : Package)
    (docXml : String) (hpart : zip "word/document.xml" = some docXml) (hne : docXml ≠ "") :
    readDocumentXml (fs.writeFile path zip) path = .ok (zip, docXml) :=
  readDocumentXml_ok _ path zip docXml (by simp [FileSystem.writeFile]) hpart hne

theorem twice_ne_empty (rest : String) : xmlDeclaration ++ "<?xml" ++ rest ≠ "" := by
  intro h
  have hd := congrArg String.data h
  rw [String.data_append, String.data_append] at hd
  have : xmlDeclaration.data ≠ [] := by decide
  exact this (List.append_eq_nil.1 (List.append_eq_nil.1 hd).1).1

/-- C19 (the code at a failing input). When `addChange` adds a change to a
package, the document part it writes is the XML declaration followed by all
that the serializer gives for the document.  With a serializer that writes the
declaration the document was parsed with, as `XMLSerializer` does, the part
begins with two XML declarations, and that is the text the next
`listTrackChanges` on the file reads and hands to the parser. -/
theorem addChange_writes_second_declaration (P : Platform) (fs : FileSystem)
    (docxPath text type author : String) (outputPath : Option String) (changeDate : String)
    (zip : Package) (docXml : String) (docDoc1 : List Node) (rest : String)
    (hfile : fs docxPath = some zip) (hpart : zip "word/document.xml" = some docXml)
    (hne : docXml ≠ "")
    (hadd : addChangeInDoc (parseXml P docXml) text type author changeDate = .ok docDoc1)
    (hkeep : P.serializeToString docDoc1 = "<?xml" ++ rest) :
    ∃ zip2,
      addChange P fs docxPath text type author outputPath changeDate =
        (.ok { type := type, author := author, text := text },
          (copyIfDifferent fs docxPath outputPath).writeFile (pathOr outputPath docxPath)
            zip2) ∧
      zip2 "word/document.xml" = some (xmlDeclaration ++ "<?xml" ++ rest) ∧
      readDocumentXml ((copyIfDifferent fs docxPath outputPath).writeFile
        (pathOr outputPath docxPath) zip2) (pathOr outputPath docxPath) =
          .ok (zip2, xmlDeclaration ++ "<?xml" ++ rest) := by
  have hz : ((zip.setFile "word/document.xml" (serializeXml P docDoc1)).updateFile
      "word/settings.xml" enableTrackRevisions) "word/document.xml" =
      some (xmlDeclaration ++ "<?xml" ++ rest) := by
    rw [updateFile_apply, if_neg (by decide), ← serializeXml_twice P docDoc1 rest hkeep]
    simp [Package.setFile]
  exact ⟨_, addChange_eq P fs docxPath text type author outputPath changeDate zip docXml docDoc1
    hfile hpart hne hadd, hz, readDocumentXml_written _ _ _ _ hz (twice_ne_empty rest)⟩

set_option maxRecDepth 8192 in
theorem addChange_writes_second_declaration_witness :
    addChangeInDoc (parseXml (sampleDeclarationPlatform (sampleDocument [])) "<w:document/>")
        "draft" "insertion" "AIM" "2024" =
      .ok (atNode (fun cs => cs ++ [insertionParagraph "draft" "AIM" "2024"]) [0, 0]
        (sampleDocument [])) ∧
    xmlDeclaration ++ "<?xml" ++ (" version=\"1.0\" encoding=\"UTF-8\" standalone=\"yes\"?>" ++
        renderNodes (atNode (fun cs => cs ++ [insertionParagraph "draft" "AIM" "2024"]) [0, 0]
          (sampleDocument []))) =
      "<?xml version=\"1.0\" encoding=\"UTF-8\" standalone=\"yes\"?><?xml version=\"1.0\" encoding=\"UTF-8\" standalone=\"yes\"?><w:document><w:body><w:p/><w:p><w:ins w:author=\"AIM\" w:date=\"2024\"><w:r><w:t>draft</w:t></w:r></w:ins></w:p></w:body></w:document>" ∧
    ∃ zip2,
      addChange (sampleDeclarationPlatform (sampleDocument [])) sampleFiles "a.docx" "draft"
          "insertion" "AIM" none "2024" =
        (.ok { type := "insertion", author := "AIM", text := "draft" },
          (copyIfDifferent sampleFiles "a.docx" none).writeFile (pathOr none "a.docx") zip2) ∧
      zip2 "word/document.xml" = some (xmlDeclaration ++ "<?xml" ++
        (" version=\"1.0\" encoding=\"UTF-8\" standalone=\"yes\"?>" ++
          renderNodes (atNode (fun cs => cs ++ [insertionParagraph "draft" "AIM" "2024"]) [0, 0]
            (sampleDocument [])))) ∧
      readDocumentXml ((copyIfDifferent sampleFiles "a.docx" none).writeFile
        (pathOr none "a.docx") zip2) (pathOr none "a.docx") =
          .ok (zip2, xmlDeclaration ++ "<?xml" ++
            (" version=\"1.0\" encoding=\"UTF-8\" standalone=\"yes\"?>" ++
              renderNodes (atNode (fun cs => cs ++ [insertionParagraph "draft" "AIM" "2024"])
                [0, 0] (sampleDocument [])))) :=
  ⟨rfl, rfl,
    addChange_writes_second_declaration (sampleDeclarationPlatform (sampleDocument []))
      sampleFiles "a.docx" "draft" "insertion" "AIM" none "2024" samplePackage "<w:document/>"
      _ _ rfl rfl (by decide) rfl rfl⟩

/-- C29 (the code at a failing input). When `applyChange` accepts the change
with the id `id`, the document part it writes is the XML declaration followed
by all that the serializer gives for the document with that change accepted.
With a serializer that writes the declaration the document was parsed with, as
`XMLSerializer` does, the part begins with two XML declarations, and that is
the text the next `listTrackChanges` on the file reads and hands to the
parser. -/
theorem applyChange_writes_second_declaration (P : Platform) (fs : FileSystem)
    (docxPath : String) (zip : Package) (docXml : String) (id : Nat)
    (outputPath : Option String) (skipConfirmation answer : Bool) (change : ChangeRecord)
    (e : NodePath × Node) (rest : String)
    (hfile : fs docxPath = some zip) (hpart : zip "word/document.xml" = some docXml)
    (hne : docXml ≠ "") (h1 : 1 ≤ id)
    (hrec : (listChanges P.toISOString (parseXml P docXml))[id - 1]? = some change)
    (hw : (changeWrappers (parseXml P docXml))[id - 1]? = some (change.element, e))
    (hno : ¬ (change.type = "Insertion" ∧ insertBeforeThrows P e.1 e.2.childNodes = true))
    (hgo : skipConfirmation = true ∨ answer = true)
    (hkeep : P.serializeToString (acceptAt change e.1 (parseXml P docXml)) = "<?xml" ++ rest) :
    ∃ zip1,
      applyChange P fs docxPath (.num id) outputPath skipConfirmation answer =
        (.ok { changeId := .num id, type := change.type },
          (copyIfDifferent fs docxPath outputPath).writeFile (pathOr outputPath docxPath)
            zip1) ∧
      zip1 "word/document.xml" = some (xmlDeclaration ++ "<?xml" ++ rest) ∧
      readDocumentXml ((copyIfDifferent fs docxPath outputPath).writeFile
        (pathOr outputPath docxPath) zip1) (pathOr outputPath docxPath) =
          .ok (zip1, xmlDeclaration ++ "<?xml" ++ rest) := by
  have h2 : id ≤ (listChanges P.toISOString (parseXml P docXml)).length := by
    have := (List.getElem?_eq_some_iff.1 hrec).1
    omega
  obtain ⟨change2, e2, hget, hfind, hw2, htarget, _⟩ :=
    targetElement_listed P.toISOString (parseXml P docXml) id h1 h2
  have hch : change2 = change := by
    rw [hrec] at hget; exact (Option.some.inj hget).symm
  subst hch
  have he : e2 = e := by
    rw [hw] at hw2
    exact (Prod.mk.inj (Option.some.inj hw2)).2.symm
  subst he
  have hrun := applyChange_eq P fs docxPath zip docXml id outputPath skipConfirmation answer
    change2 e2 hfile hpart hne hfind htarget hgo
  rw [if_neg hno] at hrun
  have hz : (zip.setFile "word/document.xml"
      (serializeXml P (acceptAt change2 e2.1 (parseXml P docXml)))) "word/document.xml" =
      some (xmlDeclaration ++ "<?xml" ++ rest) := by
    rw [← serializeXml_twice P _ rest hkeep]
    simp [Package.setFile]
  exact ⟨_, hrun, hz, readDocumentXml_written _ _ _ _ hz (twice_ne_empty rest)⟩

set_option maxRecDepth 8192 in
theorem applyChange_writes_second_declaration_witness :
    (listChanges (sampleDeclarationPlatform sampleMixed).toISOString
      (parseXml (sampleDeclarationPlatform sampleMixed) "<w:document/>"))[1 - 1]? =
        some sampleInsertion ∧
    xmlDeclaration ++ "<?xml" ++ (" version=\"1.0\" encoding=\"UTF-8\" standalone=\"yes\"?>" ++
        renderNodes (acceptAt sampleInsertion [0, 0, 0, 0] sampleMixed)) =
      "<?xml version=\"1.0\" encoding=\"UTF-8\" standalone=\"yes\"?><?xml version=\"1.0\" encoding=\"UTF-8\" standalone=\"yes\"?><w:document><w:body><w:p><w:r><w:t>Hello</w:t></w:r><w:del><w:r><w:delText>old</w:delText></w:r></w:del><w:r><w:rPr w:b=\"1\"><w:rPrChange w:author=\"Bob\"/></w:rPr><w:t>z</w:t></w:r></w:p></w:body></w:document>" ∧
    ∃ zip1,
      applyChange (sampleDeclarationPlatform sampleMixed) sampleFiles "a.docx" (.num (1 : Nat))
          none true false =
        (.ok { changeId := .num (1 : Nat), type := sampleInsertion.type },
          (copyIfDifferent sampleFiles "a.docx" none).writeFile (pathOr none "a.docx") zip1) ∧
      zip1 "word/document.xml" = some (xmlDeclaration ++ "<?xml" ++
        (" version=\"1.0\" encoding=\"UTF-8\" standalone=\"yes\"?>" ++
          renderNodes (acceptAt sampleInsertion [0, 0, 0, 0] sampleMixed))) ∧
      readDocumentXml ((copyIfDifferent sampleFiles "a.docx" none).writeFile
        (pathOr none "a.docx") zip1) (pathOr none "a.docx") =
          .ok (zip1, xmlDeclaration ++ "<?xml" ++
            (" version=\"1.0\" encoding=\"UTF-8\" standalone=\"yes\"?>" ++
              renderNodes (acceptAt sampleInsertion [0, 0, 0, 0] sampleMixed))) :=
  ⟨by decide, rfl,
    applyChange_writes_second_declaration (sampleDeclarationPlatform sampleMixed) sampleFiles
      "a.docx" samplePackage "<w:document/>" 1 none true false sampleInsertion
      ([0, 0, 0, 0], createElementNS "ins" [("w:author", "Alice")] [sampleRun "Hello"]) _
      rfl rfl (by decide) (by decide) (by decide) rfl (by decide) (Or.inl rfl) rfl⟩

/-- C28 (the code at a failing input). When `addComment` adds a comment, the
comments part it writes is the XML declaration followed by all that the
serializer gives for the comments document with the new comment.  With a
serializer that writes the declaration the document was parsed with, as
`XMLSerializer` does for the text used in place of an absent comments part,
the part begins with two XML declarations, and that is the text the next
`listComments` on the file hands to the parser.  On a package without comments
part `listComments` returned no comment before. -/
theorem addComment_writes_second_declaration (P : Platform) (toUpperCase : String → String)
    (fs : FileSystem) (docxPath text author : String) (initials outputPath : Option String)
    (commentDate : String) (zip : Package) (docXml : String) (commentsDoc commentsDoc1 : List Node)
    (rest : String)
    (hfile : fs docxPath = some zip) (hpart : zip "word/document.xml" = some docXml)
    (hne : docXml ≠ "")
    (hdoc : (if orElse (zip "word/comments.xml") "" = "" then emptyCommentsDoc
      else parseXml P (orElse (zip "word/comments.xml") "")) = commentsDoc)
    (happ : appendToDocumentElement
      (commentElement (numberToString (nextCommentId commentsDoc)) author commentDate
        (commentInitials toUpperCase initials author) text) commentsDoc = some commentsDoc1)
    (hkeep : P.serializeToString commentsDoc1 = "<?xml" ++ rest) :
    ∃ zip3,
      addComment P toUpperCase fs docxPath text author initials outputPath commentDate =
        (.ok { commentId := numberToString (nextCommentId commentsDoc), author := author,
               text := text },
          (copyIfDifferent fs docxPath outputPath).writeFile (pathOr outputPath docxPath)
            zip3) ∧
      zip3 "word/comments.xml" = some (xmlDeclaration ++ "<?xml" ++ rest) ∧
      orElse (zip3 "word/comments.xml") "" = xmlDeclaration ++ "<?xml" ++ rest ∧
      (orElse (zip "word/comments.xml") "" = "" → listComments P fs docxPath = .ok []) := by
  have hadd : addCommentToPackage P toUpperCase zip docXml text author initials commentDate =
      some ({ commentId := numberToString (nextCommentId commentsDoc), author := author,
              text := text },
        ((if orElse (zip "word/comments.xml") "" = "" then
            (zip.updateFile "[Content_Types].xml" updateContentTypes).updateFile
              "word/_rels/document.xml.rels" updateRels
          else zip).setFile "word/comments.xml" (serializeXml P commentsDoc1)).setFile
          "word/document.xml" (serializeXml P (anchorComment
            (numberToString (nextCommentId commentsDoc)) (parseXml P docXml)))) := by
    simp only [addCommentToPackage, hdoc, happ]
  have hn : ¬ "word/comments.xml" = "word/document.xml" := by decide
  have hz : (((if orElse (zip "word/comments.xml") "" = "" then
            (zip.updateFile "[Content_Types].xml" updateContentTypes).updateFile
              "word/_rels/document.xml.rels" updateRels
          else zip).setFile "word/comments.xml" (serializeXml P commentsDoc1)).setFile
          "word/document.xml" (serializeXml P (anchorComment
            (numberToString (nextCommentId commentsDoc)) (parseXml P docXml))))
        "word/comments.xml" = some (xmlDeclaration ++ "<?xml" ++ rest) := by
    rw [← serializeXml_twice P _ rest hkeep]
    simp [Package.setFile, hn]
  refine ⟨_, addComment_eq P toUpperCase fs docxPath text author initials outputPath
    commentDate zip docXml _ _ hfile hpart hne hadd, hz, ?_, ?_⟩
  · rw [hz]
    simp [orElse, twice_ne_empty]
  · intro h
    rw [listComments, hfile]
    simp only [h, ↓reduceIte]

set_option maxRecDepth 8192 in
theorem addComment_writes_second_declaration_witness :
    xmlDeclaration ++ "<?xml" ++ (" version=\"1.0\" encoding=\"UTF-8\" standalone=\"yes\"?>" ++
        renderNodes [Node.elem NS_W "comments" [("xmlns:w", NS_W)]
          [commentElement "1" "Jane Doe" "2024" "JD" "note"]]) =
      "<?xml version=\"1.0\" encoding=\"UTF-8\" standalone=\"yes\"?><?xml version=\"1.0\" encoding=\"UTF-8\" standalone=\"yes\"?><w:comments xmlns:w=\"http://schemas.openxmlformats.org/wordprocessingml/2006/main\"><w:comment w:id=\"1\" w:author=\"Jane Doe\" w:date=\"2024\" w:initials=\"JD\"><w:p><w:r><w:t>note</w:t></w:r></w:p></w:comment></w:comments>" ∧
    listComments (sampleDeclarationPlatform (sampleDocument [])) sampleBareFiles "a.docx" =
      .ok [] ∧
    ∃ zip3,
      addComment (sampleDeclarationPlatform (sampleDocument [])) sampleUpper sampleBareFiles
          "a.docx" "note" "Jane Doe" none none "2024" =
        (.ok { commentId := "1", author := "Jane Doe", text := "note" },
          (copyIfDifferent sampleBareFiles "a.docx" none).writeFile (pathOr none "a.docx")
            zip3) ∧
      zip3 "word/comments.xml" = some (xmlDeclaration ++ "<?xml" ++
        (" version=\"1.0\" encoding=\"UTF-8\" standalone=\"yes\"?>" ++
          renderNodes [Node.elem NS_W "comments" [("xmlns:w", NS_W)]
            [commentElement "1" "Jane Doe" "2024" "JD" "note"]])) := by
  obtain ⟨zip3, h1, h2, _, h4⟩ := addComment_writes_second_declaration
    (sampleDeclarationPlatform (sampleDocument [])) sampleUpper sampleBareFiles "a.docx" "note"
    "Jane Doe" none none "2024" sampleBarePackage "<w:document/>" emptyCommentsDoc
    [Node.elem NS_W "comments" [("xmlns:w", NS_W)]
      [commentElement "1" "Jane Doe" "2024" "JD" "note"]]
    (" version=\"1.0\" encoding=\"UTF-8\" standalone=\"yes\"?>" ++
      renderNodes [Node.elem NS_W "comments" [("xmlns:w", NS_W)]
        [commentElement "1" "Jane Doe" "2024" "JD" "note"]])
    rfl rfl (by decide) rfl rfl rfl
  exact ⟨rfl, h4 rfl, zip3, h1, h2⟩

theorem maxIdLoop_le (es : List (NodePath × Node)) (B : Nat) :
    ∀ m : Nat, m ≤ B →
      (∀ c ∈ es, ∀ n : Int, parseInt (orElse (c.2.getAttribute "w:id") "0") = .num n →
        n ≤ (B : Int)) →
      maxIdLoop es m ≤ B := by
  induction es with
  | nil => intro m hm _; exact hm
  | cons e rest ih =>
    intro m hm h
    rw [maxIdLoop]
    have hrest : ∀ c ∈ rest, ∀ n : Int,
        parseInt (orElse (c.2.getAttribute "w:id") "0") = .num n → n ≤ (B : Int) :=
      fun c hc => h c (List.mem_cons_of_mem _ hc)
    cases hp : parseInt (orElse (e.2.getAttribute "w:id") "0") with
    | nan => exact ih m hm hrest
    | num id =>
      have hid := h e (List.mem_cons_self _ _) id hp
      apply ih _ _ hrest
      split
      · omega
      · exact hm

/-- C11 (the code at a failing input). While the numbers `parseInt` reads from
the `w:id` of the comments are below `2 ^ 53`, where JavaScript numbers are
exact, the number behind the id `addComment` assigns is strictly greater than
each of them, and it is 1 when there is no comment.  On a package without
comments part the first call returns the id `1` and writes, as comments part,
the XML declaration followed by all that the serializer gives; with a
serializer that writes the declaration of the text the comments document was
parsed from, as `XMLSerializer` does, the part the second call has to parse
begins with two XML declarations. -/
theorem addComment_first_id (P : Platform) (toUpperCase : String → String)
    (fs : FileSystem) (docxPath text author : String) (initials outputPath : Option String)
    (commentDate : String) (zip : Package) (docXml : String) (rest : String)
    (hfile : fs docxPath = some zip) (hpart : zip "word/document.xml" = some docXml)
    (hne : docXml ≠ "")
    (hnone : orElse (zip "word/comments.xml") "" = "")
    (hkeep : P.serializeToString [.elem NS_W "comments" [("xmlns:w", NS_W)]
      [commentElement "1" author commentDate (commentInitials toUpperCase initials author)
        text]] = "<?xml" ++ rest) :
    (∀ commentsDoc : List Node,
      (∀ c ∈ select "comment" commentsDoc, ∀ n : Int,
        parseInt (orElse (c.2.getAttribute "w:id") "0") = .num n → n < 2 ^ 53) →
      (∀ c ∈ select "comment" commentsDoc, ∀ n : Int,
        parseInt (orElse (c.2.getAttribute "w:id") "0") = .num n →
          n < (nextCommentId commentsDoc : Int)) ∧
      (nextCommentId commentsDoc : Int) ≤ 2 ^ 53 ∧
      (select "comment" commentsDoc = [] → nextCommentId commentsDoc = 1)) ∧
    ∃ zip3,
      addComment P toUpperCase fs docxPath text author initials outputPath commentDate =
        (.ok { commentId := "1", author := author, text := text },
          (copyIfDifferent fs docxPath outputPath).writeFile (pathOr outputPath docxPath)
            zip3) ∧
      zip3 "word/comments.xml" = some (xmlDeclaration ++ "<?xml" ++ rest) := by
  constructor
  · intro commentsDoc hsafe
    refine ⟨?_, ?_, ?_⟩
    · intro c hc n hn
      have := le_maxIdLoop _ 0 c n hc hn
      rw [nextCommentId]
      push_cast
      omega
    · have := maxIdLoop_le (select "comment" commentsDoc) (2 ^ 53 - 1) 0 (Nat.zero_le _)
        (fun c hc n hn => by
          have := hsafe c hc n hn
          have h53 : ((2 ^ 53 - 1 : Nat) : Int) = 2 ^ 53 - 1 := by norm_num
          rw [h53]
          omega)
      rw [nextCommentId]
      have h53 : (2 : Int) ^ 53 = 9007199254740992 := by norm_num
      have h53n : (2 : Nat) ^ 53 = 9007199254740992 := by norm_num
      rw [h53]
      rw [h53n] at this
      push_cast
      omega
    · intro h
      rw [nextCommentId, h]
      rfl
  · have hadd : addCommentToPackage P toUpperCase zip docXml text author initials commentDate =
        some ({ commentId := "1", author := author, text := text },
          (((zip.updateFile "[Content_Types].xml" updateContentTypes).updateFile
              "word/_rels/document.xml.rels" updateRels).setFile "word/comments.xml"
            (serializeXml P [.elem NS_W "comments" [("xmlns:w", NS_W)]
              [commentElement "1" author commentDate
                (commentInitials toUpperCase initials author) text]])).setFile
            "word/document.xml" (serializeXml P (anchorComment "1" (parseXml P docXml)))) := by
      have h1 : nextCommentId emptyCommentsDoc = 1 := by decide
      have h2 : numberToString 1 = "1" := by decide
      simp only [addCommentToPackage, hnone, ↓reduceIte, h1, h2]
      rfl
    have hn : ¬ "word/comments.xml" = "word/document.xml" := by decide
    refine ⟨_, addComment_eq P toUpperCase fs docxPath text author initials outputPath
      commentDate zip docXml _ _ hfile hpart hne hadd, ?_⟩
    rw [← serializeXml_twice P _ rest hkeep]
    simp [Package.setFile, hn]

set_option maxRecDepth 8192 in
theorem addComment_first_id_witness :
    orElse (samplePackage "word/comments.xml") "" = "" ∧
    xmlDeclaration ++ "<?xml" ++ (" version=\"1.0\" encoding=\"UTF-8\" standalone=\"yes\"?>" ++
        renderNodes [Node.elem NS_W "comments" [("xmlns:w", NS_W)]
          [commentElement "1" "AIM" "2024" "A" "first"]]) =
      "<?xml version=\"1.0\" encoding=\"UTF-8\" standalone=\"yes\"?><?xml version=\"1.0\" encoding=\"UTF-8\" standalone=\"yes\"?><w:comments xmlns:w=\"http://schemas.openxmlformats.org/wordprocessingml/2006/main\"><w:comment w:id=\"1\" w:author=\"AIM\" w:date=\"2024\" w:initials=\"A\"><w:p><w:r><w:t>first</w:t></w:r></w:p></w:comment></w:comments>" ∧
    (7 : Int) < (nextCommentId
      [Node.elem NS_W "comments" [] [commentElement "7" "A" "d" "A" "x"]] : Int) ∧
    ∃ zip3,
      addComment (sampleDeclarationPlatform (sampleDocument [])) sampleUpper sampleFiles
          "a.docx" "first" "AIM" none none "2024" =
        (.ok { commentId := "1", author := "AIM", text := "first" },
          (copyIfDifferent sampleFiles "a.docx" none).writeFile (pathOr none "a.docx") zip3) ∧
      zip3 "word/comments.xml" = some (xmlDeclaration ++ "<?xml" ++
        (" version=\"1.0\" encoding=\"UTF-8\" standalone=\"yes\"?>" ++
          renderNodes [Node.elem NS_W "comments" [("xmlns:w", NS_W)]
            [commentElement "1" "AIM" "2024" "A" "first"]])) := by
  have h := addComment_first_id (sampleDeclarationPlatform (sampleDocument [])) sampleUpper
    sampleFiles "a.docx" "first" "AIM" none none "2024" samplePackage "<w:document/>"
    (" version=\"1.0\" encoding=\"UTF-8\" standalone=\"yes\"?>" ++
      renderNodes [Node.elem NS_W "comments" [("xmlns:w", NS_W)]
        [commentElement "1" "AIM" "2024" "A" "first"]])
    rfl rfl (by decide) rfl rfl
  refine ⟨rfl, rfl, ?_, h.2⟩
  refine (h.1 [Node.elem NS_W "comments" [] [commentElement "7" "A" "d" "A" "x"]] ?_).1
    ([0, 0], commentElement "7" "A" "d" "A" "x") (List.mem_iff_getElem?.2 ⟨0, rfl⟩) 7
    (by decide)
  intro c hc n hn
  have hc2 : c = ([0, 0], commentElement "7" "A" "d" "A" "x") := by
    have : select "comment" [Node.elem NS_W "comments" [] [commentElement "7" "A" "d" "A" "x"]] =
        [([0, 0], commentElement "7" "A" "d" "A" "x")] := rfl
    rw [this] at hc
    simpa using hc
  subst hc2
  have h7 : parseInt (orElse ((commentElement "7" "A" "d" "A" "x").getAttribute "w:id") "0") =
      .num 7 := by decide
  rw [h7] at hn
  cases hn
  norm_num

end Docx
